import Mathlib

/-!
# The `form` example application (examples/base/main.go)

A shallow embedding of `examples/base/main.go`: the before-create request hook,
the `form` command (tear down, recreate and seed the `projects`, `memberOf` and
`posts` collections), its helpers `die`, `makeStandardCollection`,
`makeCollection`, `tryDeleteCollection`, `deleteCollections`, and
`defaultPublicDir`.

The framework's data access layer (`app.Dao()`, `forms.*`) is not part of the
file.  The program is therefore embedded over an arbitrary `Dao σ` (any store
behaviour), and a concrete store `specDao` is modelled from the specification's
Store Adapter interface for the properties that depend on what the store does.
Console output (`fmt.Println`, `log.Println`, `debug.PrintStack`) is not part of
the embedding; process termination (`log.Fatal`, a nil dereference) is.
-/

namespace Pb

/-! ## Definitions -/

section Definitions

variable {σ α β : Type}

/-- Go `error` values returned by the store. -/
inductive Error where
  | duplicateName
  | invalidRule
  | invalidField
  | hasDependents
  | validationFailed
  | other (msg : String)
deriving DecidableEq, Repr

/-- The `schema.FieldType*` constants used by the source. -/
inductive FieldType where
  | text
  | editor
  | file
  | relation
  | select
  | json
deriving DecidableEq, Repr

/-- The `Options` of a `schema.SchemaField`: `nil` or one of the option structs
the source instantiates, with the members the source sets. -/
inductive FieldOptions where
  | nil
  | text (Max : Option Nat)
  | file (MaxSelect : Nat) (MaxSize : Nat) (MimeTypes : List String)
  | relation (MaxSelect : Option Nat) (CollectionId : String) (CascadeDelete : Bool)
  | select (MaxSelect : Nat) (Values : List String)
  | json
  | editor
deriving DecidableEq, Repr

/-- A `schema.SchemaField` with the members the source sets. -/
structure SchemaField where
  Name : String
  Typ : FieldType
  Required : Bool := false
  Unique : Bool := false
  Options : FieldOptions := FieldOptions.nil
deriving DecidableEq, Repr

/-- Collection types: the Go zero value and `models.CollectionTypeBase`,
`models.CollectionTypeAuth`. -/
inductive CollectionType where
  | unset
  | base
  | auth
deriving DecidableEq, Repr

/-- A `models.Collection`. A rule is a `*string`: `none` is the nil pointer. -/
structure Collection where
  Id : String := ""
  Name : String := ""
  Typ : CollectionType := CollectionType.unset
  Schema : List SchemaField := []
  ListRule : Option String := none
  ViewRule : Option String := none
  CreateRule : Option String := none
  UpdateRule : Option String := none
  DeleteRule : Option String := none
deriving DecidableEq, Repr

/-- A `forms.CollectionUpsert`: the members the source assigns. -/
structure CollectionUpsert where
  Typ : CollectionType := CollectionType.unset
  Name : String := ""
  ListRule : Option String := none
  ViewRule : Option String := none
  CreateRule : Option String := none
  UpdateRule : Option String := none
  DeleteRule : Option String := none
  Schema : List SchemaField := []
deriving DecidableEq, Repr

/-- Field values of a record, `map[string]any` restricted to the string values
the source loads, in source order. -/
abbrev RecordData := List (String × String)

/-- A `models.Record`: its identifier, its collection (`record.Collection()`)
and its field values (`record.Get`). -/
structure Record where
  Id : String := ""
  collection : Collection
  data : RecordData := []
deriving DecidableEq, Repr

/-- Reads a field in the manner of `record.Get(key)`. -/
def Record.Get (r : Record) (key : String) : Option String :=
  (r.data.find? (fun kv => kv.1 == key)).map (fun kv => kv.2)

/-- The call `models.NewRecord(collection)`: an unsaved record of the collection. -/
def NewRecord (collection : Collection) : Record :=
  { Id := "", collection := collection, data := [] }

/-- The target collection identifier of a relation field, if it is one. -/
def SchemaField.relationTarget (f : SchemaField) : Option String :=
  match f.Options with
  | FieldOptions.relation _ cid _ => some cid
  | _ => none

/-- The collection identifiers targeted by the relation fields of a schema. -/
def relationTargets (fields : List SchemaField) : List String :=
  fields.filterMap SchemaField.relationTarget

/-- The store operations the program calls, over an arbitrary store state `σ`.
Each Go call returning `(value, error)` is a pair; reads leave the store
unchanged, writes return the new store. -/
structure Dao (σ : Type) where
  FindCollectionByNameOrId : σ → String → Option Collection × Option Error
  DeleteCollection : σ → Collection → σ × Option Error
  FindRecordsByExpr : σ → String → String × String → List Record × Option Error
  SubmitCollection : σ → CollectionUpsert → σ × (Collection × Option Error)
  SubmitRecord : σ → Record → RecordData → σ × (Record × Option Error)

/-- One performed store operation with what it answered. -/
inductive Event where
  | findCollection (nameOrId : String) (found : Option Collection) (err : Option Error)
  | deleteCollection (collection : Collection) (err : Option Error)
  | submitCollection (form : CollectionUpsert) (saved : Collection) (err : Option Error)
  | findRecords (collectionNameOrId : String) (exp : String × String)
      (found : List Record) (err : Option Error)
  | submitRecord (record : Record) (data : RecordData) (saved : Record) (err : Option Error)
deriving DecidableEq, Repr

/-- The error an operation answered. -/
def Event.err : Event → Option Error
  | Event.findCollection _ _ e => e
  | Event.deleteCollection _ e => e
  | Event.submitCollection _ _ e => e
  | Event.findRecords _ _ _ e => e
  | Event.submitRecord _ _ _ e => e

/-- Whether the operation is a collection deletion. -/
def Event.isDelete : Event → Bool
  | Event.deleteCollection _ _ => true
  | _ => false

/-- Whether the operation is a collection creation or a record upsert. -/
def Event.isSubmit : Event → Bool
  | Event.submitCollection _ _ _ => true
  | Event.submitRecord _ _ _ _ => true
  | _ => false

/-- Whether the operation is a record upsert. -/
def Event.isSubmitRecord : Event → Bool
  | Event.submitRecord _ _ _ _ => true
  | _ => false

/-- How the process ends abnormally: `log.Fatal(err)`, `log.Fatal(message)`,
or the runtime panic of a nil pointer dereference. -/
inductive Exit where
  | fatal (err : Error)
  | fatalMsg (msg : String)
  | nilDeref
deriving DecidableEq, Repr

/-- The store together with the operations performed on it so far. -/
structure World (σ : Type) where
  store : σ
  trace : List Event

/-- The result of running a piece of the program: a value, or process exit. -/
inductive Res (σ α : Type) where
  | ok (a : α) (w : World σ)
  | exit (e : Exit) (w : World σ)

/-- The world a piece of the program ends in. -/
def Res.world {σ α : Type} : Res σ α → World σ
  | Res.ok _ w => w
  | Res.exit _ w => w

/-- The exit reason, `none` when the piece returned normally. -/
def Res.exit? {σ α : Type} : Res σ α → Option Exit
  | Res.ok _ _ => none
  | Res.exit e _ => some e

/-- A piece of the program. -/
def Prog (σ α : Type) : Type := World σ → Res σ α

/-- Sequencing: a process exit skips everything that follows. -/
def Prog.bind {σ α β : Type} (m : Prog σ α) (f : α → Prog σ β) : Prog σ β :=
  fun w => match m w with
    | Res.ok a w1 => f a w1
    | Res.exit e w1 => Res.exit e w1

instance {σ : Type} : Monad (Prog σ) where
  pure a := fun w => Res.ok a w
  bind := Prog.bind

/-- Terminates the process. -/
def exitWith {σ α : Type} (e : Exit) : Prog σ α := fun w => Res.exit e w

/-- The call `app.Dao().FindCollectionByNameOrId(nameOrId)`. -/
def findCollectionByNameOrId {σ : Type} (d : Dao σ) (nameOrId : String) :
    Prog σ (Option Collection × Option Error) := fun w =>
  let r := d.FindCollectionByNameOrId w.store nameOrId
  Res.ok r { store := w.store, trace := w.trace ++ [Event.findCollection nameOrId r.1 r.2] }

/-- The call `app.Dao().DeleteCollection(collection)`. -/
def daoDeleteCollection {σ : Type} (d : Dao σ) (collection : Collection) :
    Prog σ (Option Error) := fun w =>
  let r := d.DeleteCollection w.store collection
  Res.ok r.2 { store := r.1, trace := w.trace ++ [Event.deleteCollection collection r.2] }

/-- The call `app.Dao().FindRecordsByExpr(collectionNameOrId, dbx.HashExp{key: value})`. -/
def findRecordsByExpr {σ : Type} (d : Dao σ) (collectionNameOrId : String)
    (exp : String × String) : Prog σ (List Record × Option Error) := fun w =>
  let r := d.FindRecordsByExpr w.store collectionNameOrId exp
  Res.ok r { store := w.store,
             trace := w.trace ++ [Event.findRecords collectionNameOrId exp r.1 r.2] }

/-- The calls `forms.NewCollectionUpsert(app, collection)` ... `form.Submit()`: answers
the collection as it is after the submission, and the error. -/
def submitCollectionUpsert {σ : Type} (d : Dao σ) (form : CollectionUpsert) :
    Prog σ (Collection × Option Error) := fun w =>
  let r := d.SubmitCollection w.store form
  Res.ok r.2 { store := r.1, trace := w.trace ++ [Event.submitCollection form r.2.1 r.2.2] }

/-- The calls `forms.NewRecordUpsert(app, record)`, `form.LoadData(data)`, `form.Submit()`:
answers the record as it is after the submission, and the error. -/
def submitRecordUpsert {σ : Type} (d : Dao σ) (record : Record) (data : RecordData) :
    Prog σ (Record × Option Error) := fun w =>
  let r := d.SubmitRecord w.store record data
  Res.ok r.2 { store := r.1, trace := w.trace ++ [Event.submitRecord record data r.2.1 r.2.2] }

/-- The function `die(err)`: quits if the error is not nil. -/
def die {σ : Type} (err : Option Error) : Prog σ Unit :=
  match err with
  | some e => exitWith (Exit.fatal e)
  | none => pure ()

/-- Modelled from the spec: `Schema.AddField` of the framework's schema package,
which is not among the sources. The specification has the field list built in
order (section 4.1), so registering a field appends it. -/
def AddField (schema : List SchemaField) (field : SchemaField) : List SchemaField :=
  schema ++ [field]

/-- The function `makeCollection` (main.go 347-363). -/
def makeCollection {σ : Type} (d : Dao σ) (name : String) (fields : List SchemaField)
    (listRule viewRule createRule updateRule deleteRule : Option String) :
    Prog σ (Collection × Option Error) :=
  let form : CollectionUpsert := {}
  let form := { form with Typ := CollectionType.base }
  let form := { form with Name := name }
  let form := { form with ListRule := listRule }
  let form := { form with ViewRule := viewRule }
  let form := { form with CreateRule := createRule }
  let form := { form with UpdateRule := updateRule }
  let form := { form with DeleteRule := deleteRule }
  let form := fields.foldl (fun fm field => { fm with Schema := AddField fm.Schema field }) form
  submitCollectionUpsert d form

/-- The function `makeStandardCollection` (main.go 344-346). -/
def makeStandardCollection {σ : Type} (d : Dao σ) (name : String)
    (fields : List SchemaField) : Prog σ (Collection × Option Error) :=
  makeCollection d name fields (some "") (some "@request.auth.id != ''") (some "")
    (some "@request.auth.id != ''") none

/-- The function `tryDeleteCollection` (main.go 365-376). -/
def tryDeleteCollection {σ : Type} (d : Dao σ) (name : String) :
    Prog σ (Bool × Option Error) := do
  let r ← findCollectionByNameOrId d name
  match r.2 with
  | some err => pure (false, some err)
  | none =>
    match r.1 with
    | some collection =>
      let err ← daoDeleteCollection d collection
      pure (err.isNone, err)
    | none => pure (false, none)

/-- The function `deleteCollections` (main.go 377-385). -/
def deleteCollections {σ : Type} (d : Dao σ) : List String → Prog σ (Option Error)
  | [] => pure none
  | name :: names => do
    let r ← tryDeleteCollection d name
    match r.2 with
    | some err => pure (some err)
    | none => deleteCollections d names

/-- The schema of `projects` (main.go 127-152). -/
def projectsFields : List SchemaField :=
  [ { Name := "name", Typ := FieldType.text, Required := true, Unique := true,
      Options := FieldOptions.text (some 50) },
    { Name := "description", Typ := FieldType.editor, Required := true, Unique := false },
    { Name := "thumbnail", Typ := FieldType.file, Required := false, Unique := false,
      Options := FieldOptions.file 1 250000
        ["image/jpeg", "image/png", "image/svg+xml", "image/gif", "image/webp"] } ]

/-- The schema of `memberOf` (main.go 155-188), given `usersCollection.Id` and
`projectCollection.Id`. -/
def memberOfFields (usersId projectId : String) : List SchemaField :=
  [ { Name := "user_", Typ := FieldType.relation, Required := true,
      Options := FieldOptions.relation (some 1) usersId true },
    { Name := "_project", Typ := FieldType.relation, Required := true,
      Options := FieldOptions.relation (some 1) projectId true },
    { Name := "role", Typ := FieldType.text, Required := false, Unique := false,
      Options := FieldOptions.text (some 50) },
    { Name := "contacts", Typ := FieldType.json, Required := false, Unique := false } ]

/-- The schema of `posts` (main.go 191-246), given `projectCollection.Id` and
`usersCollection.Id`. -/
def postsFields (projectId usersId : String) : List SchemaField :=
  [ { Name := "projects", Typ := FieldType.relation, Required := false, Unique := false,
      Options := FieldOptions.relation (some 8) projectId true },
    { Name := "authors", Typ := FieldType.relation, Required := false, Unique := false,
      Options := FieldOptions.relation (some 8) usersId true },
    { Name := "type", Typ := FieldType.select, Required := true, Unique := false,
      Options := FieldOptions.select 1 ["ProjectUpdate", "Standalone", "Comment"] },
    { Name := "metadata", Typ := FieldType.json, Required := false, Unique := false,
      Options := FieldOptions.json },
    { Name := "content", Typ := FieldType.editor, Required := true, Unique := false,
      Options := FieldOptions.editor },
    { Name := "files", Typ := FieldType.file, Required := false, Unique := false,
      Options := FieldOptions.file 256 500000
        ["image/jpeg", "image/png", "image/svg+xml", "image/gif", "image/webp"] } ]

/-- The constant `TEST_USER_COUNT := 10` (main.go 256). -/
def TEST_USER_COUNT : Nat := 10

/-- The constant `MAKE_USERS := false` (main.go 257). -/
def MAKE_USERS : Bool := false

/-- The string `fmt.Sprintf("TEST_USER_%d", i)`. -/
def testUsername (i : Nat) : String := "TEST_USER_" ++ Nat.repr i

/-- The string `fmt.Sprintf("No user with name $s", username)`: the format has no verb, so
the argument is reported as extra. -/
def noUserMessage (username : String) : String :=
  "No user with name $s%!(EXTRA string=" ++ username ++ ")"

/-- Dereferences a pointer: a nil pointer panics. -/
def deref {σ α : Type} (p : Option α) : Prog σ α :=
  match p with
  | some a => pure a
  | none => exitWith Exit.nilDeref

/-- The loop creating the test users (main.go 261-280), from index `i` on:
`fuel` is the number of iterations left. -/
def makeUsers {σ : Type} (d : Dao σ) (usersCollection : Collection) :
    Nat → Nat → List (Option Record) → Prog σ (List (Option Record))
  | 0, _, users => pure users
  | fuel + 1, i, users => do
    let record := NewRecord usersCollection
    let username := testUsername i
    let email := "test" ++ Nat.repr i ++ "@gmail.com"
    let name := "user" ++ Nat.repr i
    let password := "testpswd" ++ Nat.repr i
    let r ← submitRecordUpsert d record
      [("username", username), ("email", email), ("name", name), ("password", password),
       ("passwordConfirm", password)]
    die r.2
    makeUsers d usersCollection fuel (i + 1) (users.set i (some r.1))

/-- The loop looking the test users up (main.go 282-290), from index `i` on:
`fuel` is the number of iterations left. -/
def lookupUsers {σ : Type} (d : Dao σ) (usersId : String) :
    Nat → Nat → List (Option Record) → Prog σ (List (Option Record))
  | 0, _, users => pure users
  | fuel + 1, i, users => do
    let username := testUsername i
    let r ← findRecordsByExpr d usersId ("username", username)
    die r.2
    match r.1 with
    | [] => exitWith (Exit.fatalMsg (noUserMessage username))
    | record0 :: _ => lookupUsers d usersId fuel (i + 1) (users.set i (some record0))

/-- The `Run` function of the `form` command (main.go 113-320). -/
def formRun {σ : Type} (d : Dao σ) : Prog σ Unit := do
  -- Fetch the users collection
  let found ← findCollectionByNameOrId d "users"
  match found.2 with
  | some err => exitWith (Exit.fatal err)
  | none =>
  let usersCollection := found.1
  -- Delete all existing collections for reformation
  die (← deleteCollections d ["posts", "memberOf", "projects"])
  -- Create collections
  let p ← makeStandardCollection d "projects" projectsFields
  let projectCollection := p.1
  die p.2
  let users0 ← deref usersCollection
  let m ← makeStandardCollection d "memberOf" (memberOfFields users0.Id projectCollection.Id)
  let memberOfCollection := m.1
  die m.2
  let q ← makeStandardCollection d "posts" (postsFields projectCollection.Id users0.Id)
  die q.2
  -- Creating test records
  let users := List.replicate TEST_USER_COUNT (none : Option Record)
  let users ← (if MAKE_USERS then makeUsers d users0 TEST_USER_COUNT 0 users
               else lookupUsers d users0.Id TEST_USER_COUNT 0 users)
  -- Test project
  let projectRecord := NewRecord projectCollection
  let pr ← submitRecordUpsert d projectRecord [("name", "Projective"), ("description", "this")]
  let projectRecord := pr.1
  die pr.2
  -- Test memberships
  let user1 ← deref (users.getD 1 none)
  let record := NewRecord memberOfCollection
  let mr ← submitRecordUpsert d record
    [("user_", user1.Id), ("_project", projectRecord.Id), ("role", "role"), ("contacts", "null")]
  die mr.2

/-- Runs the `form` command on a store, from an empty trace. -/
def runForm {σ : Type} (d : Dao σ) (s : σ) : Res σ Unit :=
  formRun d { store := s, trace := [] }

/-- Modelled from the spec: a collection as the store keeps it, "a named set of
structured records with a shared field schema, analogous to a table"
(glossary). The framework's storage is not among the sources. -/
structure Table where
  collection : Collection
  records : List Record := []
deriving DecidableEq, Repr

/-- Modelled from the spec: the state of the external record store, the
collections it holds, oldest first. The framework's storage is not among the
sources. -/
abbrev Store := List Table

/-- Whether the table is the one a name or identifier designates. -/
def Table.answers (t : Table) (nameOrId : String) : Bool :=
  t.collection.Name == nameOrId || t.collection.Id == nameOrId

/-- The table a name or identifier designates, if any. -/
def findTable (s : Store) (nameOrId : String) : Option Table :=
  s.find? (fun t => t.answers nameOrId)

/-- Modelled from the spec: `findCollection(nameOrId) -> Collection | NotFound`
(section 6), the framework's `FindCollectionByNameOrId`, which is not among the
sources. `NotFound` is not one of the interface's errors: it is the answer
`none`. -/
def findCollection (s : Store) (nameOrId : String) : Option Collection :=
  (findTable s nameOrId).map (fun t => t.collection)

/-- The tables of other collections that have a relation field targeting the
collection with this identifier. -/
def dependents (s : Store) (id : String) : List Table :=
  s.filter (fun t => t.collection.Id != id && (relationTargets t.collection.Schema).contains id)

/-- Modelled from the spec: `deleteCollection(id) -> success | Error{hasDependents}`
(section 6), the framework's `DeleteCollection`, which is not among the sources.
A collection that another collection's relation field targets is not deleted;
otherwise the collection goes with its records. -/
def deleteCollection (s : Store) (collection : Collection) : Store × Option Error :=
  if (dependents s collection.Id).isEmpty then
    (s.filter (fun t => t.collection.Id != collection.Id), none)
  else (s, some Error.hasDependents)

/-- Every string the store uses as a collection identifier, a collection name
or a relation target. -/
def storeStrings (s : Store) : List String :=
  s.flatMap (fun t => t.collection.Id :: t.collection.Name :: relationTargets t.collection.Schema)

/-- The length of the longest string of a list. -/
def maxLength (l : List String) : Nat :=
  l.foldr (fun a n => max a.length n) 0

/-- Modelled from the spec: the "opaque store-assigned identifier" of a
provisioned collection or record (section 3): an identifier that differs from
every string to avoid. The framework's identifier generation is not among the
sources. -/
def freshId (avoid : List String) : String :=
  String.mk (List.replicate (maxLength avoid + 1) 'x')

/-- Whether the options of a field match its kind (section 3: "Relation requires
a target collection reference and max-select count; Select requires an
enumerated value set"). -/
def optionsMatch : FieldType → FieldOptions → Bool
  | FieldType.text, FieldOptions.text _ => true
  | FieldType.text, FieldOptions.nil => true
  | FieldType.editor, FieldOptions.editor => true
  | FieldType.editor, FieldOptions.nil => true
  | FieldType.file, FieldOptions.file _ _ _ => true
  | FieldType.relation, FieldOptions.relation (some _) _ _ => true
  | FieldType.select, FieldOptions.select _ values => !values.isEmpty
  | FieldType.json, FieldOptions.json => true
  | FieldType.json, FieldOptions.nil => true
  | _, _ => false

/-- Whether a field descriptor is acceptable to the store: its options match its
kind and a relation targets a collection of the store (section 3). -/
def fieldValid (s : Store) (f : SchemaField) : Bool :=
  optionsMatch f.Typ f.Options &&
    match f.relationTarget with
    | some cid => s.any (fun t => t.collection.Id == cid)
    | none => true

/-- Whether the rules of a creation request are acceptable, given the store's
rule checker. -/
def rulesValid (ruleOk : String → Bool) (form : CollectionUpsert) : Bool :=
  [form.ListRule, form.ViewRule, form.CreateRule, form.UpdateRule, form.DeleteRule].all
    (fun r => match r with
      | some rule => ruleOk rule
      | none => true)

/-- Whether field names are unique within the descriptor (section 3). -/
def fieldNamesUnique : List SchemaField → Bool
  | [] => true
  | f :: fs => !(fs.any (fun g => g.Name == f.Name)) && fieldNamesUnique fs

/-- The collection a successful creation request provisions: the descriptor
under a store-assigned identifier. -/
def provisioned (s : Store) (form : CollectionUpsert) : Collection :=
  { Id := freshId (form.Name :: storeStrings s), Name := form.Name, Typ := form.Typ,
    Schema := form.Schema, ListRule := form.ListRule, ViewRule := form.ViewRule,
    CreateRule := form.CreateRule, UpdateRule := form.UpdateRule,
    DeleteRule := form.DeleteRule }

/-- Modelled from the spec: `createCollection(descriptor) -> ProvisionedCollection
| Error{duplicateName|invalidRule|invalidField}` (section 6), the framework's
`forms.CollectionUpsert.Submit`, which is not among the sources. The access rule
language is outside the specification, so the rule checker `ruleOk` is a
parameter. On success the collection gets a store-assigned identifier and an
empty record set; on error the submitted collection stays as it was created,
the zero value. -/
def createCollection (ruleOk : String → Bool) (s : Store) (form : CollectionUpsert) :
    Store × (Collection × Option Error) :=
  if (findCollection s form.Name).isSome then (s, ({}, some Error.duplicateName))
  else if !rulesValid ruleOk form then (s, ({}, some Error.invalidRule))
  else if !(fieldNamesUnique form.Schema && form.Schema.all (fieldValid s)) then
    (s, ({}, some Error.invalidField))
  else
    (s ++ [{ collection := provisioned s form, records := [] }], (provisioned s form, none))

/-- Modelled from the spec: `queryRecords(collectionId, predicate) -> sequence of
Record` (section 6), the framework's `FindRecordsByExpr` with a hash expression,
which is not among the sources: the records of the collection whose field has
the value. -/
def queryRecords (s : Store) (collectionNameOrId : String) (exp : String × String) :
    List Record :=
  match findTable s collectionNameOrId with
  | some t => t.records.filter (fun r => r.Get exp.1 == some exp.2)
  | none => []

/-- The value loaded for a field. -/
def dataGet (data : RecordData) (key : String) : Option String :=
  (data.find? (fun kv => kv.1 == key)).map (fun kv => kv.2)

/-- The field validation of the store: "required/unique/max-size checks"
(section 4.2). -/
def fieldValueValid (t : Table) (data : RecordData) (f : SchemaField) : Bool :=
  (!f.Required || (match dataGet data f.Name with
    | some v => v != ""
    | none => false)) &&
  (!f.Unique || (match dataGet data f.Name with
    | some v => !(t.records.any (fun r => r.Get f.Name == some v))
    | none => true)) &&
  (match f.Options, dataGet data f.Name with
    | FieldOptions.text (some max), some v => decide (v.length ≤ max)
    | _, _ => true)

/-- The record a successful upsert saves in a table. -/
def savedRecord (t : Table) (data : RecordData) : Record :=
  { Id := freshId (t.records.map (fun r => r.Id)), collection := t.collection, data := data }

/-- Adds a record to the tables of the collection with the given identifier. -/
def addRecord (s : Store) (collectionId : String) (saved : Record) : Store :=
  s.map (fun u => if u.collection.Id == collectionId
                  then { u with records := u.records ++ [saved] } else u)

/-- Modelled from the spec: `upsertValidated(collectionId, fieldValues) -> Record
| Error{validationFailed}` (section 6), the framework's
`forms.RecordUpsert.Submit`, which is not among the sources: validates the field
values against the schema of the record's collection and adds the record under
a store-assigned identifier. -/
def upsertValidated (s : Store) (record : Record) (data : RecordData) :
    Store × (Record × Option Error) :=
  match s.find? (fun t => t.collection.Id == record.collection.Id) with
  | none => (s, (record, some Error.validationFailed))
  | some t =>
    if t.collection.Schema.all (fieldValueValid t data) then
      (addRecord s record.collection.Id (savedRecord t data), (savedRecord t data, none))
    else (s, (record, some Error.validationFailed))

/-- The data access layer over the store of the specification. -/
def specDao (ruleOk : String → Bool) : Dao Store where
  FindCollectionByNameOrId := fun s nameOrId => (findCollection s nameOrId, none)
  DeleteCollection := deleteCollection
  FindRecordsByExpr := fun s cid exp => (queryRecords s cid exp, none)
  SubmitCollection := createCollection ruleOk
  SubmitRecord := upsertValidated

/-- The records of the collections with a given name. -/
def recordsOf (s : Store) (name : String) : List Record :=
  (s.filter (fun t => t.collection.Name == name)).flatMap (fun t => t.records)

/-- The names of the collections of the store. -/
def collectionNames (s : Store) : List String :=
  s.map (fun t => t.collection.Name)

/-- Well-formed stores: no two tables share an identifier or a name, and no
name is the identifier of another table, so that a name or identifier
designates at most one collection (section 3: "name globally unique in the
store"). -/
def Store.WF (s : Store) : Prop :=
  s.Pairwise (fun a b =>
    a.collection.Id ≠ b.collection.Id ∧ a.collection.Name ≠ b.collection.Name ∧
    a.collection.Id ≠ b.collection.Name ∧ a.collection.Name ≠ b.collection.Id)

/-- An example users collection. -/
def usersExample : Collection :=
  { Id := "u", Name := "users", Typ := CollectionType.auth }

/-- An example user record. -/
def userRecord (i : Nat) : Record :=
  { Id := "usr" ++ Nat.repr i, collection := usersExample,
    data := [("username", testUsername i)] }

/-- An example store holding only a users collection with the ten test users. -/
def exampleStore : Store :=
  [{ collection := usersExample, records := (List.range 10).map userRecord }]

/-- The piece `m`, run in `w`, returns a value satisfying `Q` or exits in a way
satisfying `E`. -/
def Holds (m : Prog σ α) (w : World σ) (Q : α → World σ → Prop)
    (E : Exit → World σ → Prop) : Prop :=
  match m w with
  | Res.ok a w1 => Q a w1
  | Res.exit e w1 => E e w1

/-- The request `makeCollection` submits. -/
def collectionForm (name : String) (fields : List SchemaField)
    (listRule viewRule createRule updateRule deleteRule : Option String) : CollectionUpsert :=
  { Typ := CollectionType.base, Name := name, ListRule := listRule, ViewRule := viewRule,
    CreateRule := createRule, UpdateRule := updateRule, DeleteRule := deleteRule,
    Schema := fields }

/-- The request `makeStandardCollection` submits. -/
def standardForm (name : String) (fields : List SchemaField) : CollectionUpsert :=
  collectionForm name fields (some "") (some "@request.auth.id != ''") (some "")
    (some "@request.auth.id != ''") none

/-- The world after one more operation. -/
def World.push (w : World σ) (s : σ) (e : Event) : World σ :=
  { store := s, trace := w.trace ++ [e] }

/-- The event of a collection lookup performed in `w`. -/
def findEvent (d : Dao σ) (w : World σ) (k : String) : Event :=
  Event.findCollection k (d.FindCollectionByNameOrId w.store k).1
    (d.FindCollectionByNameOrId w.store k).2

/-- The event of a collection deletion performed in `w`. -/
def deleteEvent (d : Dao σ) (w : World σ) (c : Collection) : Event :=
  Event.deleteCollection c (d.DeleteCollection w.store c).2

/-- The event of a record query performed in `w`. -/
def queryEvent (d : Dao σ) (w : World σ) (k : String) (exp : String × String) : Event :=
  Event.findRecords k exp (d.FindRecordsByExpr w.store k exp).1
    (d.FindRecordsByExpr w.store k exp).2

/-- The event of a collection creation performed in `w`. -/
def createEvent (d : Dao σ) (w : World σ) (form : CollectionUpsert) : Event :=
  Event.submitCollection form (d.SubmitCollection w.store form).2.1
    (d.SubmitCollection w.store form).2.2

/-- The event of a record upsert performed in `w`. -/
def upsertEvent (d : Dao σ) (w : World σ) (record : Record) (data : RecordData) : Event :=
  Event.submitRecord record data (d.SubmitRecord w.store record data).2.1
    (d.SubmitRecord w.store record data).2.2

/-- One call of `tryDeleteCollection` from a world satisfying `Inv`: what has to
be shown of the lookup and of the deletion for the loop rule below. An operation
that answers without error keeps `Inv`; one that answers the error `x` leads to
`Err x`. -/
def DeleteStep (d : Dao σ) (Inv : World σ → Prop) (Err : Error → World σ → Prop)
    (w : World σ) (k : String) : Prop :=
  let w1 := w.push w.store (findEvent d w k)
  (∀ x, (d.FindCollectionByNameOrId w.store k).2 = some x → Err x w1) ∧
  ((d.FindCollectionByNameOrId w.store k).2 = none →
    (d.FindCollectionByNameOrId w.store k).1 = none → Inv w1) ∧
  ((d.FindCollectionByNameOrId w.store k).2 = none →
    ∀ c, (d.FindCollectionByNameOrId w.store k).1 = some c →
      let w2 := w1.push (d.DeleteCollection w.store c).1 (deleteEvent d w c)
      ((d.DeleteCollection w.store c).2 = none → Inv w2) ∧
      (∀ x, (d.DeleteCollection w.store c).2 = some x → Err x w2))

/-- One iteration of the user lookup loop from a world satisfying `Inv`. -/
def LookupStep (d : Dao σ) (usersId : String) (Inv : World σ → Prop)
    (E : Exit → World σ → Prop) (w : World σ) (i : Nat) : Prop :=
  let exp := ("username", testUsername i)
  let w1 := w.push w.store (queryEvent d w usersId exp)
  (∀ x, (d.FindRecordsByExpr w.store usersId exp).2 = some x → E (Exit.fatal x) w1) ∧
  ((d.FindRecordsByExpr w.store usersId exp).2 = none →
    (d.FindRecordsByExpr w.store usersId exp).1 = [] →
      E (Exit.fatalMsg (noUserMessage (testUsername i))) w1) ∧
  ((d.FindRecordsByExpr w.store usersId exp).2 = none →
    (d.FindRecordsByExpr w.store usersId exp).1 ≠ [] → Inv w1)

/-- One iteration of the user lookup loop at index `i` with the users found so
far, for an invariant that depends on both. -/
def LookupStepAt (d : Dao σ) (usersId : String)
    (Inv : Nat → List (Option Record) → World σ → Prop)
    (E : Exit → World σ → Prop) (w : World σ) (i : Nat) (users : List (Option Record)) :
    Prop :=
  let exp := ("username", testUsername i)
  let w1 := w.push w.store (queryEvent d w usersId exp)
  (∀ x, (d.FindRecordsByExpr w.store usersId exp).2 = some x → E (Exit.fatal x) w1) ∧
  ((d.FindRecordsByExpr w.store usersId exp).2 = none →
    (d.FindRecordsByExpr w.store usersId exp).1 = [] →
      E (Exit.fatalMsg (noUserMessage (testUsername i))) w1) ∧
  ((d.FindRecordsByExpr w.store usersId exp).2 = none →
    ∀ r0 rs, (d.FindRecordsByExpr w.store usersId exp).1 = r0 :: rs →
      Inv (i + 1) (users.set i (some r0)) w1)

/-- An operation answering `err` in world `w1`: an error ends the run with
`log.Fatal(err)`, otherwise the run goes on from a world satisfying `Next`. -/
def OpStep (err : Option Error) (w1 : World σ) (Next : World σ → Prop)
    (E : Exit → World σ → Prop) : Prop :=
  (∀ x, err = some x → E (Exit.fatal x) w1) ∧ (err = none → Next w1)

/-- The names `deleteCollections` is called with (main.go 123). -/
def teardownNames : List String := ["posts", "memberOf", "projects"]

/-- The field values of the test project (main.go 298-301). -/
def projectData : RecordData := [("name", "Projective"), ("description", "this")]

/-- The field values of the test membership (main.go 309-314). -/
def memberData (userId projectRecordId : String) : RecordData :=
  [("user_", userId), ("_project", projectRecordId), ("role", "role"), ("contacts", "null")]

/-- Every operation of the trace answered without error. -/
def NoError (tr : List Event) : Prop := ∀ e ∈ tr, e.err = none

/-- The last operation of the trace answered the error `x`, every earlier one
answered without error. -/
def StoppedAt (tr : List Event) (x : Error) : Prop :=
  ∃ init last, tr = init ++ [last] ∧ NoError init ∧ last.err = some x

/-- No collection deletion follows a collection creation or a record upsert. -/
def NoRollback (tr : List Event) : Prop :=
  tr.Pairwise (fun a b => a.isSubmit = true → b.isDelete = false)

/-- The store after an operation, as the data access layer answers it. -/
def applyEvent (d : Dao σ) (s : σ) : Event → σ
  | Event.findCollection _ _ _ => s
  | Event.deleteCollection c _ => (d.DeleteCollection s c).1
  | Event.submitCollection form _ _ => (d.SubmitCollection s form).1
  | Event.findRecords _ _ _ _ => s
  | Event.submitRecord record data _ _ => (d.SubmitRecord s record data).1

/-- The store after the operations of a trace, performed in order. -/
def replay (d : Dao σ) (s : σ) (tr : List Event) : σ :=
  tr.foldl (applyEvent d) s

/-- How a run ended, as far as errors go: either no operation failed and the
run did not end in `log.Fatal(err)`, or it ended in `log.Fatal(x)` right after
the operation that answered `x`. -/
def EndedAt (e : Option Exit) (tr : List Event) : Prop :=
  (NoError tr ∧ ∀ x, e ≠ some (Exit.fatal x)) ∨ ∃ x, e = some (Exit.fatal x) ∧ StoppedAt tr x

/-- The invariant of the run while collections are deleted. -/
def TearingDown (d : Dao σ) (s : σ) (w : World σ) : Prop :=
  w.store = replay d s w.trace ∧ NoError w.trace ∧ ∀ a ∈ w.trace, a.isSubmit = false

/-- The invariant of the run from the first creation on. -/
def Building (d : Dao σ) (s : σ) (w : World σ) : Prop :=
  w.store = replay d s w.trace ∧ NoError w.trace ∧ NoRollback w.trace

/-- What holds of the world a run exits in. -/
def Stopped (d : Dao σ) (s : σ) (e : Exit) (w : World σ) : Prop :=
  w.store = replay d s w.trace ∧ NoRollback w.trace ∧ EndedAt (some e) w.trace

/-- Every collection of `s` is still in `s1`, with at least the records it had. -/
def Extends (s s1 : Store) : Prop :=
  ∀ t ∈ s, ∃ t1 ∈ s1, t1.collection = t.collection ∧ ∀ r ∈ t.records, r ∈ t1.records

/-- Every collection a successful creation of the trace answered, and every
record a successful upsert of the trace answered, is in the store. -/
def Kept (w : World Store) : Prop :=
  (∀ form c, Event.submitCollection form c none ∈ w.trace →
    ∃ t ∈ w.store, t.collection = c) ∧
  (∀ record data saved, Event.submitRecord record data saved none ∈ w.trace →
    ∃ t ∈ w.store, saved ∈ t.records)

/-- The request and the collection of a successful collection creation. -/
def Event.created? : Event → Option (CollectionUpsert × Collection)
  | Event.submitCollection form c none => some (form, c)
  | _ => none

/-- The successful collection creations of a trace, in order. -/
def creations (tr : List Event) : List (CollectionUpsert × Collection) :=
  tr.filterMap Event.created?

/-- Whether the operation is a record query that found nothing and answered no
error. -/
def Event.isEmptyQuery : Event → Bool
  | Event.findRecords _ _ [] none => true
  | _ => false

/-- An example collection with a relation field targeting the collection `pp`. -/
def commentsExample : Collection :=
  { Id := "cc", Name := "comments", Typ := CollectionType.base,
    Schema := [{ Name := "post", Typ := FieldType.relation,
                 Options := FieldOptions.relation (some 1) "pp" false }] }

/-- An example store in which the `posts` collection cannot be deleted: the
`comments` collection has a relation field targeting it. -/
def blockedStore : Store :=
  [{ collection := usersExample },
   { collection := { Id := "pp", Name := "posts", Typ := CollectionType.base } },
   { collection := commentsExample }]

/-- An example store whose users collection holds no record. -/
def noUsersStore : Store := [{ collection := usersExample }]

/-- What `tryDeleteCollection` does to the store and the error it returns. -/
def tryDeleteStore (d : Dao σ) (s : σ) (name : String) : σ × Option Error :=
  match (d.FindCollectionByNameOrId s name).2 with
  | some err => (s, some err)
  | none =>
    match (d.FindCollectionByNameOrId s name).1 with
    | some collection => d.DeleteCollection s collection
    | none => (s, none)

/-- What `deleteCollections` does to the store and the error it returns. -/
def teardown (d : Dao σ) (s : σ) : List String → σ × Option Error
  | [] => (s, none)
  | name :: names =>
    match (tryDeleteStore d s name).2 with
    | some err => ((tryDeleteStore d s name).1, some err)
    | none => teardown d (tryDeleteStore d s name).1 names

/-- The successful remainder of a run of the `form` command after the
deletions, from store `sD` with the users collection `u`, ending in store `sF`:
the three creations, the ten user lookups and the two upserts answer no error,
and every lookup finds a user. -/
def Seeds (d : Dao σ) (u : Collection) (sD sF : σ) : Prop :=
  ∃ (cp : Collection) (s1 : σ) (cm : Collection) (s2 : σ) (cq : Collection) (s3 : σ)
    (user1 pr : Record) (s4 : σ) (mr : Record),
    d.SubmitCollection sD (standardForm "projects" projectsFields) = (s1, (cp, none)) ∧
    d.SubmitCollection s1 (standardForm "memberOf" (memberOfFields u.Id cp.Id))
      = (s2, (cm, none)) ∧
    d.SubmitCollection s2 (standardForm "posts" (postsFields cp.Id u.Id)) = (s3, (cq, none)) ∧
    (∀ i, i < TEST_USER_COUNT →
      (d.FindRecordsByExpr s3 u.Id ("username", testUsername i)).2 = none ∧
      (d.FindRecordsByExpr s3 u.Id ("username", testUsername i)).1 ≠ []) ∧
    (d.FindRecordsByExpr s3 u.Id ("username", testUsername 1)).1.head? = some user1 ∧
    d.SubmitRecord s3 (NewRecord cp) projectData = (s4, (pr, none)) ∧
    d.SubmitRecord s4 (NewRecord cm) (memberData user1.Id pr.Id) = (sF, (mr, none))

/-- The successful run of the `form` command from store `s`, ending in store
`sF`. -/
def Succeeds (d : Dao σ) (s sF : σ) : Prop :=
  ∃ (u : Collection) (sD : σ),
    d.FindCollectionByNameOrId s "users" = (some u, none) ∧
    teardown d s teardownNames = (sD, none) ∧ Seeds d u sD sF

/-- The collections of the store, without their records. -/
def collectionsOf (s : Store) : List Collection :=
  s.map (fun t => t.collection)

/-- The identifier is new to the store: no collection has it as identifier or
name and no relation field targets it. -/
def Fresh (id : String) (s : Store) : Prop :=
  ∀ c ∈ collectionsOf s, c.Id ≠ id ∧ c.Name ≠ id ∧ id ∉ relationTargets c.Schema

/-- No collection of the store answers to the name or identifier `k`. -/
def Unnamed (k : String) (s : Store) : Prop :=
  ∀ c ∈ collectionsOf s, c.Name ≠ k ∧ c.Id ≠ k

/-- The collections `P`, `M` and `Q` are what the `form` command creates as
`projects`, `memberOf` and `posts` on top of the store `sD`, for the users
collection with identifier `usersId`: names and schemas as in the source, each
identifier new to the store at the time of the creation, and no older
collection answering to the name. -/
def Rebuilt (sD : Store) (usersId : String) (P M Q : Collection) : Prop :=
  (P.Name = "projects" ∧ M.Name = "memberOf" ∧ Q.Name = "posts") ∧
  (P.Schema = projectsFields ∧ M.Schema = memberOfFields usersId P.Id ∧
    Q.Schema = postsFields P.Id usersId) ∧
  (Unnamed "projects" sD ∧ Unnamed "memberOf" (sD ++ [{ collection := P }]) ∧
    Unnamed "posts" (sD ++ [{ collection := P }, { collection := M }])) ∧
  (Fresh P.Id sD ∧ Fresh M.Id (sD ++ [{ collection := P }]) ∧
    Fresh Q.Id (sD ++ [{ collection := P }, { collection := M }]))

/-- The invariant of the seeding claim: no user query came back empty so far,
no record upsert was submitted, and the collections named in `names` hold no
record. -/
def Unseeded (names : List String) (w : World Store) : Prop :=
  (∀ e ∈ w.trace, e.isEmptyQuery = false) ∧ (∀ e ∈ w.trace, e.isSubmitRecord = false) ∧
  ∀ n ∈ names, recordsOf w.store n = []

/-- What the seeding claim says of the world the run ends in: if a user query
came back empty, no record upsert was submitted and `projects` and `memberOf`
hold no record. -/
def SeedingAborted (w : World Store) : Prop :=
  (∃ e ∈ w.trace, e.isEmptyQuery = true) →
    (∀ e ∈ w.trace, e.isSubmitRecord = false) ∧
    recordsOf w.store "projects" = [] ∧ recordsOf w.store "memberOf" = []

/-- The trace starts with the lookup of `users` that answered `u` and holds the
successful creations `cs`. -/
def Provisioning (u : Option Collection) (cs : List (CollectionUpsert × Collection))
    (w : World σ) : Prop :=
  w.trace.head? = some (Event.findCollection "users" u none) ∧ creations w.trace = cs


/-- The store without the collections that the names designate: the tables
that answer to none of the names, in their order. -/
def withoutNamed (s : Store) (names : List String) : Store :=
  s.filter (fun t => names.all (fun n => !t.answers n))

/-! ### The before-create request hook (main.go 87-108) -/

/-- A `models.Admin`. -/
structure Admin where
  Id : String
deriving DecidableEq, Repr

/-- A value held by the request context, `c.Get(key)`: nothing, a `*models.Admin`
(possibly nil), a `*models.Record` (possibly nil), or a value of another type. -/
inductive ContextValue where
  | absent
  | admin (a : Option Admin)
  | record (r : Option Record)
  | other (v : String)
deriving DecidableEq, Repr

/-- The request context (`echo.Context`), as far as `c.Get` goes. -/
abbrev Context := String → ContextValue

/-- The type assertion `v.(*models.Admin)` in its two-value form: the pointer
when the value has that type, nil otherwise. -/
def ContextValue.asAdmin : ContextValue → Option Admin
  | ContextValue.admin a => a
  | _ => none

/-- The type assertion `v.(*models.Record)` in its two-value form. -/
def ContextValue.asRecord : ContextValue → Option Record
  | ContextValue.record r => r
  | _ => none

/-- A `core.RecordCreateEvent`. -/
structure RecordCreateEvent where
  HttpContext : Context
  Record : Record

/-- The errors the hook returns: `apis.NewForbiddenError(message, nil)`. -/
inductive ApiError where
  | forbidden (message : String)
deriving DecidableEq, Repr

/-- What the hook prints, argument by argument (`fmt.Println`). -/
inductive Printed where
  | text (s : String)
  | value (v : Option String)
  | authRecord (r : Option Record)
deriving DecidableEq, Repr

/-- The first `OnRecordBeforeCreateRequest` hook (main.go 87-108): the lines it
prints and the error it returns. The context keys `apis.ContextAdminKey` and
`apis.ContextAuthRecordKey` are constants of the framework and parameters here. -/
def beforeCreateHook (ContextAdminKey ContextAuthRecordKey : String) (e : RecordCreateEvent) :
    List (List Printed) × Option ApiError :=
  let c := e.HttpContext
  let record := e.Record
  let collection := record.collection
  if collection.Name = "posts" then
    let admin := (c ContextAdminKey).asAdmin
    let authRecord := (c ContextAuthRecordKey).asRecord
    -- check if the user is member of project
    let out := [[Printed.text ""],
                [Printed.text "record", Printed.value (record.Get "projects")],
                [Printed.text "AuthRecord", Printed.authRecord authRecord]]
    if admin.isSome then (out, none)
    else (out, some (ApiError.forbidden
      "The authorized record model is not allowed to perform this action."))
  else ([], none)

/-- The second `OnRecordBeforeCreateRequest` hook (main.go 323-326): logs the
record and returns nil. -/
def logCreateHook (_e : RecordCreateEvent) : Option ApiError := none

/-- Whether the store holds a membership of the user in the project: a record of
the `memberOf` collection with these `user_` and `_project` values. -/
def isMember (s : Store) (userId projectId : String) : Bool :=
  (recordsOf s "memberOf").any
    (fun r => r.Get "user_" == some userId && r.Get "_project" == some projectId)

/-- An example `posts` collection. -/
def postsExample : Collection :=
  { Id := "pp", Name := "posts", Typ := CollectionType.base,
    Schema := postsFields "prj" "u" }

/-- An example membership collection. -/
def memberOfExample : Collection :=
  { Id := "mm", Name := "memberOf", Typ := CollectionType.base,
    Schema := memberOfFields "u" "prj" }

/-- An example store in which user `usr1` is a member of project `p1`. -/
def memberStore : Store :=
  [{ collection := usersExample, records := [userRecord 1] },
   { collection := memberOfExample,
     records := [{ Id := "m1", collection := memberOfExample,
                   data := [("user_", "usr1"), ("_project", "p1"), ("role", "role")] }] },
   { collection := postsExample }]

/-- An example create request: user `usr1`, no admin, creates a post of project
`p1`. -/
def memberPostRequest : RecordCreateEvent :=
  { HttpContext := fun key =>
      if key = "authRecord" then ContextValue.record (some (userRecord 1))
      else ContextValue.absent,
    Record := { Id := "", collection := postsExample,
                data := [("projects", "p1"), ("type", "Standalone"), ("content", "text")] } }

/-- An example create request as `memberPostRequest`, from user `usr2`, who is
not a member of project `p1`. -/
def strangerPostRequest : RecordCreateEvent :=
  { HttpContext := fun key =>
      if key = "authRecord" then ContextValue.record (some (userRecord 2))
      else ContextValue.absent,
    Record := { Id := "", collection := postsExample,
                data := [("projects", "p1"), ("type", "Standalone"), ("content", "text")] } }

/-! ### `defaultPublicDir` (main.go 402-409) and the path functions it calls -/

/-- Puts a character in front of the first element of a split path. -/
def consHead (c : Char) : List (List Char) → List (List Char)
  | [] => [[c]]
  | e :: es => (c :: e) :: es

/-- The elements of a path between its slashes. -/
def splitSlash : List Char → List (List Char)
  | [] => [[]]
  | c :: cs => if c = '/' then [] :: splitSlash cs else consHead c (splitSlash cs)

/-- Path elements joined with slashes, `strings.Join(elems, "/")`. -/
def joinSlash : List (List Char) → List Char
  | [] => []
  | [e] => e
  | e :: es => e ++ '/' :: joinSlash es

/-- One path element processed by `filepath.Clean`, on the stack of elements
kept so far (last kept element first): empty and `.` elements are dropped; a
`..` element removes the element before it, is kept when there is nothing to
remove but leading `..` elements of a path that is not rooted, and is dropped
at the root; any other element is kept. -/
def cleanStep (rooted : Bool) (acc : List (List Char)) (e : List Char) : List (List Char) :=
  if e = [] ∨ e = ['.'] then acc
  else if e = ['.', '.'] then
    match acc with
    | top :: rest => if top = ['.', '.'] then e :: acc else rest
    | [] => if rooted then [] else [e]
  else e :: acc

/-- The elements `filepath.Clean` keeps, last one first. -/
def cleanStack (rooted : Bool) (elems : List (List Char)) : List (List Char) :=
  elems.foldl (cleanStep rooted) []

/-- The path written from the elements kept: after the root slash when the path
is rooted, and `.` when nothing is left of a path that is not rooted. -/
def renderPath (rooted : Bool) (elems : List (List Char)) : List Char :=
  if rooted then '/' :: joinSlash elems
  else if joinSlash elems = [] then ['.'] else joinSlash elems

/-- Whether a path starts at the root. -/
def isRooted (cs : List Char) : Bool := cs.head? == some '/'

/-- The function `filepath.Clean` on the characters of a Unix path. -/
def cleanChars (cs : List Char) : List Char :=
  renderPath (isRooted cs) (cleanStack (isRooted cs) (splitSlash cs)).reverse

/-- Go's `filepath.Clean` for Unix paths, after its documentation: the shortest
path name equivalent to the path by purely lexical processing. -/
def Clean (path : String) : String := String.mk (cleanChars path.data)

/-- Go's `filepath.Join` of two elements: empty elements before the first
non-empty one are ignored, the rest is joined with slashes and cleaned; the
result is empty when both elements are. -/
def Join (a b : String) : String :=
  if a ≠ "" then Clean (a ++ "/" ++ b)
  else if b ≠ "" then Clean b
  else ""

/-- The part of a path up to and including its last slash. -/
def dirPart (cs : List Char) : List Char :=
  (cs.reverse.dropWhile (fun c => c != '/')).reverse

/-- The last element of a path, what follows its last slash. -/
def lastElem (cs : List Char) : List Char :=
  (cs.reverse.takeWhile (fun c => c != '/')).reverse

/-- Go's `filepath.Dir` for Unix paths: all but the last element of the path,
cleaned. -/
def Dir (path : String) : String := Clean (String.mk (dirPart path.data))

/-- Go's `strings.HasPrefix`. -/
def HasPrefix (s pre : String) : Bool := pre.data.isPrefixOf s.data

/-- The function `defaultPublicDir` (main.go 402-409), given `os.Args[0]` and `os.TempDir()`. -/
def defaultPublicDir (args0 tempDir : String) : String :=
  if HasPrefix args0 tempDir then
    -- most likely ran with go run
    "./pb_public"
  else Join args0 "../pb_public"

/-- The path lies inside the directory: it continues the path of the directory
after a separator. -/
def liesInside (path dir : String) : Bool :=
  (dir.data ++ ['/']).isPrefixOf path.data

/-- The `..` path element. -/
def dotdot : List Char := ['.', '.']

/-- The elements `filepath.Clean` may keep: not empty, not `.`, without slash. -/
def KeptElems (S : List (List Char)) : Prop :=
  ∀ e ∈ S, e ≠ [] ∧ e ≠ ['.'] ∧ '/' ∉ e

/-- The shape of the stack of `filepath.Clean` (last kept element first): names
on top of leading `..` elements, which only a path that is not rooted has. -/
def NormalStack (rooted : Bool) (S : List (List Char)) : Prop :=
  KeptElems S ∧ ∃ (names : List (List Char)) (n : Nat),
    S = names ++ List.replicate n dotdot ∧ (∀ e ∈ names, e ≠ dotdot) ∧ (rooted = true → n = 0)

end Definitions

/-! ## Theorems -/

section Theorems

variable {σ α β : Type}

theorem holds_pure (a : α) (w : World σ) (Q : α → World σ → Prop)
    (E : Exit → World σ → Prop) : Holds (pure a : Prog σ α) w Q E ↔ Q a w :=
  Iff.rfl

theorem holds_exitWith (e : Exit) (w : World σ) (Q : α → World σ → Prop)
    (E : Exit → World σ → Prop) : Holds (exitWith e : Prog σ α) w Q E ↔ E e w :=
  Iff.rfl

theorem holds_bind (m : Prog σ α) (f : α → Prog σ β) (w : World σ)
    (Q : β → World σ → Prop) (E : Exit → World σ → Prop) :
    Holds (m >>= f) w Q E ↔ Holds m w (fun a w1 => Holds (f a) w1 Q E) E := by
  show Holds (Prog.bind m f) w Q E ↔ _
  unfold Holds Prog.bind
  cases m w <;> exact Iff.rfl

theorem holds_imp {m : Prog σ α} {w : World σ} {Q1 Q : α → World σ → Prop}
    {E1 E : Exit → World σ → Prop} (h : Holds m w Q1 E1)
    (hQ : ∀ a w1, Q1 a w1 → Q a w1) (hE : ∀ e w1, E1 e w1 → E e w1) : Holds m w Q E := by
  unfold Holds at h ⊢
  cases hr : m w with
  | ok a w1 => rw [hr] at h; exact hQ a w1 h
  | exit e w1 => rw [hr] at h; exact hE e w1 h

theorem holds_die (err : Option Error) (w : World σ) (Q : Unit → World σ → Prop)
    (E : Exit → World σ → Prop) :
    Holds (die err : Prog σ Unit) w Q E ↔
      (err = none → Q () w) ∧ (∀ e, err = some e → E (Exit.fatal e) w) := by
  cases err with
  | none => simp [die, holds_pure]
  | some e => simp [die, holds_exitWith]

theorem holds_deref (p : Option α) (w : World σ) (Q : α → World σ → Prop)
    (E : Exit → World σ → Prop) :
    Holds (deref p : Prog σ α) w Q E ↔
      (p = none → E Exit.nilDeref w) ∧ (∀ a, p = some a → Q a w) := by
  cases p with
  | none => simp [deref, holds_exitWith]
  | some a => simp [deref, holds_pure]

theorem holds_findCollectionByNameOrId (d : Dao σ) (k : String) (w : World σ)
    (Q : Option Collection × Option Error → World σ → Prop) (E : Exit → World σ → Prop) :
    Holds (findCollectionByNameOrId d k) w Q E ↔
      Q (d.FindCollectionByNameOrId w.store k)
        { store := w.store,
          trace := w.trace ++ [Event.findCollection k (d.FindCollectionByNameOrId w.store k).1
            (d.FindCollectionByNameOrId w.store k).2] } :=
  Iff.rfl

theorem holds_daoDeleteCollection (d : Dao σ) (c : Collection) (w : World σ)
    (Q : Option Error → World σ → Prop) (E : Exit → World σ → Prop) :
    Holds (daoDeleteCollection d c) w Q E ↔
      Q (d.DeleteCollection w.store c).2
        { store := (d.DeleteCollection w.store c).1,
          trace := w.trace ++ [Event.deleteCollection c (d.DeleteCollection w.store c).2] } :=
  Iff.rfl

theorem holds_findRecordsByExpr (d : Dao σ) (k : String) (exp : String × String)
    (w : World σ) (Q : List Record × Option Error → World σ → Prop)
    (E : Exit → World σ → Prop) :
    Holds (findRecordsByExpr d k exp) w Q E ↔
      Q (d.FindRecordsByExpr w.store k exp)
        { store := w.store,
          trace := w.trace ++ [Event.findRecords k exp (d.FindRecordsByExpr w.store k exp).1
            (d.FindRecordsByExpr w.store k exp).2] } :=
  Iff.rfl

theorem holds_submitCollectionUpsert (d : Dao σ) (form : CollectionUpsert) (w : World σ)
    (Q : Collection × Option Error → World σ → Prop) (E : Exit → World σ → Prop) :
    Holds (submitCollectionUpsert d form) w Q E ↔
      Q (d.SubmitCollection w.store form).2
        { store := (d.SubmitCollection w.store form).1,
          trace := w.trace ++ [Event.submitCollection form (d.SubmitCollection w.store form).2.1
            (d.SubmitCollection w.store form).2.2] } :=
  Iff.rfl

theorem holds_submitRecordUpsert (d : Dao σ) (record : Record) (data : RecordData)
    (w : World σ) (Q : Record × Option Error → World σ → Prop) (E : Exit → World σ → Prop) :
    Holds (submitRecordUpsert d record data) w Q E ↔
      Q (d.SubmitRecord w.store record data).2
        { store := (d.SubmitRecord w.store record data).1,
          trace := w.trace ++ [Event.submitRecord record data
            (d.SubmitRecord w.store record data).2.1 (d.SubmitRecord w.store record data).2.2] } :=
  Iff.rfl

theorem foldl_AddField (fields : List SchemaField) (form : CollectionUpsert) :
    fields.foldl (fun fm field => { fm with Schema := AddField fm.Schema field }) form
      = { form with Schema := form.Schema ++ fields } := by
  induction fields generalizing form with
  | nil => simp
  | cons f fs ih =>
    rw [List.foldl_cons, ih]
    simp [AddField]

theorem makeCollection_eq (d : Dao σ) (name : String) (fields : List SchemaField)
    (listRule viewRule createRule updateRule deleteRule : Option String) :
    makeCollection d name fields listRule viewRule createRule updateRule deleteRule
      = submitCollectionUpsert d
          (collectionForm name fields listRule viewRule createRule updateRule deleteRule) := by
  simp [makeCollection, foldl_AddField, collectionForm]

theorem makeStandardCollection_eq (d : Dao σ) (name : String) (fields : List SchemaField) :
    makeStandardCollection d name fields = submitCollectionUpsert d (standardForm name fields) := by
  simp [makeStandardCollection, makeCollection_eq, standardForm]

/-- Loop rule for `deleteCollections`: an invariant kept by every successful
lookup and deletion holds when the loop returns nil; the first error is
returned at once. The loop itself never exits the process. -/
theorem holds_deleteCollections (d : Dao σ) (Inv : World σ → Prop)
    (Err : Error → World σ → Prop)
    (Q : Option Error → World σ → Prop) (E : Exit → World σ → Prop)
    (names : List String)
    (hstep : ∀ w k, k ∈ names → Inv w → DeleteStep d Inv Err w k)
    (hdone : ∀ w, Inv w → Q none w) (herr : ∀ x w, Err x w → Q (some x) w)
    (w : World σ) (h0 : Inv w) :
    Holds (deleteCollections d names) w Q E := by
  induction names generalizing w with
  | nil => exact hdone w h0
  | cons k ks ih =>
    have hs := hstep w k (List.mem_cons_self _ _) h0
    have ih1 := ih (fun w k hk => hstep w k (List.mem_cons_of_mem _ hk))
    obtain ⟨h1, h2, h3⟩ := hs
    simp only [deleteCollections, tryDeleteCollection, holds_bind, holds_findCollectionByNameOrId]
    cases he : (d.FindCollectionByNameOrId w.store k).2 with
    | some x =>
      have := herr x _ (h1 x he)
      simpa only [World.push, findEvent, he, holds_pure] using this
    | none =>
      cases hc : (d.FindCollectionByNameOrId w.store k).1 with
      | none =>
        have := ih1 _ (h2 he hc)
        simpa only [World.push, findEvent, he, hc, holds_pure] using this
      | some c =>
        simp only [holds_bind, holds_daoDeleteCollection, holds_pure]
        obtain ⟨h4, h5⟩ := h3 he c hc
        cases hd : (d.DeleteCollection w.store c).2 with
        | none =>
          have := ih1 _ (h4 hd)
          simpa only [World.push, findEvent, deleteEvent, he, hc, hd] using this
        | some x =>
          have := herr x _ (h5 x hd)
          simpa only [World.push, findEvent, deleteEvent, he, hc, hd, holds_pure] using this

/-- Loop rule for the user lookup, for an invariant that depends on the loop
index and on the users found so far. -/
theorem holds_lookupUsers_at (d : Dao σ) (usersId : String)
    (Inv : Nat → List (Option Record) → World σ → Prop)
    (Q : List (Option Record) → World σ → Prop) (E : Exit → World σ → Prop)
    (fuel i : Nat)
    (hstep : ∀ w j users, i ≤ j → j < i + fuel → Inv j users w →
      LookupStepAt d usersId Inv E w j users)
    (hdone : ∀ users w, Inv (i + fuel) users w → Q users w)
    (users : List (Option Record)) (w : World σ) (h0 : Inv i users w) :
    Holds (lookupUsers d usersId fuel i users) w Q E := by
  induction fuel generalizing i users w with
  | zero => exact hdone users w h0
  | succ n ih =>
    obtain ⟨h1, h2, h3⟩ := hstep w i users (Nat.le_refl _) (by omega) h0
    simp only [lookupUsers, holds_bind, holds_findRecordsByExpr, holds_die]
    refine ⟨fun he => ?_, fun x hx => h1 x hx⟩
    cases hr : (d.FindRecordsByExpr w.store usersId ("username", testUsername i)).1 with
    | nil =>
      have := h2 he hr
      simpa only [World.push, queryEvent, hr, holds_exitWith] using this
    | cons r0 rs =>
      have := ih (i + 1) (fun w j users h1 h2 => hstep w j users (by omega) (by omega))
        (fun users w h => hdone users w (by rw [show i + (n + 1) = i + 1 + n by omega]; exact h))
        (users.set i (some r0)) _ (h3 he r0 rs hr)
      simpa only [World.push, queryEvent, hr] using this

/-- Loop rule for the user lookup: an invariant kept by every query that finds
a user holds when the loop ends; a failed or empty query exits at once. -/
theorem holds_lookupUsers (d : Dao σ) (usersId : String) (Inv : World σ → Prop)
    (Q : List (Option Record) → World σ → Prop) (E : Exit → World σ → Prop)
    (hstep : ∀ w i, Inv w → LookupStep d usersId Inv E w i)
    (hdone : ∀ users w, Inv w → Q users w)
    (fuel i : Nat) (users : List (Option Record)) (w : World σ) (h0 : Inv w) :
    Holds (lookupUsers d usersId fuel i users) w Q E := by
  refine holds_lookupUsers_at d usersId (fun _ _ => Inv) Q E fuel i ?_ hdone users w h0
  intro w j users _ _ hw
  obtain ⟨h1, h2, h3⟩ := hstep w j hw
  exact ⟨h1, h2, fun he r0 rs hr => h3 he (by simp [hr])⟩

/-- Proof rule for the `form` command, in its general form: stage invariants `A`
(users looked up), `B` (collections deleted), `C` (`projects` created), `D`
(`memberOf` created), `F` (`posts` created, users being looked up, indexed by
the loop index and the users found so far) and `G` (test project saved), each
established by the operation that ends the stage before. -/
theorem holds_formRun_at (d : Dao σ) (w0 : World σ) (Q : Unit → World σ → Prop)
    (E : Exit → World σ → Prop)
    (A B : Option Collection → World σ → Prop)
    (C : Option Collection → Collection → World σ → Prop)
    (D : Collection → Collection → Collection → World σ → Prop)
    (F : Collection → Collection → Collection → Collection → Nat → List (Option Record) →
      World σ → Prop)
    (G : Collection → Collection → Collection → Collection → List (Option Record) → Record →
      World σ → Prop)
    (h_find : OpStep (d.FindCollectionByNameOrId w0.store "users").2
      (w0.push w0.store (findEvent d w0 "users"))
      (A (d.FindCollectionByNameOrId w0.store "users").1) E)
    (h_delete : ∀ u w, A u w →
      Holds (deleteCollections d teardownNames) w (fun err w1 => OpStep err w1 (B u) E) E)
    (h_projects : ∀ u w, B u w →
      OpStep (d.SubmitCollection w.store (standardForm "projects" projectsFields)).2.2
        (w.push (d.SubmitCollection w.store (standardForm "projects" projectsFields)).1
          (createEvent d w (standardForm "projects" projectsFields)))
        (C u (d.SubmitCollection w.store (standardForm "projects" projectsFields)).2.1) E)
    (h_nil : ∀ cp w, C none cp w → E Exit.nilDeref w)
    (h_memberOf : ∀ u cp w, C (some u) cp w →
      OpStep (d.SubmitCollection w.store
          (standardForm "memberOf" (memberOfFields u.Id cp.Id))).2.2
        (w.push (d.SubmitCollection w.store
            (standardForm "memberOf" (memberOfFields u.Id cp.Id))).1
          (createEvent d w (standardForm "memberOf" (memberOfFields u.Id cp.Id))))
        (D u cp (d.SubmitCollection w.store
            (standardForm "memberOf" (memberOfFields u.Id cp.Id))).2.1) E)
    (h_posts : ∀ u cp cm w, D u cp cm w →
      OpStep (d.SubmitCollection w.store (standardForm "posts" (postsFields cp.Id u.Id))).2.2
        (w.push (d.SubmitCollection w.store (standardForm "posts" (postsFields cp.Id u.Id))).1
          (createEvent d w (standardForm "posts" (postsFields cp.Id u.Id))))
        (F u cp cm (d.SubmitCollection w.store
            (standardForm "posts" (postsFields cp.Id u.Id))).2.1 0
          (List.replicate TEST_USER_COUNT none)) E)
    (h_lookup : ∀ u cp cm cq w i users, i < TEST_USER_COUNT → F u cp cm cq i users w →
      LookupStepAt d u.Id (F u cp cm cq) E w i users)
    (h_project : ∀ u cp cm cq users w, F u cp cm cq TEST_USER_COUNT users w →
      OpStep (d.SubmitRecord w.store (NewRecord cp) projectData).2.2
        (w.push (d.SubmitRecord w.store (NewRecord cp) projectData).1
          (upsertEvent d w (NewRecord cp) projectData))
        (G u cp cm cq users (d.SubmitRecord w.store (NewRecord cp) projectData).2.1) E)
    (h_nil_user : ∀ u cp cm cq users pr w, users.getD 1 none = none →
      G u cp cm cq users pr w → E Exit.nilDeref w)
    (h_member : ∀ u cp cm cq users pr (user1 : Record) w, users.getD 1 none = some user1 →
      G u cp cm cq users pr w →
      OpStep (d.SubmitRecord w.store (NewRecord cm) (memberData user1.Id pr.Id)).2.2
        (w.push (d.SubmitRecord w.store (NewRecord cm) (memberData user1.Id pr.Id)).1
          (upsertEvent d w (NewRecord cm) (memberData user1.Id pr.Id)))
        (Q ()) E) :
    Holds (formRun d) w0 Q E := by
  simp only [formRun, holds_bind, holds_findCollectionByNameOrId]
  obtain ⟨hf1, hf2⟩ := h_find
  cases he : (d.FindCollectionByNameOrId w0.store "users").2 with
  | some x =>
    have := hf1 x he
    simpa only [World.push, findEvent, he, holds_exitWith] using this
  | none =>
    have hA := hf2 he
    simp only [World.push, findEvent, he] at hA
    simp only [holds_bind]
    refine holds_imp (h_delete _ _ hA) ?_ (fun _ _ h => h)
    · intro err w hdel
      obtain ⟨hd1, hd2⟩ := hdel
      simp only [holds_die, holds_bind, makeStandardCollection_eq, holds_submitCollectionUpsert]
      refine ⟨fun herr => ?_, fun x hx => hd1 x hx⟩
      have hw := hd2 herr
      obtain ⟨hp1, hp2⟩ := h_projects _ w hw
      refine ⟨fun hpe => ?_, fun x hx => hp1 x hx⟩
      have hC := hp2 hpe
      simp only [holds_deref, holds_bind, holds_submitCollectionUpsert, holds_die]
      refine ⟨fun hu => h_nil _ _ (hu ▸ hC), fun u hu => ?_⟩
      rw [hu] at hC
      obtain ⟨hm1, hm2⟩ := h_memberOf u _ _ hC
      refine ⟨fun hme => ?_, fun x hx => hm1 x hx⟩
      have hD := hm2 hme
      obtain ⟨hq1, hq2⟩ := h_posts u _ _ _ hD
      refine ⟨fun hqe => ?_, fun x hx => hq1 x hx⟩
      have hF := hq2 hqe
      simp only [MAKE_USERS, Bool.false_eq_true, if_false]
      refine holds_lookupUsers_at d u.Id (F u _ _ _) _ E TEST_USER_COUNT 0
        (fun w j users _ hj hw => h_lookup _ _ _ _ w j users (by omega) hw) ?_ _ _ hF
      intro users w hw
      rw [Nat.zero_add] at hw
      simp only [holds_bind, holds_submitRecordUpsert, holds_die, holds_deref]
      obtain ⟨hr1, hr2⟩ := h_project _ _ _ _ users w hw
      refine ⟨fun hre => ?_, fun x hx => hr1 x hx⟩
      have hG := hr2 hre
      refine ⟨fun hn => h_nil_user _ _ _ _ _ _ _ hn hG, fun user1 hu1 => ?_⟩
      obtain ⟨hs1, hs2⟩ := h_member _ _ _ _ _ _ user1 _ hu1 hG
      exact ⟨fun hse => hs2 hse, fun x hx => hs1 x hx⟩

/-- Proof rule for the `form` command: stage invariants `A` (users looked up,
collections being deleted), `C` (`projects` created), `D` (`memberOf` created),
`F` (`posts` created, users being looked up) and `G` (test project saved), each
established by the operation that ends the stage before. -/
theorem holds_formRun (d : Dao σ) (w0 : World σ) (Q : Unit → World σ → Prop)
    (E : Exit → World σ → Prop)
    (A : Option Collection → World σ → Prop)
    (C : Option Collection → Collection → World σ → Prop)
    (D : Collection → Collection → Collection → World σ → Prop)
    (F : Collection → Collection → Collection → Collection → World σ → Prop)
    (G : Collection → Collection → Collection → Collection → Record → World σ → Prop)
    (h_find : OpStep (d.FindCollectionByNameOrId w0.store "users").2
      (w0.push w0.store (findEvent d w0 "users"))
      (A (d.FindCollectionByNameOrId w0.store "users").1) E)
    (h_delete : ∀ u w k, k ∈ teardownNames → A u w →
      DeleteStep d (A u) (fun x w1 => E (Exit.fatal x) w1) w k)
    (h_projects : ∀ u w, A u w →
      OpStep (d.SubmitCollection w.store (standardForm "projects" projectsFields)).2.2
        (w.push (d.SubmitCollection w.store (standardForm "projects" projectsFields)).1
          (createEvent d w (standardForm "projects" projectsFields)))
        (C u (d.SubmitCollection w.store (standardForm "projects" projectsFields)).2.1) E)
    (h_nil : ∀ cp w, C none cp w → E Exit.nilDeref w)
    (h_memberOf : ∀ u cp w, C (some u) cp w →
      OpStep (d.SubmitCollection w.store
          (standardForm "memberOf" (memberOfFields u.Id cp.Id))).2.2
        (w.push (d.SubmitCollection w.store
            (standardForm "memberOf" (memberOfFields u.Id cp.Id))).1
          (createEvent d w (standardForm "memberOf" (memberOfFields u.Id cp.Id))))
        (D u cp (d.SubmitCollection w.store
            (standardForm "memberOf" (memberOfFields u.Id cp.Id))).2.1) E)
    (h_posts : ∀ u cp cm w, D u cp cm w →
      OpStep (d.SubmitCollection w.store (standardForm "posts" (postsFields cp.Id u.Id))).2.2
        (w.push (d.SubmitCollection w.store (standardForm "posts" (postsFields cp.Id u.Id))).1
          (createEvent d w (standardForm "posts" (postsFields cp.Id u.Id))))
        (F u cp cm (d.SubmitCollection w.store
            (standardForm "posts" (postsFields cp.Id u.Id))).2.1) E)
    (h_lookup : ∀ u cp cm cq w i, F u cp cm cq w → LookupStep d u.Id (F u cp cm cq) E w i)
    (h_project : ∀ u cp cm cq w, F u cp cm cq w →
      OpStep (d.SubmitRecord w.store (NewRecord cp) projectData).2.2
        (w.push (d.SubmitRecord w.store (NewRecord cp) projectData).1
          (upsertEvent d w (NewRecord cp) projectData))
        (G u cp cm cq (d.SubmitRecord w.store (NewRecord cp) projectData).2.1) E)
    (h_nil_user : ∀ u cp cm cq pr w, G u cp cm cq pr w → E Exit.nilDeref w)
    (h_member : ∀ u cp cm cq pr (user1 : Record) w, G u cp cm cq pr w →
      OpStep (d.SubmitRecord w.store (NewRecord cm) (memberData user1.Id pr.Id)).2.2
        (w.push (d.SubmitRecord w.store (NewRecord cm) (memberData user1.Id pr.Id)).1
          (upsertEvent d w (NewRecord cm) (memberData user1.Id pr.Id)))
        (Q ()) E) :
    Holds (formRun d) w0 Q E := by
  refine holds_formRun_at d w0 Q E A A C D (fun u cp cm cq _ _ => F u cp cm cq)
    (fun u cp cm cq _ pr => G u cp cm cq pr) h_find ?_ h_projects h_nil h_memberOf h_posts ?_
    (fun u cp cm cq _ w hw => h_project u cp cm cq w hw)
    (fun u cp cm cq _ pr w _ hw => h_nil_user u cp cm cq pr w hw)
    (fun u cp cm cq _ pr user1 w _ hw => h_member u cp cm cq pr user1 w hw)
  · intro u w hw
    exact holds_deleteCollections d (A u) (fun x w1 => E (Exit.fatal x) w1) _ E _
      (fun w k hk hw => h_delete u w k hk hw)
      (fun w hw => ⟨fun x hx => Option.noConfusion hx, fun _ => hw⟩)
      (fun x w hw => ⟨fun y hy => Option.some.inj hy ▸ hw, fun h => Option.noConfusion h⟩) w hw
  · intro u cp cm cq w i users _ hw
    obtain ⟨h1, h2, h3⟩ := h_lookup u cp cm cq w i hw
    exact ⟨h1, h2, fun he r0 rs hr => h3 he (by simp [hr])⟩

theorem clean_append {tr : List Event} {e : Event} (h : NoError tr) (he : e.err = none) :
    NoError (tr ++ [e]) := by
  intro a ha
  rcases List.mem_append.1 ha with h1 | h1
  · exact h a h1
  · rw [List.mem_singleton.1 h1]; exact he

theorem noRollback_append {tr : List Event} {e : Event} (h : NoRollback tr)
    (he : e.isDelete = false ∨ ∀ a ∈ tr, a.isSubmit = false) : NoRollback (tr ++ [e]) := by
  unfold NoRollback at *
  rw [List.pairwise_append]
  refine ⟨h, List.pairwise_singleton _ _, ?_⟩
  intro a ha b hb ha1
  rw [List.mem_singleton.1 hb]
  rcases he with he | he
  · exact he
  · rw [he a ha] at ha1; cases ha1

theorem noRollback_of_noSubmit {tr : List Event} (h : ∀ a ∈ tr, a.isSubmit = false) :
    NoRollback tr := by
  unfold NoRollback
  rw [List.pairwise_iff_forall_sublist]
  intro a b hab ha
  have : a ∈ tr := hab.subset (by simp)
  rw [h a this] at ha; cases ha

theorem replay_append (d : Dao σ) (s : σ) (tr : List Event) (e : Event) :
    replay d s (tr ++ [e]) = applyEvent d (replay d s tr) e := by
  simp [replay, List.foldl_append]

theorem tearingDown_push (d : Dao σ) (s : σ) (w : World σ) (e : Event) (s1 : σ)
    (hw : TearingDown d s w) (hs : s1 = applyEvent d w.store e) (he : e.isSubmit = false) :
    (e.err = none → TearingDown d s (w.push s1 e)) ∧
    (∀ x, e.err = some x → Stopped d s (Exit.fatal x) (w.push s1 e)) := by
  obtain ⟨h1, h2, h3⟩ := hw
  have hst : (w.push s1 e).store = replay d s (w.push s1 e).trace := by
    simp only [World.push, replay_append, ← h1, hs]
  refine ⟨fun hn => ⟨hst, clean_append h2 hn, ?_⟩, fun x hx => ⟨hst, ?_, Or.inr ⟨x, rfl, ?_⟩⟩⟩
  · intro a ha
    rcases List.mem_append.1 ha with h | h
    · exact h3 a h
    · rw [List.mem_singleton.1 h]; exact he
  · exact noRollback_append (noRollback_of_noSubmit h3) (Or.inr h3)
  · exact ⟨w.trace, e, rfl, h2, hx⟩

theorem building_push (d : Dao σ) (s : σ) (w : World σ) (e : Event) (s1 : σ)
    (hw : Building d s w) (hs : s1 = applyEvent d w.store e) (he : e.isDelete = false) :
    OpStep e.err (w.push s1 e) (Building d s) (Stopped d s) := by
  obtain ⟨h1, h2, h3⟩ := hw
  have hst : (w.push s1 e).store = replay d s (w.push s1 e).trace := by
    simp only [World.push, replay_append, ← h1, hs]
  have hnr : NoRollback (w.push s1 e).trace := noRollback_append h3 (Or.inl he)
  exact ⟨fun x hx => ⟨hst, hnr, Or.inr ⟨x, rfl, w.trace, e, rfl, h2, hx⟩⟩,
    fun hn => ⟨hst, clean_append h2 hn, hnr⟩⟩

theorem building_of_tearingDown (d : Dao σ) (s : σ) (w : World σ)
    (hw : TearingDown d s w) : Building d s w :=
  ⟨hw.1, hw.2.1, noRollback_of_noSubmit hw.2.2⟩

theorem stopped_of_building (d : Dao σ) (s : σ) (w : World σ) (e : Exit)
    (hw : Building d s w) (he : ∀ x, e ≠ Exit.fatal x) : Stopped d s e w :=
  ⟨hw.1, hw.2.2, Or.inl ⟨hw.2.1, fun x hx => he x (Option.some.inj hx)⟩⟩

/-- The run of the `form` command over any store: the final store is what the
performed operations produced, no deletion follows a creation, and the run
either performed only successful operations or ended in `log.Fatal(x)` right
after the operation that answered `x`. -/
theorem runForm_stopped (d : Dao σ) (s : σ) :
    (runForm d s).world.store = replay d s (runForm d s).world.trace ∧
    NoRollback (runForm d s).world.trace ∧
    EndedAt (runForm d s).exit? (runForm d s).world.trace := by
  have key : Holds (formRun d) { store := s, trace := [] }
      (fun _ w => Building d s w) (fun e w => Stopped d s e w) := by
    refine holds_formRun d _ _ _ (fun _ => TearingDown d s) (fun _ _ => Building d s)
      (fun _ _ _ => Building d s) (fun _ _ _ _ => Building d s)
      (fun _ _ _ _ _ => Building d s) ?_ ?_ ?_ ?_ ?_ ?_ ?_ ?_ ?_ ?_
    · have h0 : TearingDown d s { store := s, trace := [] } :=
        ⟨rfl, fun a h => absurd h (List.not_mem_nil a), fun a h => absurd h (List.not_mem_nil a)⟩
      obtain ⟨h1, h2⟩ := tearingDown_push d s _ (findEvent d _ "users") s h0 rfl rfl
      exact ⟨h2, h1⟩
    · intro u w k _ hw
      obtain ⟨h1, h2⟩ := tearingDown_push d s w (findEvent d w k) w.store hw rfl rfl
      refine ⟨h2, fun he _ => h1 he, fun he c _ => ?_⟩
      obtain ⟨h3, h4⟩ := tearingDown_push d s _ (deleteEvent d w c)
        (d.DeleteCollection w.store c).1 (h1 he) rfl rfl
      exact ⟨h3, h4⟩
    · intro u w hw
      exact building_push d s w (createEvent d w _) _ (building_of_tearingDown d s w hw) rfl rfl
    · intro cp w hw
      exact stopped_of_building d s w _ hw (fun x hx => by cases hx)
    · intro u cp w hw
      exact building_push d s w (createEvent d w _) _ hw rfl rfl
    · intro u cp cm w hw
      exact building_push d s w (createEvent d w _) _ hw rfl rfl
    · intro u cp cm cq w i hw
      obtain ⟨h1, h2⟩ := building_push d s w (queryEvent d w u.Id ("username", testUsername i))
        w.store hw rfl rfl
      exact ⟨h1, fun he _ => stopped_of_building d s _ _ (h2 he) (fun x hx => by cases hx),
        fun he _ => h2 he⟩
    · intro u cp cm cq w hw
      exact building_push d s w (upsertEvent d w _ _) _ hw rfl rfl
    · intro u cp cm cq pr w hw
      exact stopped_of_building d s w _ hw (fun x hx => by cases hx)
    · intro u cp cm cq pr user1 w hw
      exact building_push d s w (upsertEvent d w _ _) _ hw rfl rfl
  unfold Holds at key
  unfold runForm
  cases h : formRun d { store := s, trace := [] } with
  | ok a w =>
    rw [h] at key
    exact ⟨key.1, key.2.2, Or.inl ⟨key.2.1, fun x hx => by cases hx⟩⟩
  | exit e w =>
    rw [h] at key
    exact key

theorem createCollection_ok {ruleOk : String → Bool} {s : Store} {form : CollectionUpsert}
    (h : (createCollection ruleOk s form).2.2 = none) :
    findCollection s form.Name = none ∧
    createCollection ruleOk s form
      = (s ++ [{ collection := provisioned s form, records := [] }],
         (provisioned s form, none)) := by
  unfold createCollection at h ⊢
  split at h
  · cases h
  · split at h
    · cases h
    · split at h
      · cases h
      · rename_i h1 h2 h3
        simp only [h1, h2, h3, if_false, Bool.false_eq_true]
        exact ⟨by simpa using h1, trivial⟩

theorem createCollection_err {ruleOk : String → Bool} {s : Store} {form : CollectionUpsert}
    {x : Error} (h : (createCollection ruleOk s form).2.2 = some x) :
    (createCollection ruleOk s form).1 = s := by
  unfold createCollection at h ⊢
  split
  · rfl
  · split
    · rfl
    · split
      · rfl
      · rename_i h1 h2 h3
        simp [h1, h2, h3] at h

theorem upsertValidated_ok {s : Store} {record : Record} {data : RecordData}
    (h : (upsertValidated s record data).2.2 = none) :
    ∃ t, s.find? (fun t => t.collection.Id == record.collection.Id) = some t ∧
      upsertValidated s record data
        = (addRecord s record.collection.Id (savedRecord t data), (savedRecord t data, none)) := by
  unfold upsertValidated at h ⊢
  split at h
  · cases h
  · rename_i t ht
    split at h
    · rename_i hv
      exact ⟨t, ht, by simp [ht, hv]⟩
    · cases h

theorem upsertValidated_err {s : Store} {record : Record} {data : RecordData} {x : Error}
    (h : (upsertValidated s record data).2.2 = some x) :
    (upsertValidated s record data).1 = s := by
  unfold upsertValidated at h ⊢
  split
  · rfl
  · split
    · rename_i t ht hv
      simp [ht, hv] at h
    · rfl

@[simp] theorem specDao_find (ruleOk : String → Bool) (s : Store) (k : String) :
    (specDao ruleOk).FindCollectionByNameOrId s k = (findCollection s k, none) := rfl

@[simp] theorem specDao_delete (ruleOk : String → Bool) :
    (specDao ruleOk).DeleteCollection = deleteCollection := rfl

@[simp] theorem specDao_query (ruleOk : String → Bool) (s : Store) (k : String)
    (exp : String × String) :
    (specDao ruleOk).FindRecordsByExpr s k exp = (queryRecords s k exp, none) := rfl

@[simp] theorem specDao_create (ruleOk : String → Bool) :
    (specDao ruleOk).SubmitCollection = createCollection ruleOk := rfl

@[simp] theorem specDao_upsert (ruleOk : String → Bool) :
    (specDao ruleOk).SubmitRecord = upsertValidated := rfl

theorem extends_refl (s : Store) : Extends s s :=
  fun t ht => ⟨t, ht, rfl, fun _ h => h⟩

theorem extends_createCollection (ruleOk : String → Bool) (s : Store)
    (form : CollectionUpsert) : Extends s (createCollection ruleOk s form).1 := by
  cases h : (createCollection ruleOk s form).2.2 with
  | some x => rw [createCollection_err h]; exact extends_refl s
  | none =>
    rw [(createCollection_ok h).2]
    intro t ht
    exact ⟨t, List.mem_append_left _ ht, rfl, fun _ h => h⟩

theorem extends_addRecord (s : Store) (cid : String) (saved : Record) :
    Extends s (addRecord s cid saved) := by
  intro t ht
  refine ⟨_, List.mem_map_of_mem _ ht, ?_, ?_⟩
  · split <;> rfl
  · intro r hr
    split
    · exact List.mem_append_left _ hr
    · exact hr

theorem extends_upsertValidated (s : Store) (record : Record) (data : RecordData) :
    Extends s (upsertValidated s record data).1 := by
  cases h : (upsertValidated s record data).2.2 with
  | some x => rw [upsertValidated_err h]; exact extends_refl s
  | none =>
    obtain ⟨t, _, h2⟩ := upsertValidated_ok h
    rw [h2]
    exact extends_addRecord _ _ _

theorem kept_of_extends {w : World Store} {s1 : Store} {e : Event} (hw : Kept w)
    (hs : Extends w.store s1)
    (hc : ∀ form c, e = Event.submitCollection form c none → ∃ t ∈ s1, t.collection = c)
    (hr : ∀ record data saved, e = Event.submitRecord record data saved none →
      ∃ t ∈ s1, saved ∈ t.records) : Kept (w.push s1 e) := by
  refine ⟨fun form c hm => ?_, fun record data saved hm => ?_⟩
  · rcases List.mem_append.1 hm with h | h
    · obtain ⟨t, ht, htc⟩ := hw.1 form c h
      obtain ⟨t1, ht1, h1, _⟩ := hs t ht
      exact ⟨t1, ht1, h1.trans htc⟩
    · exact hc form c (List.mem_singleton.1 h).symm
  · rcases List.mem_append.1 hm with h | h
    · obtain ⟨t, ht, htr⟩ := hw.2 record data saved h
      obtain ⟨t1, ht1, _, h1⟩ := hs t ht
      exact ⟨t1, ht1, h1 saved htr⟩
    · exact hr record data saved (List.mem_singleton.1 h).symm

theorem kept_create (ruleOk : String → Bool) {w : World Store} (hw : Kept w)
    (form : CollectionUpsert) :
    Kept (w.push ((specDao ruleOk).SubmitCollection w.store form).1
      (createEvent (specDao ruleOk) w form)) := by
  refine kept_of_extends hw (extends_createCollection ruleOk w.store form) ?_ ?_
  · intro form1 c he
    simp only [createEvent, Event.submitCollection.injEq] at he
    obtain ⟨_, h2, h3⟩ := he
    have h := (createCollection_ok h3).2
    rw [specDao_create, h] at h2 ⊢
    exact ⟨_, List.mem_append_right _ (List.mem_singleton.2 rfl), h2⟩
  · intro record data saved he
    simp [createEvent] at he

theorem mem_addRecord {s : Store} {t : Table} {cid : String} (saved : Record)
    (h : s.find? (fun t => t.collection.Id == cid) = some t) :
    ∃ t1 ∈ addRecord s cid saved, saved ∈ t1.records := by
  have hm := List.mem_of_find?_eq_some h
  have hp := List.find?_some h
  refine ⟨_, List.mem_map_of_mem _ hm, ?_⟩
  simp only [hp, if_true]
  exact List.mem_append_right _ (List.mem_singleton.2 rfl)

theorem kept_upsert (ruleOk : String → Bool) {w : World Store} (hw : Kept w)
    (record : Record) (data : RecordData) :
    Kept (w.push ((specDao ruleOk).SubmitRecord w.store record data).1
      (upsertEvent (specDao ruleOk) w record data)) := by
  refine kept_of_extends hw (extends_upsertValidated w.store record data) ?_ ?_
  · intro form1 c he
    simp [upsertEvent] at he
  · intro record1 data1 saved he
    simp only [upsertEvent, Event.submitRecord.injEq] at he
    obtain ⟨_, _, h2, h3⟩ := he
    obtain ⟨t, ht, h⟩ := upsertValidated_ok h3
    rw [specDao_upsert, h] at h2 ⊢
    subst h2
    exact mem_addRecord _ ht

theorem kept_read {w : World Store} (hw : Kept w) (e : Event) (he : e.isSubmit = false) :
    Kept (w.push w.store e) := by
  refine kept_of_extends hw (extends_refl _) ?_ ?_
  · intro form c h; rw [h] at he; cases he
  · intro record data saved h; rw [h] at he; cases he

theorem kept_of_noSubmit {w : World Store} (h : ∀ a ∈ w.trace, a.isSubmit = false) :
    Kept w :=
  ⟨fun _ _ hm => absurd (h _ hm) (by simp [Event.isSubmit]),
   fun _ _ _ hm => absurd (h _ hm) (by simp [Event.isSubmit])⟩

/-- Over the store of the specification, whatever a successful creation or
upsert of the run answered is in the store when the run ends, however it ends. -/
theorem runForm_kept (ruleOk : String → Bool) (s : Store) :
    Kept (runForm (specDao ruleOk) s).world := by
  have key : Holds (formRun (specDao ruleOk)) { store := s, trace := [] }
      (fun _ w => Kept w) (fun _ w => Kept w) := by
    refine holds_formRun (specDao ruleOk) _ _ _
      (fun _ w => ∀ a ∈ w.trace, a.isSubmit = false) (fun _ _ => Kept)
      (fun _ _ _ => Kept) (fun _ _ _ _ => Kept) (fun _ _ _ _ _ => Kept)
      ?_ ?_ ?_ ?_ ?_ ?_ ?_ ?_ ?_ ?_
    · have h : ∀ a ∈ (World.push { store := s, trace := [] } s
          (findEvent (specDao ruleOk) { store := s, trace := [] } "users")).trace,
          a.isSubmit = false := by
        intro a ha
        simp only [World.push, List.nil_append, List.mem_singleton] at ha
        rw [ha]; rfl
      exact ⟨fun x hx => by simp at hx, fun _ => h⟩
    · intro u w k _ hw
      have h1 : ∀ a ∈ (w.push w.store (findEvent (specDao ruleOk) w k)).trace,
          a.isSubmit = false := by
        intro a ha
        rcases List.mem_append.1 ha with h | h
        · exact hw a h
        · rw [List.mem_singleton.1 h]; rfl
      refine ⟨fun x hx => by simp at hx, fun _ _ => h1, fun _ c _ => ?_⟩
      have h2 : ∀ a ∈ ((w.push w.store (findEvent (specDao ruleOk) w k)).push
          ((specDao ruleOk).DeleteCollection w.store c).1
          (deleteEvent (specDao ruleOk) w c)).trace, a.isSubmit = false := by
        intro a ha
        rcases List.mem_append.1 ha with h | h
        · exact h1 a h
        · rw [List.mem_singleton.1 h]; rfl
      exact ⟨fun _ => h2, fun x _ => kept_of_noSubmit h2⟩
    · intro u w hw
      have := kept_create ruleOk (kept_of_noSubmit hw) (standardForm "projects" projectsFields)
      exact ⟨fun _ _ => this, fun _ => this⟩
    · intro cp w hw; exact hw
    · intro u cp w hw
      have := kept_create ruleOk hw (standardForm "memberOf" (memberOfFields u.Id cp.Id))
      exact ⟨fun _ _ => this, fun _ => this⟩
    · intro u cp cm w hw
      have := kept_create ruleOk hw (standardForm "posts" (postsFields cp.Id u.Id))
      exact ⟨fun _ _ => this, fun _ => this⟩
    · intro u cp cm cq w i hw
      have := kept_read hw (queryEvent (specDao ruleOk) w u.Id ("username", testUsername i)) rfl
      exact ⟨fun _ _ => this, fun _ _ => this, fun _ _ => this⟩
    · intro u cp cm cq w hw
      have := kept_upsert ruleOk hw (NewRecord cp) projectData
      exact ⟨fun _ _ => this, fun _ => this⟩
    · intro u cp cm cq pr w hw; exact hw
    · intro u cp cm cq pr user1 w hw
      have := kept_upsert ruleOk hw (NewRecord cm) (memberData user1.Id pr.Id)
      exact ⟨fun _ _ => this, fun _ => this⟩
  unfold Holds at key
  unfold runForm
  cases h : formRun (specDao ruleOk) { store := s, trace := [] } with
  | ok a w => rw [h] at key; exact key
  | exit e w => rw [h] at key; exact key

theorem endedAt_index {e : Option Exit} {tr : List Event} (h : EndedAt e tr) (k : Nat)
    (ev : Event) (x : Error) (hk : tr[k]? = some ev) (hx : ev.err = some x) :
    k + 1 = tr.length ∧ e = some (Exit.fatal x) := by
  have hmem : ev ∈ tr := List.getElem?_mem hk
  rcases h with ⟨hc, _⟩ | ⟨y, hy, init, last, htr, hc, hl⟩
  · rw [hc ev hmem] at hx; cases hx
  · subst htr
    by_cases hlt : k < init.length
    · rw [List.getElem?_append_left hlt] at hk
      have := hc ev (List.getElem?_mem hk)
      rw [this] at hx; cases hx
    · have hge : init.length ≤ k := Nat.le_of_not_lt hlt
      rw [List.getElem?_append_right hge] at hk
      have hk0 : k - init.length = 0 := by
        by_contra hne
        obtain ⟨m, hm⟩ := Nat.exists_eq_succ_of_ne_zero hne
        rw [hm] at hk
        simp at hk
      rw [hk0] at hk
      simp only [List.getElem?_cons_zero, Option.some.injEq] at hk
      subst hk
      rw [hl] at hx
      cases hx
      refine ⟨?_, hy⟩
      simp only [List.length_append, List.length_singleton]
      omega

/-- C5: the `form` command is fail-fast with no rollback. Over any store
behaviour: if the k-th store operation of the run answers an error, it is the
last operation performed and the run ends in `log.Fatal` of that error; no
collection deletion follows a creation or an upsert; and the final store is
exactly what the performed operations produced. Over the store of the
specification: every collection or record a successful creation or upsert of
the run answered is in the store when the run ends. -/
theorem form_fail_fast_no_rollback :
    (∀ (σ : Type) (d : Dao σ) (s : σ),
      (∀ (k : Nat) (e : Event) (x : Error),
        (runForm d s).world.trace[k]? = some e → e.err = some x →
          k + 1 = (runForm d s).world.trace.length ∧
          (runForm d s).exit? = some (Exit.fatal x)) ∧
      NoRollback (runForm d s).world.trace ∧
      (runForm d s).world.store = replay d s (runForm d s).world.trace) ∧
    (∀ (ruleOk : String → Bool) (s : Store), Kept (runForm (specDao ruleOk) s).world) := by
  refine ⟨fun σ d s => ?_, runForm_kept⟩
  obtain ⟨h1, h2, h3⟩ := runForm_stopped d s
  exact ⟨fun k e x hk hx => endedAt_index h3 k e x hk hx, h2, h1⟩

/-- C5, on a store in which `posts` cannot be deleted: the deletion is the third
operation, it answers the has-dependents error, and the run stops there. -/
theorem form_fail_fast_no_rollback_witness :
    2 + 1 = (runForm (specDao (fun _ => true)) blockedStore).world.trace.length ∧
    (runForm (specDao (fun _ => true)) blockedStore).exit?
      = some (Exit.fatal Error.hasDependents) :=
  (form_fail_fast_no_rollback.1 Store (specDao (fun _ => true)) blockedStore).1 2
    (Event.deleteCollection { Id := "pp", Name := "posts", Typ := CollectionType.base }
      (some Error.hasDependents))
    Error.hasDependents (by decide!) rfl

theorem findCollection_none_name {s : Store} {n : String} (h : findCollection s n = none) :
    ∀ t ∈ s, t.collection.Name ≠ n := by
  intro t ht hn
  simp only [findCollection, findTable, Option.map_eq_none', List.find?_eq_none] at h
  have := h t ht
  simp [Table.answers, hn] at this

theorem recordsOf_nil_of_absent {s : Store} {n : String}
    (h : ∀ t ∈ s, t.collection.Name ≠ n) : recordsOf s n = [] := by
  have : s.filter (fun t => t.collection.Name == n) = [] := by
    rw [List.filter_eq_nil_iff]
    intro t ht
    simpa using h t ht
  simp [recordsOf, this]

theorem recordsOf_append_empty (s : Store) (c : Collection) (n : String) :
    recordsOf (s ++ [{ collection := c, records := [] }]) n = recordsOf s n := by
  simp only [recordsOf, List.filter_append, List.flatMap_append]
  by_cases h : c.Name = n <;> simp [List.filter_cons, h]

/-- After a successful creation the created collection has no records, and the
records of every collection are what they were. -/
theorem recordsOf_createCollection {ruleOk : String → Bool} {s : Store}
    {form : CollectionUpsert} (h : (createCollection ruleOk s form).2.2 = none) (n : String) :
    recordsOf (createCollection ruleOk s form).1 n = recordsOf s n ∧
    recordsOf (createCollection ruleOk s form).1 form.Name = [] := by
  obtain ⟨h1, h2⟩ := createCollection_ok h
  rw [h2]
  exact ⟨recordsOf_append_empty _ _ _, by
    rw [recordsOf_append_empty]
    exact recordsOf_nil_of_absent (findCollection_none_name h1)⟩

theorem unseeded_push {names : List String} {w : World Store} (hw : Unseeded names w)
    (e : Event) (h1 : e.isEmptyQuery = false) (h2 : e.isSubmitRecord = false) :
    Unseeded names (w.push w.store e) := by
  refine ⟨fun a ha => ?_, fun a ha => ?_, hw.2.2⟩
  · rcases List.mem_append.1 ha with h | h
    · exact hw.1 a h
    · rw [List.mem_singleton.1 h]; exact h1
  · rcases List.mem_append.1 ha with h | h
    · exact hw.2.1 a h
    · rw [List.mem_singleton.1 h]; exact h2

theorem unseeded_create (ruleOk : String → Bool) {names : List String} {w : World Store}
    (hw : Unseeded names w) (form : CollectionUpsert)
    (h : (createCollection ruleOk w.store form).2.2 = none) :
    Unseeded (form.Name :: names)
      (w.push ((specDao ruleOk).SubmitCollection w.store form).1
        (createEvent (specDao ruleOk) w form)) := by
  refine ⟨fun a ha => ?_, fun a ha => ?_, fun n hn => ?_⟩
  · rcases List.mem_append.1 ha with h | h
    · exact hw.1 a h
    · rw [List.mem_singleton.1 h]; rfl
  · rcases List.mem_append.1 ha with h | h
    · exact hw.2.1 a h
    · rw [List.mem_singleton.1 h]; rfl
  · have hr := recordsOf_createCollection h
    show recordsOf ((specDao ruleOk).SubmitCollection w.store form).1 n = []
    rw [specDao_create]
    rcases List.mem_cons.1 hn with h1 | h1
    · rw [h1]; exact (hr form.Name).2
    · rw [(hr n).1]; exact hw.2.2 n h1

theorem seedingAborted_of_noEmpty {w : World Store}
    (h : ∀ e ∈ w.trace, e.isEmptyQuery = false) : SeedingAborted w := by
  rintro ⟨e, he, h1⟩
  rw [h e he] at h1; cases h1

theorem noEmpty_push {w : World Store} {s1 : Store} {e : Event}
    (hw : ∀ a ∈ w.trace, a.isEmptyQuery = false) (he : e.isEmptyQuery = false) :
    ∀ a ∈ (w.push s1 e).trace, a.isEmptyQuery = false := by
  intro a ha
  rcases List.mem_append.1 ha with h | h
  · exact hw a h
  · rw [List.mem_singleton.1 h]; exact he

theorem isEmptyQuery_of_err {e : Event} {x : Error} (h : e.err = some x) :
    e.isEmptyQuery = false := by
  cases e with
  | findRecords k exp found err =>
    simp only [Event.err] at h
    subst h
    cases found <;> rfl
  | _ => rfl

/-- The run of the `form` command over the store of the specification: if a
user query came back empty, the run ended in `log.Fatal` with the no-user
message, no record upsert was submitted, and the `projects` and `memberOf`
collections hold no record. -/
theorem runForm_seeding (ruleOk : String → Bool) (s : Store) :
    Holds (formRun (specDao ruleOk)) { store := s, trace := [] }
      (fun _ w => ∀ e ∈ w.trace, e.isEmptyQuery = false)
      (fun x w => SeedingAborted w ∧
        ((∃ e ∈ w.trace, e.isEmptyQuery = true) → ∃ msg, x = Exit.fatalMsg msg)) := by
  have stop : ∀ (x : Exit) (w : World Store), (∀ e ∈ w.trace, e.isEmptyQuery = false) →
      SeedingAborted w ∧
        ((∃ e ∈ w.trace, e.isEmptyQuery = true) → ∃ msg, x = Exit.fatalMsg msg) := by
    intro x w h
    refine ⟨seedingAborted_of_noEmpty h, ?_⟩
    rintro ⟨e, he, h1⟩
    rw [h e he] at h1; cases h1
  refine holds_formRun (specDao ruleOk) _ _ _
    (fun _ w => Unseeded [] w)
    (fun _ _ w => Unseeded ["projects"] w)
    (fun _ _ _ w => Unseeded ["memberOf", "projects"] w)
    (fun _ _ _ _ w => Unseeded ["posts", "memberOf", "projects"] w)
    (fun _ _ _ _ _ w => ∀ e ∈ w.trace, e.isEmptyQuery = false)
    ?_ ?_ ?_ ?_ ?_ ?_ ?_ ?_ ?_ ?_
  · have h0 : Unseeded [] { store := s, trace := [] } :=
      ⟨fun a h => absurd h (List.not_mem_nil a), fun a h => absurd h (List.not_mem_nil a),
        fun n h => absurd h (List.not_mem_nil n)⟩
    exact ⟨fun x hx => by simp at hx, fun _ => unseeded_push h0 _ rfl rfl⟩
  · intro u w k _ hw
    have h1 := unseeded_push hw (findEvent (specDao ruleOk) w k) rfl rfl
    refine ⟨fun x hx => by simp at hx, fun _ _ => h1, fun _ c _ => ?_⟩
    have h2 : ∀ a ∈ ((w.push w.store (findEvent (specDao ruleOk) w k)).push
        ((specDao ruleOk).DeleteCollection w.store c).1
        (deleteEvent (specDao ruleOk) w c)).trace, a.isEmptyQuery = false :=
      noEmpty_push h1.1 rfl
    have h3 : ∀ a ∈ ((w.push w.store (findEvent (specDao ruleOk) w k)).push
        ((specDao ruleOk).DeleteCollection w.store c).1
        (deleteEvent (specDao ruleOk) w c)).trace, a.isSubmitRecord = false := by
      intro a ha
      rcases List.mem_append.1 ha with h | h
      · exact h1.2.1 a h
      · rw [List.mem_singleton.1 h]; rfl
    exact ⟨fun _ => ⟨h2, h3, fun n h => absurd h (List.not_mem_nil n)⟩, fun x _ => stop _ _ h2⟩
  · intro u w hw
    exact ⟨fun x _ => stop _ _ (noEmpty_push hw.1 rfl),
      fun h => unseeded_create ruleOk hw (standardForm "projects" projectsFields) h⟩
  · intro cp w hw
    exact stop _ _ hw.1
  · intro u cp w hw
    exact ⟨fun x _ => stop _ _ (noEmpty_push hw.1 rfl),
      fun h => unseeded_create ruleOk hw (standardForm "memberOf" (memberOfFields u.Id cp.Id)) h⟩
  · intro u cp cm w hw
    exact ⟨fun x _ => stop _ _ (noEmpty_push hw.1 rfl),
      fun h => unseeded_create ruleOk hw (standardForm "posts" (postsFields cp.Id u.Id)) h⟩
  · intro u cp cm cq w i hw
    refine ⟨fun x hx => stop _ _ (noEmpty_push hw.1 (isEmptyQuery_of_err hx)), fun _ _ => ?_,
      fun he hne => ?_⟩
    · refine ⟨fun _ => ⟨?_, hw.2.2 _ (by simp), hw.2.2 _ (by simp)⟩, fun _ => ⟨_, rfl⟩⟩
      intro a ha
      rcases List.mem_append.1 ha with h | h
      · exact hw.2.1 a h
      · rw [List.mem_singleton.1 h]; rfl
    · refine unseeded_push hw _ ?_ rfl
      simp only [queryEvent, specDao_query] at hne ⊢
      cases hq : queryRecords w.store u.Id ("username", testUsername i) with
      | nil => exact absurd hq hne
      | cons r rs => rfl
  · intro u cp cm cq w hw
    exact ⟨fun x _ => stop _ _ (noEmpty_push hw.1 rfl), fun _ => noEmpty_push hw.1 rfl⟩
  · intro u cp cm cq pr w hw
    exact stop _ _ hw
  · intro u cp cm cq pr user1 w hw
    exact ⟨fun x _ => stop _ _ (noEmpty_push hw rfl), fun _ => noEmpty_push hw rfl⟩

/-- C1: in the seeding step of the `form` command (the `MAKE_USERS = false`
path), over the store of the specification and for every store state: if the
query for the users with username `TEST_USER_<i>` returns no record, the run
terminates with a fatal error, no record upsert is submitted, and the store
holds zero `projects` records and zero `memberOf` records afterwards. -/
theorem seeding_missing_user_aborts (ruleOk : String → Bool) (s : Store) (i : Nat)
    (usersId : String)
    (h : Event.findRecords usersId ("username", testUsername i) [] none
      ∈ (runForm (specDao ruleOk) s).world.trace) :
    (∃ msg, (runForm (specDao ruleOk) s).exit? = some (Exit.fatalMsg msg)) ∧
    (∀ e ∈ (runForm (specDao ruleOk) s).world.trace, e.isSubmitRecord = false) ∧
    (recordsOf (runForm (specDao ruleOk) s).world.store "projects").length = 0 ∧
    (recordsOf (runForm (specDao ruleOk) s).world.store "memberOf").length = 0 := by
  have key := runForm_seeding ruleOk s
  unfold Holds at key
  unfold runForm at h ⊢
  cases hr : formRun (specDao ruleOk) { store := s, trace := [] } with
  | ok a w =>
    rw [hr] at key h
    have := key _ h
    cases this
  | exit x w =>
    rw [hr] at key h
    have hex : ∃ e ∈ w.trace, e.isEmptyQuery = true := ⟨_, h, rfl⟩
    obtain ⟨h1, h2, h3⟩ := key.1 hex
    obtain ⟨msg, hmsg⟩ := key.2 hex
    exact ⟨⟨msg, by rw [hmsg]; rfl⟩, h1, by simp [Res.world, h2], by simp [Res.world, h3]⟩

/-- C1, on a store whose users collection holds no record: the first user query
finds nothing. -/
theorem seeding_missing_user_aborts_witness :
    (∃ msg, (runForm (specDao (fun _ => true)) noUsersStore).exit?
      = some (Exit.fatalMsg msg)) ∧
    (∀ e ∈ (runForm (specDao (fun _ => true)) noUsersStore).world.trace,
      e.isSubmitRecord = false) ∧
    (recordsOf (runForm (specDao (fun _ => true)) noUsersStore).world.store "projects").length
      = 0 ∧
    (recordsOf (runForm (specDao (fun _ => true)) noUsersStore).world.store "memberOf").length
      = 0 :=
  seeding_missing_user_aborts (fun _ => true) noUsersStore 0 "u" (by decide!)

theorem creations_push (w : World σ) (s1 : σ) (e : Event) :
    creations (w.push s1 e).trace = creations w.trace ++ e.created?.toList := by
  simp only [World.push, creations, List.filterMap_append]
  cases h : e.created? <;> simp [List.filterMap_cons, h]

theorem head?_push {w : World σ} {a : Event} (s1 : σ) (e : Event)
    (h : w.trace.head? = some a) : (w.push s1 e).trace.head? = some a := by
  simp only [World.push]
  cases htr : w.trace with
  | nil => rw [htr] at h; cases h
  | cons b l => rw [htr] at h; simpa using h

theorem provisioning_push {u : Option Collection} {cs : List (CollectionUpsert × Collection)}
    {w : World σ} (hw : Provisioning u cs w) (s1 : σ) (e : Event) (he : e.created? = none) :
    Provisioning u cs (w.push s1 e) :=
  ⟨head?_push s1 e hw.1, by rw [creations_push, he, hw.2]; simp⟩

theorem provisioning_create {u : Option Collection}
    {cs : List (CollectionUpsert × Collection)} {w : World σ} (d : Dao σ)
    (hw : Provisioning u cs w) (form : CollectionUpsert)
    (h : (d.SubmitCollection w.store form).2.2 = none) :
    Provisioning u (cs ++ [(form, (d.SubmitCollection w.store form).2.1)])
      (w.push (d.SubmitCollection w.store form).1 (createEvent d w form)) := by
  refine ⟨head?_push _ _ hw.1, ?_⟩
  rw [creations_push, hw.2]
  simp [createEvent, h, Event.created?]

/-- The successful run of the `form` command, over any store behaviour: the
lookup of `users` answered a collection, and the collections created are
`projects`, `memberOf` and `posts`, in this order, each relation field set to
the identifier of `users` or of the `projects` collection the store answered. -/
theorem runForm_provisioning (d : Dao σ) (s : σ) :
    Holds (formRun d) { store := s, trace := [] }
      (fun _ w => ∃ u cp cm cq, Provisioning (some u)
        [(standardForm "projects" projectsFields, cp),
         (standardForm "memberOf" (memberOfFields u.Id cp.Id), cm),
         (standardForm "posts" (postsFields cp.Id u.Id), cq)] w)
      (fun _ _ => True) := by
  refine holds_formRun d _ _ _
    (fun u w => Provisioning u [] w)
    (fun u cp w => Provisioning u [(standardForm "projects" projectsFields, cp)] w)
    (fun u cp cm w => Provisioning (some u) [(standardForm "projects" projectsFields, cp),
      (standardForm "memberOf" (memberOfFields u.Id cp.Id), cm)] w)
    (fun u cp cm cq w => Provisioning (some u) [(standardForm "projects" projectsFields, cp),
      (standardForm "memberOf" (memberOfFields u.Id cp.Id), cm),
      (standardForm "posts" (postsFields cp.Id u.Id), cq)] w)
    (fun u cp cm cq _ w => Provisioning (some u) [(standardForm "projects" projectsFields, cp),
      (standardForm "memberOf" (memberOfFields u.Id cp.Id), cm),
      (standardForm "posts" (postsFields cp.Id u.Id), cq)] w)
    ?_ ?_ ?_ ?_ ?_ ?_ ?_ ?_ ?_ ?_
  · refine ⟨fun _ _ => trivial, fun h => ?_⟩
    simp [Provisioning, World.push, findEvent, h, creations, Event.created?]
  · intro u w k _ hw
    refine ⟨fun _ _ => trivial, fun _ _ => provisioning_push hw _ _ rfl, fun _ c _ => ?_⟩
    exact ⟨fun _ => provisioning_push (provisioning_push hw w.store (findEvent d w k) rfl)
        (d.DeleteCollection w.store c).1 (deleteEvent d w c) rfl, fun _ _ => trivial⟩
  · intro u w hw
    exact ⟨fun _ _ => trivial, fun h => provisioning_create d hw _ h⟩
  · intro cp w _; trivial
  · intro u cp w hw
    exact ⟨fun _ _ => trivial, fun h => provisioning_create d hw _ h⟩
  · intro u cp cm w hw
    exact ⟨fun _ _ => trivial, fun h => provisioning_create d hw _ h⟩
  · intro u cp cm cq w i hw
    exact ⟨fun _ _ => trivial, fun _ _ => trivial, fun _ _ => provisioning_push hw _ _ rfl⟩
  · intro u cp cm cq w hw
    exact ⟨fun _ _ => trivial, fun _ => provisioning_push hw _ _ rfl⟩
  · intro u cp cm cq pr w _; trivial
  · intro u cp cm cq pr user1 w hw
    exact ⟨fun _ _ => trivial, fun _ => ⟨u, cp, cm, cq, provisioning_push hw _ _ rfl⟩⟩

/-- C4: in every successful run of the `form` command, over any store
behaviour, exactly one collection is created for each of `projects`, `memberOf`
and `posts`, in this order (the creations of the run are exactly these three
requests, answered with `cp`, `cm` and `cq`), and every relation field of a
created collection targets the `users` collection found at the start of the run
or a collection created earlier in the run: `projects` has no relation field,
those of `memberOf` target `users` and `cp`, those of `posts` target `cp` and
`users`, `cp` being the collection the store answered for `projects`. -/
theorem form_creates_in_dependency_order (d : Dao σ) (s : σ)
    (h : (runForm d s).exit? = none) :
    ∃ u cp cm cq : Collection,
      (runForm d s).world.trace.head? = some (Event.findCollection "users" (some u) none) ∧
      creations (runForm d s).world.trace
        = [(standardForm "projects" projectsFields, cp),
           (standardForm "memberOf" (memberOfFields u.Id cp.Id), cm),
           (standardForm "posts" (postsFields cp.Id u.Id), cq)] ∧
      (∀ (k : Nat) (form : CollectionUpsert) (c : Collection),
        (creations (runForm d s).world.trace)[k]? = some (form, c) →
          ∀ target ∈ relationTargets form.Schema, target = u.Id ∨
            ∃ j form1 c1, j < k ∧
              (creations (runForm d s).world.trace)[j]? = some (form1, c1) ∧
              target = c1.Id) ∧
      relationTargets (standardForm "projects" projectsFields).Schema = [] ∧
      relationTargets (standardForm "memberOf" (memberOfFields u.Id cp.Id)).Schema
        = [u.Id, cp.Id] ∧
      relationTargets (standardForm "posts" (postsFields cp.Id u.Id)).Schema
        = [cp.Id, u.Id] := by
  have key := runForm_provisioning d s
  unfold Holds at key
  unfold runForm at h ⊢
  cases hr : formRun d { store := s, trace := [] } with
  | exit x w => rw [hr] at h; cases h
  | ok a w =>
    rw [hr] at key
    obtain ⟨u, cp, cm, cq, h1, h2⟩ := key
    refine ⟨u, cp, cm, cq, h1, h2, ?_, rfl, rfl, rfl⟩
    intro k form c hk target ht
    simp only [Res.world, h2] at hk ⊢
    match k, hk with
    | 0, hk =>
      simp only [List.getElem?_cons_zero, Option.some.injEq, Prod.mk.injEq] at hk
      rw [← hk.1] at ht
      simp [relationTargets, standardForm, collectionForm, projectsFields,
        SchemaField.relationTarget] at ht
    | 1, hk =>
      simp only [List.getElem?_cons_succ, List.getElem?_cons_zero, Option.some.injEq,
        Prod.mk.injEq] at hk
      rw [← hk.1] at ht
      simp only [relationTargets, standardForm, collectionForm, memberOfFields,
        SchemaField.relationTarget, List.filterMap_cons, List.filterMap_nil, List.mem_cons,
        List.mem_singleton, List.not_mem_nil, or_false] at ht
      rcases ht with ht | ht
      · exact Or.inl ht
      · exact Or.inr ⟨0, _, cp, by omega, rfl, ht⟩
    | 2, hk =>
      simp only [List.getElem?_cons_succ, List.getElem?_cons_zero, Option.some.injEq,
        Prod.mk.injEq] at hk
      rw [← hk.1] at ht
      simp only [relationTargets, standardForm, collectionForm, postsFields,
        SchemaField.relationTarget, List.filterMap_cons, List.filterMap_nil, List.mem_cons,
        List.mem_singleton, List.not_mem_nil, or_false] at ht
      rcases ht with ht | ht
      · exact Or.inr ⟨0, _, cp, by omega, rfl, ht⟩
      · exact Or.inl ht
    | k + 3, hk => simp at hk

/-- C4, on the example store with the ten test users, where the run succeeds. -/
theorem form_creates_in_dependency_order_witness :
    ∃ u cp cm cq : Collection,
      (runForm (specDao (fun _ => true)) exampleStore).world.trace.head?
        = some (Event.findCollection "users" (some u) none) ∧
      creations (runForm (specDao (fun _ => true)) exampleStore).world.trace
        = [(standardForm "projects" projectsFields, cp),
           (standardForm "memberOf" (memberOfFields u.Id cp.Id), cm),
           (standardForm "posts" (postsFields cp.Id u.Id), cq)] ∧
      (∀ (k : Nat) (form : CollectionUpsert) (c : Collection),
        (creations (runForm (specDao (fun _ => true)) exampleStore).world.trace)[k]?
            = some (form, c) →
          ∀ target ∈ relationTargets form.Schema, target = u.Id ∨
            ∃ j form1 c1, j < k ∧
              (creations (runForm (specDao (fun _ => true)) exampleStore).world.trace)[j]?
                = some (form1, c1) ∧
              target = c1.Id) ∧
      relationTargets (standardForm "projects" projectsFields).Schema = [] ∧
      relationTargets (standardForm "memberOf" (memberOfFields u.Id cp.Id)).Schema
        = [u.Id, cp.Id] ∧
      relationTargets (standardForm "posts" (postsFields cp.Id u.Id)).Schema
        = [cp.Id, u.Id] :=
  form_creates_in_dependency_order (specDao (fun _ => true)) exampleStore (by decide!)

/-- C3: for every name, every list of field descriptors and every five rule
values, over any store behaviour, `makeCollection` performs exactly one store
operation, the submission of one collection creation request of type base with
the given name, the five given rules (an absent rule stays absent) and the
given fields in the given order, and returns the collection and the error of
that submission unchanged. -/
theorem makeCollection_submits_once (d : Dao σ) (name : String) (fields : List SchemaField)
    (listRule viewRule createRule updateRule deleteRule : Option String) (w : World σ) :
    makeCollection d name fields listRule viewRule createRule updateRule deleteRule w
      = Res.ok
          (d.SubmitCollection w.store
            { Typ := CollectionType.base, Name := name, ListRule := listRule,
              ViewRule := viewRule, CreateRule := createRule, UpdateRule := updateRule,
              DeleteRule := deleteRule, Schema := fields }).2
          { store := (d.SubmitCollection w.store
              { Typ := CollectionType.base, Name := name, ListRule := listRule,
                ViewRule := viewRule, CreateRule := createRule, UpdateRule := updateRule,
                DeleteRule := deleteRule, Schema := fields }).1,
            trace := w.trace ++
              [Event.submitCollection
                { Typ := CollectionType.base, Name := name, ListRule := listRule,
                  ViewRule := viewRule, CreateRule := createRule, UpdateRule := updateRule,
                  DeleteRule := deleteRule, Schema := fields }
                (d.SubmitCollection w.store
                  { Typ := CollectionType.base, Name := name, ListRule := listRule,
                    ViewRule := viewRule, CreateRule := createRule, UpdateRule := updateRule,
                    DeleteRule := deleteRule, Schema := fields }).2.1
                (d.SubmitCollection w.store
                  { Typ := CollectionType.base, Name := name, ListRule := listRule,
                    ViewRule := viewRule, CreateRule := createRule, UpdateRule := updateRule,
                    DeleteRule := deleteRule, Schema := fields }).2.2] } := by
  rw [makeCollection_eq]
  rfl

/-- The function `deleteCollections` never exits the process: it returns what `teardown`
computes on the store, and only appends to the trace. -/
theorem deleteCollections_eq (d : Dao σ) (names : List String) (w : World σ) :
    ∃ evs, deleteCollections d names w
      = Res.ok (teardown d w.store names).2
          { store := (teardown d w.store names).1, trace := w.trace ++ evs } := by
  induction names generalizing w with
  | nil => exact ⟨[], by simp [deleteCollections, teardown]; rfl⟩
  | cons k ks ih =>
    cases he : (d.FindCollectionByNameOrId w.store k).2 with
    | some x =>
      refine ⟨[findEvent d w k], ?_⟩
      simp [deleteCollections, tryDeleteCollection, teardown, tryDeleteStore, he, bind,
        Prog.bind, findCollectionByNameOrId, pure, findEvent]
    | none =>
      cases hc : (d.FindCollectionByNameOrId w.store k).1 with
      | none =>
        obtain ⟨evs, h⟩ := ih (w.push w.store (findEvent d w k))
        refine ⟨findEvent d w k :: evs, ?_⟩
        simp only [World.push, findEvent, he, hc] at h
        simp [deleteCollections, tryDeleteCollection, teardown, tryDeleteStore, he, hc, bind,
          Prog.bind, findCollectionByNameOrId, pure, findEvent, h]
      | some c =>
        cases hd : (d.DeleteCollection w.store c).2 with
        | some x =>
          refine ⟨[findEvent d w k, deleteEvent d w c], ?_⟩
          simp [deleteCollections, tryDeleteCollection, teardown, tryDeleteStore, he, hc, hd,
            bind, Prog.bind, findCollectionByNameOrId, pure, findEvent, deleteEvent,
            daoDeleteCollection]
        | none =>
          obtain ⟨evs, h⟩ := ih ((w.push w.store (findEvent d w k)).push
            (d.DeleteCollection w.store c).1 (deleteEvent d w c))
          refine ⟨findEvent d w k :: deleteEvent d w c :: evs, ?_⟩
          simp only [World.push, findEvent, deleteEvent, he, hc, hd, List.append_assoc,
            List.singleton_append] at h
          simp [deleteCollections, tryDeleteCollection, teardown, tryDeleteStore, he, hc, hd,
            bind, Prog.bind, findCollectionByNameOrId, pure, findEvent, deleteEvent,
            daoDeleteCollection, h]

theorem triple_eta {β γ δ : Type} (x : β × (γ × Option δ)) (h : x.2.2 = none) :
    x = (x.1, (x.2.1, none)) := by
  obtain ⟨a, b, c⟩ := x
  simp only at h
  rw [h]

theorem pair_eta {β δ : Type} (x : β × Option δ) (h : x.2 = none) : x = (x.1, none) := by
  obtain ⟨a, c⟩ := x
  simp only at h
  rw [h]

theorem holds_teardown (d : Dao σ) (w : World σ) (B : World σ → Prop)
    (E : Exit → World σ → Prop)
    (hok : ∀ w1, (teardown d w.store teardownNames).2 = none →
      w1.store = (teardown d w.store teardownNames).1 → B w1)
    (herr : ∀ x w1, (teardown d w.store teardownNames).2 = some x → E (Exit.fatal x) w1) :
    Holds (deleteCollections d teardownNames) w (fun err w1 => OpStep err w1 B E) E := by
  obtain ⟨evs, h⟩ := deleteCollections_eq d teardownNames w
  unfold Holds
  rw [h]
  exact ⟨fun x hx => herr x _ hx, fun hn => hok _ hn rfl⟩

theorem getD_set_one (users : List (Option Record)) (i : Nat) (r : Record)
    (hlen : 1 < users.length) :
    (users.set i (some r)).getD 1 none = if i = 1 then some r else users.getD 1 none := by
  by_cases h : i = 1
  · subst h
    simp [List.getD_eq_getElem?_getD, List.getElem?_set, hlen]
  · simp [List.getD_eq_getElem?_getD, List.getElem?_set, h]

/-- A successful run of the `form` command is made of a successful lookup of
`users`, a successful teardown and a successful remainder. -/
theorem runForm_succeeds_of_ok (d : Dao σ) (s : σ) (tr : List Event) :
    Holds (formRun d) { store := s, trace := tr } (fun _ w => Succeeds d s w.store)
      (fun _ _ => True) := by
  refine holds_formRun_at d _ _ _
    (fun u w => d.FindCollectionByNameOrId s "users" = (u, none) ∧ w.store = s)
    (fun u w => d.FindCollectionByNameOrId s "users" = (u, none) ∧
      teardown d s teardownNames = (w.store, none))
    (fun u cp w => ∃ sD, d.FindCollectionByNameOrId s "users" = (u, none) ∧
      teardown d s teardownNames = (sD, none) ∧
      d.SubmitCollection sD (standardForm "projects" projectsFields) = (w.store, (cp, none)))
    (fun u cp cm w => ∃ sD s1, d.FindCollectionByNameOrId s "users" = (some u, none) ∧
      teardown d s teardownNames = (sD, none) ∧
      d.SubmitCollection sD (standardForm "projects" projectsFields) = (s1, (cp, none)) ∧
      d.SubmitCollection s1 (standardForm "memberOf" (memberOfFields u.Id cp.Id))
        = (w.store, (cm, none)))
    (fun u cp cm cq i users w => ∃ sD s1 s2,
      d.FindCollectionByNameOrId s "users" = (some u, none) ∧
      teardown d s teardownNames = (sD, none) ∧
      d.SubmitCollection sD (standardForm "projects" projectsFields) = (s1, (cp, none)) ∧
      d.SubmitCollection s1 (standardForm "memberOf" (memberOfFields u.Id cp.Id))
        = (s2, (cm, none)) ∧
      d.SubmitCollection s2 (standardForm "posts" (postsFields cp.Id u.Id))
        = (w.store, (cq, none)) ∧
      (∀ j, j < i →
        (d.FindRecordsByExpr w.store u.Id ("username", testUsername j)).2 = none ∧
        (d.FindRecordsByExpr w.store u.Id ("username", testUsername j)).1 ≠ []) ∧
      users.length = TEST_USER_COUNT ∧
      (1 < i → users.getD 1 none
        = (d.FindRecordsByExpr w.store u.Id ("username", testUsername 1)).1.head?))
    (fun u cp cm cq users pr w => ∃ sD s1 s2 s3,
      d.FindCollectionByNameOrId s "users" = (some u, none) ∧
      teardown d s teardownNames = (sD, none) ∧
      d.SubmitCollection sD (standardForm "projects" projectsFields) = (s1, (cp, none)) ∧
      d.SubmitCollection s1 (standardForm "memberOf" (memberOfFields u.Id cp.Id))
        = (s2, (cm, none)) ∧
      d.SubmitCollection s2 (standardForm "posts" (postsFields cp.Id u.Id))
        = (s3, (cq, none)) ∧
      (∀ j, j < TEST_USER_COUNT →
        (d.FindRecordsByExpr s3 u.Id ("username", testUsername j)).2 = none ∧
        (d.FindRecordsByExpr s3 u.Id ("username", testUsername j)).1 ≠ []) ∧
      users.getD 1 none
        = (d.FindRecordsByExpr s3 u.Id ("username", testUsername 1)).1.head? ∧
      d.SubmitRecord s3 (NewRecord cp) projectData = (w.store, (pr, none)))
    ?_ ?_ ?_ ?_ ?_ ?_ ?_ ?_ ?_ ?_
  · exact ⟨fun _ _ => trivial, fun h => ⟨pair_eta _ h, rfl⟩⟩
  · intro u w hw
    refine holds_teardown d w _ _ (fun w1 hn hs => ⟨hw.1, ?_⟩) (fun _ _ _ => trivial)
    rw [hs, ← hw.2]
    exact pair_eta _ hn
  · intro u w hw
    exact ⟨fun _ _ => trivial, fun h => ⟨w.store, hw.1, hw.2, triple_eta _ h⟩⟩
  · intro cp w _; trivial
  · intro u cp w hw
    obtain ⟨sD, h1, h2, h3⟩ := hw
    exact ⟨fun _ _ => trivial, fun h => ⟨sD, w.store, h1, h2, h3, triple_eta _ h⟩⟩
  · intro u cp cm w hw
    obtain ⟨sD, s1, h1, h2, h3, h4⟩ := hw
    exact ⟨fun _ _ => trivial, fun h => ⟨sD, s1, w.store, h1, h2, h3, h4, triple_eta _ h,
      fun j hj => absurd hj (Nat.not_lt_zero j), by simp, fun h => absurd h (by omega)⟩⟩
  · intro u cp cm cq w i users hi hw
    obtain ⟨sD, s1, s2, h1, h2, h3, h4, h5, h6, h7, h8⟩ := hw
    refine ⟨fun _ _ => trivial, fun _ _ => trivial, fun he r0 rs hr => ?_⟩
    refine ⟨sD, s1, s2, h1, h2, h3, h4, h5, ?_, by simpa using h7, ?_⟩
    · intro j hj
      rcases Nat.lt_succ_iff_lt_or_eq.1 hj with h | h
      · exact h6 j h
      · subst h
        exact ⟨he, by simp [World.push, hr]⟩
    · intro h1i
      have hlen : 1 < users.length := by rw [h7]; decide
      show (users.set i (some r0)).getD 1 none = _
      rw [getD_set_one users i r0 hlen]
      by_cases hi1 : i = 1
      · subst hi1
        simp [World.push, hr]
      · simp only [hi1, if_false]
        exact h8 (by omega)
  · intro u cp cm cq users w hw
    obtain ⟨sD, s1, s2, h1, h2, h3, h4, h5, h6, _, h8⟩ := hw
    exact ⟨fun _ _ => trivial, fun h => ⟨sD, s1, s2, w.store, h1, h2, h3, h4, h5, h6,
      h8 (by decide), triple_eta _ h⟩⟩
  · intro u cp cm cq users pr w _ _; trivial
  · intro u cp cm cq users pr user1 w hu hw
    obtain ⟨sD, s1, s2, s3, h1, h2, h3, h4, h5, h6, h7, h8⟩ := hw
    refine ⟨fun _ _ => trivial, fun h => ?_⟩
    exact ⟨u, sD, h1, h2, cp, s1, cm, s2, cq, s3, user1, pr, w.store, _, h3, h4, h5, h6,
      by rw [← h7, hu], h8, triple_eta _ h⟩

/-- A run of the `form` command whose lookup of `users`, teardown and remainder
succeed ends normally, in the store the remainder ends in. -/
theorem runForm_ok_of_succeeds (d : Dao σ) (s sF : σ) (tr : List Event)
    (h : Succeeds d s sF) :
    Holds (formRun d) { store := s, trace := tr } (fun _ w => w.store = sF)
      (fun _ _ => False) := by
  obtain ⟨u, sD, hu, hD, cp, s1, cm, s2, cq, s3, user1, pr, s4, mr, hp, hm, hq, hl, hu1, hpr,
    hmr⟩ := h
  refine holds_formRun_at d _ _ _
    (fun u1 w => u1 = some u ∧ w.store = s)
    (fun u1 w => u1 = some u ∧ w.store = sD)
    (fun u1 cp1 w => u1 = some u ∧ cp1 = cp ∧ w.store = s1)
    (fun u1 cp1 cm1 w => u1 = u ∧ cp1 = cp ∧ cm1 = cm ∧ w.store = s2)
    (fun u1 cp1 cm1 cq1 i users w => u1 = u ∧ cp1 = cp ∧ cm1 = cm ∧ cq1 = cq ∧ w.store = s3 ∧
      users.length = TEST_USER_COUNT ∧
      (1 < i → users.getD 1 none = some user1))
    (fun u1 cp1 cm1 cq1 users pr1 w => u1 = u ∧ cp1 = cp ∧ cm1 = cm ∧ cq1 = cq ∧
      users.getD 1 none = some user1 ∧ pr1 = pr ∧ w.store = s4)
    ?_ ?_ ?_ ?_ ?_ ?_ ?_ ?_ ?_ ?_
  · rw [hu]
    exact ⟨fun x hx => (by cases hx), fun _ => ⟨rfl, rfl⟩⟩
  · intro u1 w hw
    refine holds_teardown d w _ _ (fun w1 _ hs => ⟨hw.1, ?_⟩) (fun x _ hx => ?_)
    · rw [hs, hw.2, hD]
    · rw [hw.2, hD] at hx; cases hx
  · intro u1 w hw
    rw [hw.2, hp]
    exact ⟨fun x hx => (by cases hx), fun _ => ⟨hw.1, rfl, rfl⟩⟩
  · intro cp1 w hw
    cases hw.1
  · intro u1 cp1 w hw
    obtain ⟨h1, h2, h3⟩ := hw
    cases h1
    subst h2
    rw [h3, hm]
    exact ⟨fun x hx => (by cases hx), fun _ => ⟨rfl, rfl, rfl, rfl⟩⟩
  · intro u1 cp1 cm1 w hw
    obtain ⟨h1, h2, h3, h4⟩ := hw
    subst h1 h2 h3
    rw [h4, hq]
    exact ⟨fun x hx => (by cases hx), fun _ => ⟨rfl, rfl, rfl, rfl, rfl, by simp,
      fun h => absurd h (by omega)⟩⟩
  · intro u1 cp1 cm1 cq1 w i users hi hw
    obtain ⟨h1, h2, h3, h4, h5, h6, h7⟩ := hw
    subst h1 h2 h3 h4
    obtain ⟨hl1, hl2⟩ := hl i hi
    unfold LookupStepAt
    rw [h5]
    refine ⟨fun x hx => (by rw [hl1] at hx; cases hx), fun _ he => absurd he hl2,
      fun _ r0 rs hr => ⟨rfl, rfl, rfl, rfl, rfl, by simpa using h6, fun h1i => ?_⟩⟩
    have hlen : 1 < users.length := by rw [h6]; decide
    show (users.set i (some r0)).getD 1 none = _
    rw [getD_set_one users i r0 hlen]
    by_cases hi1 : i = 1
    · subst hi1
      rw [hr] at hu1
      simpa using hu1
    · simp only [hi1, if_false]
      exact h7 (by omega)
  · intro u1 cp1 cm1 cq1 users w hw
    obtain ⟨h1, h2, h3, h4, h5, _, h7⟩ := hw
    subst h1 h2 h3 h4
    rw [h5, hpr]
    exact ⟨fun x hx => (by cases hx), fun _ => ⟨rfl, rfl, rfl, rfl, h7 (by decide), rfl, rfl⟩⟩
  · intro u1 cp1 cm1 cq1 users pr1 w hn hw
    rw [hw.2.2.2.2.1] at hn; cases hn
  · intro u1 cp1 cm1 cq1 users pr1 user2 w hu2 hw
    obtain ⟨h1, h2, h3, h4, h5, h6, h7⟩ := hw
    subst h1 h2 h3 h4 h6
    rw [h5] at hu2
    cases hu2
    rw [h7, hmr]
    exact ⟨fun x hx => (by cases hx), fun _ => rfl⟩

/-- The run of the `form` command ends normally exactly when its lookup of
`users`, teardown and remainder succeed, and then in the store the remainder
ends in. -/
theorem runForm_ok_iff (d : Dao σ) (s sF : σ) :
    ((runForm d s).exit? = none ∧ (runForm d s).world.store = sF) ↔ Succeeds d s sF := by
  constructor
  · rintro ⟨h1, h2⟩
    have key := runForm_succeeds_of_ok d s []
    unfold Holds at key
    unfold runForm at h1 h2
    cases hr : formRun d { store := s, trace := [] } with
    | exit x w => rw [hr] at h1; cases h1
    | ok a w =>
      rw [hr] at key h2
      simp only [Res.world] at h2
      rw [← h2]; exact key
  · intro h
    have key := runForm_ok_of_succeeds d s sF [] h
    unfold Holds at key
    unfold runForm
    cases hr : formRun d { store := s, trace := [] } with
    | exit x w => rw [hr] at key; exact key.elim
    | ok a w => rw [hr] at key; exact ⟨rfl, key⟩

theorem length_le_maxLength {l : List String} {a : String} (h : a ∈ l) :
    a.length ≤ maxLength l := by
  induction l with
  | nil => cases h
  | cons b l ih =>
    simp only [maxLength, List.foldr_cons]
    rcases List.mem_cons.1 h with h1 | h1
    · rw [h1]; exact Nat.le_max_left _ _
    · exact Nat.le_trans (ih h1) (Nat.le_max_right _ _)

theorem freshId_not_mem (avoid : List String) : freshId avoid ∉ avoid := by
  intro h
  have h1 := length_le_maxLength h
  have h2 : (freshId avoid).length = maxLength avoid + 1 := by
    simp [freshId, String.length]
  omega

theorem mem_storeStrings {s : Store} {t : Table} (ht : t ∈ s) :
    t.collection.Id ∈ storeStrings s ∧ t.collection.Name ∈ storeStrings s ∧
    ∀ x ∈ relationTargets t.collection.Schema, x ∈ storeStrings s := by
  simp only [storeStrings, List.mem_flatMap]
  exact ⟨⟨t, ht, by simp⟩, ⟨t, ht, by simp⟩, fun x hx => ⟨t, ht, by simp [hx]⟩⟩

theorem fresh_provisioned (s : Store) (form : CollectionUpsert) :
    Fresh (provisioned s form).Id s ∧ (provisioned s form).Id ≠ form.Name := by
  have hnm := freshId_not_mem (form.Name :: storeStrings s)
  have hid : (provisioned s form).Id = freshId (form.Name :: storeStrings s) := rfl
  rw [hid]
  refine ⟨?_, fun h => hnm (by rw [h]; exact List.mem_cons_self _ _)⟩
  intro c hc
  obtain ⟨t, ht, rfl⟩ := List.mem_map.1 hc
  obtain ⟨h1, h2, h3⟩ := mem_storeStrings ht
  refine ⟨fun h => hnm (List.mem_cons_of_mem _ (h ▸ h1)),
    fun h => hnm (List.mem_cons_of_mem _ (h ▸ h2)), fun h => hnm (List.mem_cons_of_mem _ (h3 _ h))⟩

theorem unnamed_iff_findCollection (s : Store) (k : String) :
    Unnamed k s ↔ findCollection s k = none := by
  simp only [Unnamed, collectionsOf, findCollection, findTable, Option.map_eq_none',
    List.find?_eq_none, List.mem_map, forall_exists_index, and_imp, forall_apply_eq_imp_iff₂,
    Table.answers, Bool.or_eq_true, beq_iff_eq, not_or]

theorem findTable_append_unnamed {l1 l2 : Store} {k : String} (h : Unnamed k l1) :
    findTable (l1 ++ l2) k = findTable l2 k := by
  have h1 : findTable l1 k = none := by
    have := (unnamed_iff_findCollection l1 k).1 h
    simpa [findCollection] using this
  simp only [findTable] at h1 ⊢
  rw [List.find?_append, h1]
  rfl

theorem findCollection_last {l : Store} {k : String} (c : Collection) (rs : List Record)
    (h : Unnamed k l) (hc : c.Name = k) :
    findCollection (l ++ [{ collection := c, records := rs }]) k = some c := by
  rw [findCollection, findTable_append_unnamed h]
  simp [findTable, Table.answers, hc]

theorem deleteCollection_last {l : Store} (c : Collection) (rs : List Record)
    (h : Fresh c.Id l) :
    deleteCollection (l ++ [{ collection := c, records := rs }]) c = (l, none) := by
  have h1 : ∀ t ∈ l, ¬ (t.collection.Id = c.Id) ∧ c.Id ∉ relationTargets t.collection.Schema :=
    fun t ht => ⟨(h _ (List.mem_map_of_mem _ ht)).1, (h _ (List.mem_map_of_mem _ ht)).2.2⟩
  have hdep : dependents (l ++ [{ collection := c, records := rs }]) c.Id = [] := by
    simp only [dependents, List.filter_eq_nil_iff, List.mem_append, List.mem_singleton]
    rintro t (ht | ht)
    · simp [(h1 t ht).2]
    · simp [ht]
  have hfil : List.filter (fun t => t.collection.Id != c.Id)
      (l ++ [({ collection := c, records := rs } : Table)]) = l := by
    rw [List.filter_append, List.filter_eq_self.2 (fun t ht => by simp [(h1 t ht).1])]
    simp
  simp only [deleteCollection, hdep, hfil, List.isEmpty_nil, if_true]

/-- Tearing a name down when the collection of that name is the newest one and
nothing else refers to it: the collection goes and no error arises. -/
theorem tryDeleteStore_last (ruleOk : String → Bool) {l : Store} {k : String} (c : Collection)
    (rs : List Record) (hu : Unnamed k l) (hc : c.Name = k) (hf : Fresh c.Id l) :
    tryDeleteStore (specDao ruleOk) (l ++ [{ collection := c, records := rs }]) k
      = (l, none) := by
  simp [tryDeleteStore, findCollection_last c rs hu hc, deleteCollection_last c rs hf]

theorem fresh_append (id : String) (l1 l2 : Store) :
    Fresh id (l1 ++ l2) ↔ Fresh id l1 ∧ Fresh id l2 := by
  simp only [Fresh, collectionsOf, List.map_append, List.mem_append]
  exact ⟨fun h => ⟨fun c hc => h c (Or.inl hc), fun c hc => h c (Or.inr hc)⟩,
    fun h c hc => hc.elim (h.1 c) (h.2 c)⟩

theorem fresh_cons (id : String) (t : Table) (l : Store) :
    Fresh id (t :: l) ↔
      (t.collection.Id ≠ id ∧ t.collection.Name ≠ id ∧
        id ∉ relationTargets t.collection.Schema) ∧ Fresh id l := by
  simp only [Fresh, collectionsOf, List.map_cons, List.mem_cons, forall_eq_or_imp]

theorem fresh_nil (id : String) : Fresh id [] := by
  intro c hc
  simp [collectionsOf] at hc

theorem unnamed_append (k : String) (l1 l2 : Store) :
    Unnamed k (l1 ++ l2) ↔ Unnamed k l1 ∧ Unnamed k l2 := by
  simp only [Unnamed, collectionsOf, List.map_append, List.mem_append]
  exact ⟨fun h => ⟨fun c hc => h c (Or.inl hc), fun c hc => h c (Or.inr hc)⟩,
    fun h c hc => hc.elim (h.1 c) (h.2 c)⟩

theorem unnamed_cons (k : String) (t : Table) (l : Store) :
    Unnamed k (t :: l) ↔ (t.collection.Name ≠ k ∧ t.collection.Id ≠ k) ∧ Unnamed k l := by
  simp only [Unnamed, collectionsOf, List.map_cons, List.mem_cons, forall_eq_or_imp]

theorem unnamed_nil (k : String) : Unnamed k [] := by
  intro c hc
  simp [collectionsOf] at hc

/-- What a successful creation on the store of the specification answers. -/
theorem createCollection_eq_ok {ruleOk : String → Bool} {s s1 : Store}
    {form : CollectionUpsert} {c : Collection}
    (h : createCollection ruleOk s form = (s1, (c, none))) :
    c = provisioned s form ∧ s1 = s ++ [{ collection := c }] ∧ Unnamed form.Name s ∧
    Fresh c.Id s ∧ c.Id ≠ form.Name := by
  have h0 : (createCollection ruleOk s form).2.2 = none := by rw [h]
  obtain ⟨h1, h2⟩ := createCollection_ok h0
  rw [h2] at h
  simp only [Prod.mk.injEq, and_true] at h
  obtain ⟨h3, h4⟩ := h
  subst h4
  exact ⟨rfl, h3.symm, (unnamed_iff_findCollection s form.Name).2 h1,
    (fresh_provisioned s form).1, (fresh_provisioned s form).2⟩

/-- The three creations of a successful run, on the store of the specification. -/
theorem rebuilt_of_creations {ruleOk : String → Bool} {sD s1 s2 s3 : Store} {usersId : String}
    {P M Q : Collection}
    (hp : createCollection ruleOk sD (standardForm "projects" projectsFields)
      = (s1, (P, none)))
    (hm : createCollection ruleOk s1 (standardForm "memberOf" (memberOfFields usersId P.Id))
      = (s2, (M, none)))
    (hq : createCollection ruleOk s2 (standardForm "posts" (postsFields P.Id usersId))
      = (s3, (Q, none))) :
    Rebuilt sD usersId P M Q ∧
    s3 = sD ++ [{ collection := P }, { collection := M }, { collection := Q }] := by
  obtain ⟨p1, p2, p3, p4, _⟩ := createCollection_eq_ok hp
  obtain ⟨m1, m2, m3, m4, _⟩ := createCollection_eq_ok hm
  obtain ⟨q1, q2, q3, q4, _⟩ := createCollection_eq_ok hq
  subst p2 m2 q2
  refine ⟨⟨⟨by rw [p1]; rfl, by rw [m1]; rfl, by rw [q1]; rfl⟩,
    ⟨by rw [p1]; rfl, by rw [m1]; rfl, by rw [q1]; rfl⟩, ⟨p3, m3, ?_⟩, ⟨p4, m4, ?_⟩⟩, ?_⟩
  · simpa using q3
  · simpa using q4
  · simp

/-- Tearing down right after a successful run: the three collections the run
created go, in the order posts, memberOf, projects, and no deletion fails. -/
theorem teardown_rebuilt (ruleOk : String → Bool) {sD : Store} {usersId : String}
    {P M Q : Collection} (h : Rebuilt sD usersId P M Q) (rp rm rq : List Record) :
    teardown (specDao ruleOk)
      (sD ++ [{ collection := P, records := rp }, { collection := M, records := rm },
        { collection := Q, records := rq }]) teardownNames = (sD, none) := by
  obtain ⟨⟨n1, n2, n3⟩, _, ⟨u1, u2, u3⟩, ⟨f1, f2, f3⟩⟩ := h
  simp only [unnamed_append, unnamed_cons, fresh_append, fresh_cons] at u2 u3 f2 f3
  have e1 : sD ++ [{ collection := P, records := rp }, { collection := M, records := rm },
      ({ collection := Q, records := rq } : Table)]
      = (sD ++ [{ collection := P, records := rp }, { collection := M, records := rm }])
        ++ [{ collection := Q, records := rq }] := by simp
  have e2 : sD ++ [{ collection := P, records := rp }, ({ collection := M, records := rm } : Table)]
      = (sD ++ [{ collection := P, records := rp }]) ++ [{ collection := M, records := rm }] := by
    simp
  have t1 := tryDeleteStore_last ruleOk (k := "posts")
    (l := sD ++ [{ collection := P, records := rp }, { collection := M, records := rm }]) Q rq
    (by simp only [unnamed_append, unnamed_cons]
        exact ⟨u3.1, u3.2.1, u3.2.2.1, unnamed_nil _⟩) n3
    (by simp only [fresh_append, fresh_cons]
        exact ⟨f3.1, f3.2.1, f3.2.2.1, fresh_nil _⟩)
  have t2 := tryDeleteStore_last ruleOk (k := "memberOf")
    (l := sD ++ [{ collection := P, records := rp }]) M rm
    (by simp only [unnamed_append, unnamed_cons]
        exact ⟨u2.1, u2.2.1, unnamed_nil _⟩) n2
    (by simp only [fresh_append, fresh_cons]
        exact ⟨f2.1, f2.2.1, fresh_nil _⟩)
  have t3 := tryDeleteStore_last ruleOk (k := "projects") (l := sD) P rp u1 n1 f1
  rw [e1]
  simp only [teardownNames, teardown, t1]
  rw [e2]
  simp only [t2, t3]

theorem rebuilt_ids {sD : Store} {usersId : String} {P M Q : Collection}
    (h : Rebuilt sD usersId P M Q) :
    (∀ t ∈ sD, t.collection.Id ≠ P.Id ∧ t.collection.Id ≠ M.Id ∧ t.collection.Id ≠ Q.Id) ∧
    P.Id ≠ M.Id ∧ P.Id ≠ Q.Id ∧ M.Id ≠ Q.Id := by
  obtain ⟨_, _, _, ⟨f1, f2, f3⟩⟩ := h
  simp only [fresh_append, fresh_cons] at f2 f3
  exact ⟨fun t ht => ⟨(f1 _ (List.mem_map_of_mem _ ht)).1, (f2.1 _ (List.mem_map_of_mem _ ht)).1,
    (f3.1 _ (List.mem_map_of_mem _ ht)).1⟩, f2.2.1.1, f3.2.1.1, f3.2.2.1.1⟩

theorem find?_id_append {sD : Store} {id : String} (l : Store)
    (h : ∀ t ∈ sD, t.collection.Id ≠ id) :
    (sD ++ l).find? (fun t => t.collection.Id == id) = l.find? (fun t => t.collection.Id == id) := by
  rw [List.find?_append]
  have : sD.find? (fun t => t.collection.Id == id) = none := by
    rw [List.find?_eq_none]
    intro t ht
    simpa using h t ht
  rw [this]
  rfl

theorem addRecord_append {sD : Store} {id : String} (l : Store) (saved : Record)
    (h : ∀ t ∈ sD, t.collection.Id ≠ id) :
    addRecord (sD ++ l) id saved = sD ++ addRecord l id saved := by
  simp only [addRecord, List.map_append]
  congr 1
  conv_rhs => rw [← List.map_id sD]
  apply List.map_congr_left
  intro t ht
  simp [h t ht]

/-- The two upserts of a successful run, on the store of the specification: the
test project becomes the only record of `projects`, the test membership the
only record of `memberOf`. -/
theorem seeded_of_upserts {sD s4 sF : Store} {usersId : String} {P M Q : Collection}
    {pr mr : Record} {data1 data2 : RecordData} (h : Rebuilt sD usersId P M Q)
    (hpr : upsertValidated
      (sD ++ [{ collection := P }, { collection := M }, { collection := Q }])
      (NewRecord P) data1 = (s4, (pr, none)))
    (hmr : upsertValidated s4 (NewRecord M) data2 = (sF, (mr, none))) :
    pr.data = data1 ∧ mr.data = data2 ∧
    sF = sD ++ [{ collection := P, records := [pr] }, { collection := M, records := [mr] },
      { collection := Q, records := [] }] := by
  obtain ⟨hsD, hpm, hpq, hmq⟩ := rebuilt_ids h
  have h0 : (upsertValidated
      (sD ++ [{ collection := P }, { collection := M }, { collection := Q }])
      (NewRecord P) data1).2.2 = none := by rw [hpr]
  obtain ⟨t, ht, heq⟩ := upsertValidated_ok h0
  rw [heq] at hpr
  simp only [NewRecord] at ht hpr
  rw [find?_id_append _ (fun t ht => (hsD t ht).1)] at ht
  simp only [List.find?_cons, beq_self_eq_true, Option.some.injEq] at ht
  subst ht
  rw [addRecord_append _ _ (fun t ht => (hsD t ht).1)] at hpr
  simp only [addRecord, List.map_cons, List.map_nil, beq_self_eq_true, if_true, beq_iff_eq,
    hpm.symm, hpq.symm, if_false, List.nil_append, Prod.mk.injEq, and_true] at hpr
  obtain ⟨hs4, hprd⟩ := hpr
  subst hs4
  have h1 : (upsertValidated
      (sD ++ [{ collection := P, records := [savedRecord { collection := P } data1] },
        { collection := M }, { collection := Q }])
      (NewRecord M) data2).2.2 = none := by rw [hmr]
  obtain ⟨t2, ht2, heq2⟩ := upsertValidated_ok h1
  rw [heq2] at hmr
  simp only [NewRecord] at ht2 hmr
  rw [find?_id_append _ (fun t ht => (hsD t ht).2.1)] at ht2
  have hb : (P.Id == M.Id) = false := by simpa using hpm
  simp only [List.find?_cons, hb, Option.some.injEq, beq_self_eq_true] at ht2
  subst ht2
  rw [addRecord_append _ _ (fun t ht => (hsD t ht).2.1)] at hmr
  simp only [addRecord, List.map_cons, List.map_nil, beq_self_eq_true, if_true, beq_iff_eq,
    hpm, hmq.symm, if_false, List.nil_append, Prod.mk.injEq, and_true] at hmr
  obtain ⟨hsF, hmrd⟩ := hmr
  subst hsF
  rw [← hprd, ← hmrd]
  exact ⟨rfl, rfl, rfl⟩

theorem wf_sublist {s s1 : Store} (h : s1.Sublist s) (hwf : s.WF) : s1.WF :=
  List.Pairwise.sublist h hwf

theorem wf_unique {s : Store} (hwf : s.WF) {t t1 : Table} (ht : t ∈ s) (ht1 : t1 ∈ s)
    (h : t.collection.Id = t1.collection.Id ∨ t.collection.Name = t1.collection.Name ∨
      t.collection.Id = t1.collection.Name ∨ t.collection.Name = t1.collection.Id) :
    t = t1 := by
  by_contra hne
  have hsymm : Symmetric (fun a b : Table =>
      a.collection.Id ≠ b.collection.Id ∧ a.collection.Name ≠ b.collection.Name ∧
      a.collection.Id ≠ b.collection.Name ∧ a.collection.Name ≠ b.collection.Id) :=
    fun a b hab => ⟨fun e => hab.1 e.symm, fun e => hab.2.1 e.symm, fun e => hab.2.2.2 e.symm,
      fun e => hab.2.2.1 e.symm⟩
  have := List.Pairwise.forall hsymm hwf ht ht1 hne
  rcases h with h | h | h | h
  · exact this.1 h
  · exact this.2.1 h
  · exact this.2.2.1 h
  · exact this.2.2.2 h

theorem findTable_of_mem {s : Store} (hwf : s.WF) {t : Table} {k : String} (ht : t ∈ s)
    (hk : t.answers k = true) : findTable s k = some t := by
  cases hf : findTable s k with
  | none =>
    simp only [findTable, List.find?_eq_none] at hf
    exact absurd hk (hf t ht)
  | some t1 =>
    have h1 : t1 ∈ s := List.mem_of_find?_eq_some hf
    have h2 := List.find?_some hf
    simp only [Table.answers, Bool.or_eq_true, beq_iff_eq] at hk h2
    have : t = t1 := by
      apply wf_unique hwf ht h1
      rcases hk with hk | hk <;> rcases h2 with h2 | h2
      · exact Or.inr (Or.inl (hk.trans h2.symm))
      · exact Or.inr (Or.inr (Or.inr (hk.trans h2.symm)))
      · exact Or.inr (Or.inr (Or.inl (hk.trans h2.symm)))
      · exact Or.inl (hk.trans h2.symm)
    rw [this]

theorem deleteCollection_sublist (s : Store) (c : Collection) :
    (deleteCollection s c).1.Sublist s := by
  unfold deleteCollection
  split
  · exact List.filter_sublist _
  · exact List.Sublist.refl _

theorem tryDeleteStore_sublist (ruleOk : String → Bool) (s : Store) (k : String) :
    (tryDeleteStore (specDao ruleOk) s k).1.Sublist s := by
  simp only [tryDeleteStore, specDao_find, specDao_delete]
  cases h : findCollection s k with
  | none => exact List.Sublist.refl _
  | some c => exact deleteCollection_sublist s c

theorem teardown_sublist (ruleOk : String → Bool) (s : Store) (names : List String) :
    (teardown (specDao ruleOk) s names).1.Sublist s := by
  induction names generalizing s with
  | nil => exact List.Sublist.refl _
  | cons k ks ih =>
    simp only [teardown]
    cases h : (tryDeleteStore (specDao ruleOk) s k).2 with
    | some x => exact tryDeleteStore_sublist ruleOk s k
    | none => exact (ih _).trans (tryDeleteStore_sublist ruleOk s k)

/-- The users collection found at the start of a successful run on a
well-formed store is still the one found under `users` after the run. -/
theorem findCollection_users_kept {s sD : Store} {u P M Q : Collection} {exp : String × String}
    (hwf : s.WF) (hsub : sD.Sublist s) (hu : findCollection s "users" = some u)
    (hq : queryRecords (sD ++ [{ collection := P }, { collection := M }, { collection := Q }])
      u.Id exp ≠ [])
    (l : Store) : findCollection (sD ++ l) "users" = some u := by
  simp only [findCollection, Option.map_eq_some'] at hu
  obtain ⟨tu, htu, hcu⟩ := hu
  have htu_mem : tu ∈ s := List.mem_of_find?_eq_some htu
  have htu_ans := List.find?_some htu
  simp only [queryRecords] at hq
  cases hf : findTable (sD ++ [{ collection := P }, { collection := M }, { collection := Q }])
      u.Id with
  | none => rw [hf] at hq; exact absurd rfl hq
  | some t =>
    rw [hf] at hq
    simp only at hq
    have ht_mem := List.mem_of_find?_eq_some hf
    have ht_ans := List.find?_some hf
    have ht_rec : t.records ≠ [] := by
      intro h0
      rw [h0] at hq
      exact hq rfl
    simp only [List.mem_append, List.mem_cons, List.mem_singleton, List.not_mem_nil,
      or_false] at ht_mem
    rcases ht_mem with h | h | h | h
    · have hts : t ∈ s := hsub.subset h
      have hteq : t = tu := by
        apply wf_unique hwf hts htu_mem
        simp only [Table.answers, Bool.or_eq_true, beq_iff_eq] at ht_ans
        rw [hcu]
        rcases ht_ans with h1 | h1
        · exact Or.inr (Or.inr (Or.inr h1))
        · exact Or.inl h1
      subst hteq
      have h1 := findTable_of_mem (wf_sublist hsub hwf) h htu_ans
      simp only [findCollection, findTable, List.find?_append] at h1 ⊢
      rw [h1]
      simp [hcu]
    · rw [h] at ht_rec; exact absurd rfl ht_rec
    · rw [h] at ht_rec; exact absurd rfl ht_rec
    · rw [h] at ht_rec; exact absurd rfl ht_rec

theorem recordsOf_rebuilt {sD : Store} {usersId : String} {P M Q : Collection}
    (h : Rebuilt sD usersId P M Q) (pr mr : Record) :
    recordsOf (sD ++ [{ collection := P, records := [pr] }, { collection := M, records := [mr] },
      { collection := Q, records := [] }]) "projects" = [pr] ∧
    recordsOf (sD ++ [{ collection := P, records := [pr] }, { collection := M, records := [mr] },
      { collection := Q, records := [] }]) "memberOf" = [mr] := by
  obtain ⟨⟨n1, n2, n3⟩, _, ⟨u1, u2, _⟩, _⟩ := h
  simp only [unnamed_append, unnamed_cons] at u2
  have a1 : sD.filter (fun t => t.collection.Name == "projects") = [] := by
    rw [List.filter_eq_nil_iff]
    intro t ht
    simpa using (u1 _ (List.mem_map_of_mem _ ht)).1
  have a2 : sD.filter (fun t => t.collection.Name == "memberOf") = [] := by
    rw [List.filter_eq_nil_iff]
    intro t ht
    simpa using (u2.1 _ (List.mem_map_of_mem _ ht)).1
  constructor
  · simp [recordsOf, List.filter_append, a1, List.filter_cons, n1, n2, n3]
  · simp [recordsOf, List.filter_append, a2, List.filter_cons, n1, n2, n3]

theorem collectionNames_rebuilt (sD : Store) (P M Q : Collection) (rp rm rq : List Record) :
    collectionNames (sD ++ [{ collection := P, records := rp },
      { collection := M, records := rm }, { collection := Q, records := rq }])
      = collectionNames sD ++ [P.Name, M.Name, Q.Name] := by
  simp [collectionNames]

/-- A successful run on a well-formed store of the specification ends in a
store from which the run succeeds again and ends in the same store; the store
holds the test project as the only record of `projects` and one record of
`memberOf`. -/
theorem succeeds_again (ruleOk : String → Bool) (s sF : Store) (hwf : s.WF)
    (h : Succeeds (specDao ruleOk) s sF) :
    Succeeds (specDao ruleOk) sF sF ∧
    (∃ pr, recordsOf sF "projects" = [pr] ∧ pr.data = projectData) ∧
    (∃ mr, recordsOf sF "memberOf" = [mr]) := by
  obtain ⟨u, sD, hu, hD, hseeds⟩ := h
  have hseeds1 := hseeds
  obtain ⟨cp, s1, cm, s2, cq, s3, user1, pr, s4, mr, hp, hm, hq, hl, hu1, hpr, hmr⟩ := hseeds1
  simp only [specDao_create, specDao_upsert, specDao_query, specDao_find] at hp hm hq hl hpr hmr hu
  obtain ⟨hreb, hs3⟩ := rebuilt_of_creations hp hm hq
  subst hs3
  obtain ⟨hd1, hd2, hsF⟩ := seeded_of_upserts hreb hpr hmr
  have hsub : sD.Sublist s := by
    have := teardown_sublist ruleOk s teardownNames
    rw [hD] at this
    exact this
  have hu0 : findCollection s "users" = some u := by
    simpa using congrArg Prod.fst hu
  have hfind : findCollection sF "users" = some u := by
    rw [hsF]
    exact findCollection_users_kept hwf hsub hu0 (hl 0 (by decide)).2 _
  have hrec := recordsOf_rebuilt hreb pr mr
  rw [← hsF] at hrec
  refine ⟨⟨u, sD, by simp [hfind], ?_, hseeds⟩, ⟨pr, hrec.1, hd1⟩, ⟨mr, hrec.2⟩⟩
  rw [hsF]
  exact teardown_rebuilt ruleOk hreb _ _ _

/-- C6: re-running the `form` command is idempotent, over the store of the
specification: for every well-formed store state on which a first run succeeds
(so the ten users `TEST_USER_0` .. `TEST_USER_9` exist), a second run, on the
store the first one left, succeeds as well and yields the same collection names
and the same seed data as the first: after either run `projects` holds exactly
one record, named "Projective", and `memberOf` exactly one record. -/
theorem form_rerun_idempotent (ruleOk : String → Bool) (s : Store) (hwf : s.WF)
    (h : (runForm (specDao ruleOk) s).exit? = none) :
    (runForm (specDao ruleOk) (runForm (specDao ruleOk) s).world.store).exit? = none ∧
    collectionNames (runForm (specDao ruleOk) (runForm (specDao ruleOk) s).world.store).world.store
      = collectionNames (runForm (specDao ruleOk) s).world.store ∧
    (∃ pr, recordsOf (runForm (specDao ruleOk) s).world.store "projects" = [pr] ∧
      pr.Get "name" = some "Projective") ∧
    (∃ mr, recordsOf (runForm (specDao ruleOk) s).world.store "memberOf" = [mr]) ∧
    (∃ pr, recordsOf
        (runForm (specDao ruleOk) (runForm (specDao ruleOk) s).world.store).world.store
        "projects" = [pr] ∧ pr.Get "name" = some "Projective") ∧
    (∃ mr, recordsOf
        (runForm (specDao ruleOk) (runForm (specDao ruleOk) s).world.store).world.store
        "memberOf" = [mr]) := by
  have hs := (runForm_ok_iff (specDao ruleOk) s _).1 ⟨h, rfl⟩
  obtain ⟨hagain, ⟨pr, hpr1, hpr2⟩, hmr⟩ := succeeds_again ruleOk s _ hwf hs
  obtain ⟨h2, h3⟩ := (runForm_ok_iff (specDao ruleOk) _ _).2 hagain
  have hname : pr.Get "name" = some "Projective" := by
    simp [Record.Get, hpr2, projectData]
  rw [h3]
  exact ⟨h2, rfl, ⟨pr, hpr1, hname⟩, hmr, ⟨pr, hpr1, hname⟩, hmr⟩

theorem exampleStore_wf : Store.WF exampleStore := by
  simp [Store.WF, exampleStore]

/-- C6, on the example store with the ten test users, where the first run
succeeds. -/
theorem form_rerun_idempotent_witness :
    (runForm (specDao (fun _ => true))
      (runForm (specDao (fun _ => true)) exampleStore).world.store).exit? = none ∧
    collectionNames (runForm (specDao (fun _ => true))
        (runForm (specDao (fun _ => true)) exampleStore).world.store).world.store
      = collectionNames (runForm (specDao (fun _ => true)) exampleStore).world.store ∧
    (∃ pr, recordsOf (runForm (specDao (fun _ => true)) exampleStore).world.store "projects"
        = [pr] ∧ pr.Get "name" = some "Projective") ∧
    (∃ mr, recordsOf (runForm (specDao (fun _ => true)) exampleStore).world.store "memberOf"
        = [mr]) ∧
    (∃ pr, recordsOf
        (runForm (specDao (fun _ => true))
          (runForm (specDao (fun _ => true)) exampleStore).world.store).world.store
        "projects" = [pr] ∧ pr.Get "name" = some "Projective") ∧
    (∃ mr, recordsOf
        (runForm (specDao (fun _ => true))
          (runForm (specDao (fun _ => true)) exampleStore).world.store).world.store
        "memberOf" = [mr]) :=
  form_rerun_idempotent (fun _ => true) exampleStore exampleStore_wf (by decide!)

theorem findCollection_rebuilt {sD : Store} {usersId : String} {P M Q : Collection}
    (h : Rebuilt sD usersId P M Q) (rp rm rq : List Record) :
    findCollection (sD ++ [{ collection := P, records := rp }, { collection := M, records := rm },
      { collection := Q, records := rq }]) "projects" = some P ∧
    findCollection (sD ++ [{ collection := P, records := rp }, { collection := M, records := rm },
      { collection := Q, records := rq }]) "memberOf" = some M ∧
    findCollection (sD ++ [{ collection := P, records := rp }, { collection := M, records := rm },
      { collection := Q, records := rq }]) "posts" = some Q := by
  obtain ⟨⟨n1, n2, n3⟩, _, ⟨u1, u2, u3⟩, _⟩ := h
  simp only [unnamed_append, unnamed_cons] at u2 u3
  refine ⟨?_, ?_, ?_⟩
  · rw [findCollection, findTable_append_unnamed u1]
    simp [findTable, Table.answers, n1]
  · rw [findCollection, findTable_append_unnamed u2.1]
    simp [findTable, Table.answers, n2, u2.2.1.1, u2.2.1.2]
  · rw [findCollection, findTable_append_unnamed u3.1]
    simp [findTable, Table.answers, n3, u3.2.1.1, u3.2.1.2, u3.2.2.1.1, u3.2.2.1.2]

/-- The order property of the teardown list for rebuilt collections: in the
deletion order `Q`, `M`, `P` (posts, memberOf, projects), a collection with a
relation field targeting another one of the three comes before it. -/
theorem rebuilt_order {sD : Store} {usersId : String} {P M Q : Collection}
    (h : Rebuilt sD usersId P M Q) (i j : Nat) (X Y : Collection) (hij : i ≠ j)
    (hX : [Q, M, P][i]? = some X) (hY : [Q, M, P][j]? = some Y)
    (href : Y.Id ∈ relationTargets X.Schema) : i < j := by
  obtain ⟨_, hpm, hpq, hmq⟩ := rebuilt_ids h
  obtain ⟨_, ⟨s1, s2, s3⟩, _, ⟨_, _, f3⟩⟩ := h
  simp only [fresh_append, fresh_cons] at f3
  have hqu : Q.Id ≠ usersId := by
    intro hq
    apply f3.2.2.1.2.2
    rw [s2, hq]
    simp [relationTargets, memberOfFields, SchemaField.relationTarget]
  have tP : relationTargets P.Schema = [] := by rw [s1]; rfl
  have tM : relationTargets M.Schema = [usersId, P.Id] := by rw [s2]; rfl
  have tQ : relationTargets Q.Schema = [P.Id, usersId] := by rw [s3]; rfl
  match i, j, hX, hY with
  | 0, 0, _, _ => exact absurd rfl hij
  | 0, j + 1, _, _ => omega
  | 1, 0, hX, hY =>
    simp only [List.getElem?_cons_succ, List.getElem?_cons_zero, Option.some.injEq] at hX hY
    subst hX hY
    rw [tM] at href
    simp only [List.mem_cons, List.mem_singleton, List.not_mem_nil, or_false] at href
    rcases href with h1 | h1
    · exact absurd h1 hqu
    · exact absurd h1.symm hpq
  | 1, 1, _, _ => exact absurd rfl hij
  | 1, j + 2, _, _ => omega
  | 2, j, hX, hY =>
    simp only [List.getElem?_cons_succ, List.getElem?_cons_zero, Option.some.injEq] at hX
    subst hX
    rw [tP] at href
    cases href
  | i + 3, j, hX, _ => simp at hX

/-- C10: the teardown order of the `form` command respects relation
dependencies, over the store of the specification. After a successful run the
store holds the collections `P`, `M` and `Q` under the names `projects`,
`memberOf` and `posts`; the name list passed to `deleteCollections` names them
in the order `Q`, `M`, `P`; `M` and `Q` have a relation field targeting `P`; in
this order every collection with a relation field targeting another one of the
three comes before its target; and `deleteCollections` on that store returns no
error, so the has-dependents error does not arise. -/
theorem teardown_order_respects_relations (ruleOk : String → Bool) (s : Store)
    (tr : List Event) (h : (runForm (specDao ruleOk) s).exit? = none) :
    ∃ (P M Q : Collection),
      findCollection (runForm (specDao ruleOk) s).world.store "projects" = some P ∧
      findCollection (runForm (specDao ruleOk) s).world.store "memberOf" = some M ∧
      findCollection (runForm (specDao ruleOk) s).world.store "posts" = some Q ∧
      teardownNames = [Q.Name, M.Name, P.Name] ∧
      P.Id ∈ relationTargets M.Schema ∧ P.Id ∈ relationTargets Q.Schema ∧
      (∀ (i j : Nat) (X Y : Collection), i ≠ j → [Q, M, P][i]? = some X →
        [Q, M, P][j]? = some Y → Y.Id ∈ relationTargets X.Schema → i < j) ∧
      ∃ evs sD, deleteCollections (specDao ruleOk) teardownNames
          { store := (runForm (specDao ruleOk) s).world.store, trace := tr }
        = Res.ok none { store := sD, trace := tr ++ evs } ∧
        findCollection sD "projects" = none ∧ findCollection sD "memberOf" = none ∧
        findCollection sD "posts" = none := by
  have hs := (runForm_ok_iff (specDao ruleOk) s _).1 ⟨h, rfl⟩
  obtain ⟨u, sD, hu, hD, cp, s1, cm, s2, cq, s3, user1, pr, s4, mr, hp, hm, hq, hl, hu1, hpr,
    hmr⟩ := hs
  simp only [specDao_create, specDao_upsert] at hp hm hq hpr hmr
  obtain ⟨hreb, hs3⟩ := rebuilt_of_creations hp hm hq
  subst hs3
  obtain ⟨_, _, hsF⟩ := seeded_of_upserts hreb hpr hmr
  rw [hsF]
  obtain ⟨f1, f2, f3⟩ := findCollection_rebuilt hreb [pr] [mr] []
  have hnames := hreb.1
  have hsch := hreb.2.1
  refine ⟨cp, cm, cq, f1, f2, f3, ?_, ?_, ?_, rebuilt_order hreb, ?_⟩
  · rw [hnames.1, hnames.2.1, hnames.2.2]; rfl
  · rw [hsch.2.1]; simp [relationTargets, memberOfFields, SchemaField.relationTarget]
  · rw [hsch.2.2]; simp [relationTargets, postsFields, SchemaField.relationTarget]
  · obtain ⟨evs, hev⟩ := deleteCollections_eq (specDao ruleOk) teardownNames
      { store := sD ++ [{ collection := cp, records := [pr] },
          { collection := cm, records := [mr] }, { collection := cq, records := [] }],
        trace := tr }
    simp only [teardown_rebuilt ruleOk hreb] at hev
    obtain ⟨_, _, ⟨u1, u2, u3⟩, _⟩ := hreb
    simp only [unnamed_append] at u2 u3
    exact ⟨evs, sD, hev, (unnamed_iff_findCollection _ _).1 u1,
      (unnamed_iff_findCollection _ _).1 u2.1, (unnamed_iff_findCollection _ _).1 u3.1⟩

/-- C10, on the example store with the ten test users, where the run succeeds. -/
theorem teardown_order_respects_relations_witness :
    ∃ (P M Q : Collection),
      findCollection (runForm (specDao (fun _ => true)) exampleStore).world.store "projects"
        = some P ∧
      findCollection (runForm (specDao (fun _ => true)) exampleStore).world.store "memberOf"
        = some M ∧
      findCollection (runForm (specDao (fun _ => true)) exampleStore).world.store "posts"
        = some Q ∧
      teardownNames = [Q.Name, M.Name, P.Name] ∧
      P.Id ∈ relationTargets M.Schema ∧ P.Id ∈ relationTargets Q.Schema ∧
      (∀ (i j : Nat) (X Y : Collection), i ≠ j → [Q, M, P][i]? = some X →
        [Q, M, P][j]? = some Y → Y.Id ∈ relationTargets X.Schema → i < j) ∧
      ∃ evs sD, deleteCollections (specDao (fun _ => true)) teardownNames
          { store := (runForm (specDao (fun _ => true)) exampleStore).world.store, trace := [] }
        = Res.ok none { store := sD, trace := [] ++ evs } ∧
        findCollection sD "projects" = none ∧ findCollection sD "memberOf" = none ∧
        findCollection sD "posts" = none :=
  teardown_order_respects_relations (fun _ => true) exampleStore [] (by decide!)

theorem unnamed_sublist {s s1 : Store} {k : String} (h : s1.Sublist s) (hu : Unnamed k s) :
    Unnamed k s1 := by
  intro c hc
  obtain ⟨t, ht, rfl⟩ := List.mem_map.1 hc
  exact hu _ (List.mem_map_of_mem _ (h.subset ht))

theorem tryDeleteStore_spec (ruleOk : String → Bool) (s : Store) (k : String) :
    tryDeleteStore (specDao ruleOk) s k
      = match findCollection s k with
        | some c => deleteCollection s c
        | none => (s, none) := by
  simp only [tryDeleteStore, specDao_find, specDao_delete]

/-- One `tryDeleteCollection` on a well-formed store: collections that do not
answer to the name stay, and unless the deletion fails nothing answers to the
name afterwards. -/
theorem tryDeleteStore_wf (ruleOk : String → Bool) {s : Store} (hwf : s.WF) (k : String) :
    (∀ t ∈ s, t.answers k = false → t ∈ (tryDeleteStore (specDao ruleOk) s k).1) ∧
    ((tryDeleteStore (specDao ruleOk) s k).2 = none →
      Unnamed k (tryDeleteStore (specDao ruleOk) s k).1) ∧
    (∀ x, (tryDeleteStore (specDao ruleOk) s k).2 = some x → x = Error.hasDependents) := by
  rw [tryDeleteStore_spec]
  cases hf : findCollection s k with
  | none =>
    exact ⟨fun t ht _ => ht, fun _ => (unnamed_iff_findCollection s k).2 hf,
      fun x hx => by cases hx⟩
  | some c =>
    simp only [findCollection, Option.map_eq_some'] at hf
    obtain ⟨tc, htc, hc⟩ := hf
    have htc_mem : tc ∈ s := List.mem_of_find?_eq_some htc
    have htc_ans := List.find?_some htc
    simp only [Table.answers, Bool.or_eq_true, beq_iff_eq] at htc_ans
    simp only [deleteCollection]
    split
    · refine ⟨fun t ht hans => ?_, fun _ => ?_, fun x hx => by cases hx⟩
      · simp only [List.mem_filter, bne_iff_ne, ne_eq]
        refine ⟨ht, fun hid => ?_⟩
        have : t = tc := wf_unique hwf ht htc_mem (Or.inl (by rw [hid, hc]))
        rw [this] at hans
        simp only [Table.answers, Bool.or_eq_false_iff, beq_eq_false_iff_ne] at hans
        rcases htc_ans with h | h
        · exact hans.1 h
        · exact hans.2 h
      · intro c1 hc1
        obtain ⟨t, ht, rfl⟩ := List.mem_map.1 hc1
        simp only [List.mem_filter, bne_iff_ne, ne_eq] at ht
        obtain ⟨hts, hid⟩ := ht
        refine ⟨fun hn => hid ?_, fun hi => hid ?_⟩
        · have : t = tc := by
            apply wf_unique hwf hts htc_mem
            rcases htc_ans with h | h
            · exact Or.inr (Or.inl (hn.trans h.symm))
            · exact Or.inr (Or.inr (Or.inr (hn.trans h.symm)))
          rw [this, hc]
        · have : t = tc := by
            apply wf_unique hwf hts htc_mem
            rcases htc_ans with h | h
            · exact Or.inr (Or.inr (Or.inl (hi.trans h.symm)))
            · exact Or.inl (hi.trans h.symm)
          rw [this, hc]
    · refine ⟨fun t ht _ => ht, fun h => (by cases h), fun x hx => ?_⟩
      simp only [Option.some.injEq] at hx
      exact hx.symm

/-- The teardown of a name list on a well-formed store of the specification. -/
theorem teardown_wf (ruleOk : String → Bool) (names : List String) {s : Store} (hwf : s.WF) :
    (∀ t ∈ s, (∀ n ∈ names, t.answers n = false) →
      t ∈ (teardown (specDao ruleOk) s names).1) ∧
    ((teardown (specDao ruleOk) s names).2 = none →
      ∀ n ∈ names, findCollection (teardown (specDao ruleOk) s names).1 n = none) ∧
    (∀ x, (teardown (specDao ruleOk) s names).2 = some x → x = Error.hasDependents) := by
  induction names generalizing s with
  | nil =>
    exact ⟨fun t ht _ => ht, fun _ n hn => absurd hn (List.not_mem_nil n),
      fun x hx => by cases hx⟩
  | cons k ks ih =>
    obtain ⟨h1, h2, h3⟩ := tryDeleteStore_wf ruleOk hwf k
    have hsub := tryDeleteStore_sublist ruleOk s k
    simp only [teardown]
    cases he : (tryDeleteStore (specDao ruleOk) s k).2 with
    | some x =>
      refine ⟨fun t ht hn => h1 t ht (hn k (List.mem_cons_self _ _)), fun h => (by cases h),
        fun y hy => ?_⟩
      simp only [Option.some.injEq] at hy
      rw [← hy]
      exact h3 x he
    | none =>
      obtain ⟨i1, i2, i3⟩ := ih (wf_sublist hsub hwf)
      refine ⟨fun t ht hn => i1 t (h1 t ht (hn k (List.mem_cons_self _ _)))
        (fun n hnk => hn n (List.mem_cons_of_mem _ hnk)), fun hnone n hn => ?_, i3⟩
      rcases List.mem_cons.1 hn with hk | hk
      · rw [hk]
        exact (unnamed_iff_findCollection _ _).1
          (unnamed_sublist (teardown_sublist ruleOk _ ks) (h2 he))
      · exact i2 hnone n hk

theorem teardown_empty (ruleOk : String → Bool) (names : List String) :
    teardown (specDao ruleOk) [] names = ([], none) := by
  induction names with
  | nil => rfl
  | cons k ks ih =>
    have : tryDeleteStore (specDao ruleOk) [] k = ([], none) := by
      rw [tryDeleteStore_spec]
      rfl
    simp only [teardown, this, ih]

/-- The error `deleteCollections` returns over the store of the specification
is the error a deletion it performed answered. -/
theorem deleteCollections_error_of_delete (ruleOk : String → Bool) (names : List String)
    (w : World Store) :
    Holds (deleteCollections (specDao ruleOk) names) w
      (fun err w1 => ∀ x, err = some x → ∃ c, Event.deleteCollection c (some x) ∈ w1.trace)
      (fun _ _ => False) := by
  refine holds_deleteCollections (specDao ruleOk) (fun _ => True)
    (fun x w1 => ∃ c, Event.deleteCollection c (some x) ∈ w1.trace) _ _ names ?_ ?_ ?_ w trivial
  · intro w k _ _
    refine ⟨fun x hx => by simp at hx, fun _ _ => trivial, fun _ c _ => ⟨fun _ => trivial, ?_⟩⟩
    intro x hx
    refine ⟨c, ?_⟩
    simp only [World.push, deleteEvent, hx]
    exact List.mem_append_right _ (List.mem_singleton.2 rfl)
  · intro w _ x hx
    cases hx
  · intro x w hw y hy
    cases hy
    exact hw

theorem withoutNamed_nil (s : Store) : withoutNamed s [] = s := by
  simp [withoutNamed]

theorem withoutNamed_cons (s : Store) (k : String) (ks : List String) :
    withoutNamed (withoutNamed s [k]) ks = withoutNamed s (k :: ks) := by
  simp only [withoutNamed, List.filter_filter]
  apply List.filter_congr
  intro t _
  simp [Bool.and_comm]

theorem withoutNamed_sublist (s : Store) (names : List String) :
    (withoutNamed s names).Sublist s :=
  List.filter_sublist _

/-- In a well-formed store the table a name designates is the only one that
answers to the name, and the only one with its identifier. -/
theorem findTable_wf {s : Store} (hwf : s.WF) {k : String} {tc : Table}
    (h : findTable s k = some tc) {t : Table} (ht : t ∈ s) :
    (t.answers k = true ↔ t = tc) ∧ (t.collection.Id = tc.collection.Id ↔ t = tc) := by
  have htc_mem : tc ∈ s := List.mem_of_find?_eq_some h
  have htc_ans := List.find?_some h
  refine ⟨⟨fun ha => ?_, fun e => e ▸ htc_ans⟩,
    ⟨fun hid => wf_unique hwf ht htc_mem (Or.inl hid), fun e => e ▸ rfl⟩⟩
  simp only [Table.answers, Bool.or_eq_true, beq_iff_eq] at ha htc_ans
  apply wf_unique hwf ht htc_mem
  rcases ha with h1 | h1 <;> rcases htc_ans with h2 | h2
  · exact Or.inr (Or.inl (h1.trans h2.symm))
  · exact Or.inr (Or.inr (Or.inr (h1.trans h2.symm)))
  · exact Or.inr (Or.inr (Or.inl (h1.trans h2.symm)))
  · exact Or.inl (h1.trans h2.symm)

/-- A collection found in a part of a well-formed store is the one found in the
whole store. -/
theorem findCollection_of_sublist {s s1 : Store} (hwf : s.WF) (hsub : s1.Sublist s)
    {k : String} {c : Collection} (h : findCollection s1 k = some c) :
    findCollection s k = some c := by
  simp only [findCollection, Option.map_eq_some'] at h ⊢
  obtain ⟨tc, htc, hc⟩ := h
  have htc_mem : tc ∈ s := hsub.subset (List.mem_of_find?_eq_some htc)
  have htc_ans := List.find?_some htc
  cases hf : findTable s k with
  | none =>
    simp only [findTable, List.find?_eq_none] at hf
    exact absurd htc_ans (hf tc htc_mem)
  | some t =>
    have := ((findTable_wf hwf hf htc_mem).1).1 htc_ans
    exact ⟨t, rfl, by rw [← this, hc]⟩

/-- One `tryDeleteCollection` on a well-formed store, exactly: without error the
collection the name designates is gone and it had no dependents; with an error
the store is unchanged and the error is the answer of the store's deletion of
the collection the name designates. -/
theorem tryDeleteStore_exact (ruleOk : String → Bool) {s : Store} (hwf : s.WF) (k : String) :
    ((tryDeleteStore (specDao ruleOk) s k).2 = none →
      (tryDeleteStore (specDao ruleOk) s k).1 = withoutNamed s [k] ∧
      ∀ c, findCollection s k = some c → dependents s c.Id = []) ∧
    (∀ x, (tryDeleteStore (specDao ruleOk) s k).2 = some x →
      (tryDeleteStore (specDao ruleOk) s k).1 = s ∧
      ∃ c, findCollection s k = some c ∧ deleteCollection s c = (s, some x) ∧
        x = Error.hasDependents ∧ dependents s c.Id ≠ []) := by
  rw [tryDeleteStore_spec]
  cases hf : findCollection s k with
  | none =>
    refine ⟨fun _ => ⟨?_, fun c hc => (by cases hc)⟩, fun x hx => (by cases hx)⟩
    have hu := (unnamed_iff_findCollection s k).2 hf
    simp only [withoutNamed]
    symm
    rw [List.filter_eq_self]
    intro t ht
    have := hu t.collection (List.mem_map_of_mem _ ht)
    simp [Table.answers, this.1, this.2]
  | some c =>
    simp only [findCollection, Option.map_eq_some'] at hf
    obtain ⟨tc, htc, hc⟩ := hf
    simp only [deleteCollection]
    by_cases hd : (dependents s c.Id).isEmpty = true
    · rw [if_pos hd]
      refine ⟨fun _ => ⟨?_, fun c1 hc1 => ?_⟩, fun x hx => (by cases hx)⟩
      · simp only [withoutNamed]
        apply List.filter_congr
        intro t ht
        obtain ⟨h1, h2⟩ := findTable_wf hwf htc ht
        rw [← hc]
        by_cases e : t = tc
        · have ha := h1.2 e
          have hi := h2.2 e
          simp [ha, hi]
        · have ha : t.answers k = false := by
            cases hh : t.answers k with
            | false => rfl
            | true => exact absurd (h1.1 hh) e
          have hi : t.collection.Id ≠ tc.collection.Id := fun hh => e (h2.1 hh)
          simp [ha, hi]
      · cases hc1
        exact List.isEmpty_iff.1 hd
    · rw [if_neg hd]
      refine ⟨fun h => (by cases h), fun x hx => ?_⟩
      simp only [Option.some.injEq] at hx
      subst hx
      exact ⟨rfl, c, rfl, if_neg hd, rfl, fun h => hd (by simp [h])⟩

/-- The teardown of a name list on a well-formed store, exactly. Without error
the store is left without the collections the names designate, and each of
them had no dependents when its turn came. With an error the names before some
name `n` were handled, and the error is the answer of the store's deletion of
the collection `n` designates, which has dependents. -/
theorem teardown_exact (ruleOk : String → Bool) (names : List String) {s : Store}
    (hwf : s.WF) :
    ((teardown (specDao ruleOk) s names).2 = none →
      (teardown (specDao ruleOk) s names).1 = withoutNamed s names ∧
      ∀ pre n post c, names = pre ++ n :: post →
        findCollection (withoutNamed s pre) n = some c →
          dependents (withoutNamed s pre) c.Id = []) ∧
    (∀ x, (teardown (specDao ruleOk) s names).2 = some x →
      ∃ pre n post c, names = pre ++ n :: post ∧
        (teardown (specDao ruleOk) s names).1 = withoutNamed s pre ∧
        findCollection (withoutNamed s pre) n = some c ∧
        deleteCollection (withoutNamed s pre) c = (withoutNamed s pre, some x) ∧
        x = Error.hasDependents ∧ dependents (withoutNamed s pre) c.Id ≠ []) := by
  induction names generalizing s with
  | nil =>
    refine ⟨fun _ => ⟨(withoutNamed_nil s).symm, fun pre n post c h => ?_⟩,
      fun x hx => (by cases hx)⟩
    cases pre <;> cases h
  | cons k ks ih =>
    obtain ⟨e1, e2⟩ := tryDeleteStore_exact ruleOk hwf k
    simp only [teardown]
    cases he : (tryDeleteStore (specDao ruleOk) s k).2 with
    | some x =>
      obtain ⟨hs, c, hc, hdel, hx, hdep⟩ := e2 x he
      refine ⟨fun h => (by cases h), fun y hy => ?_⟩
      simp only [Option.some.injEq] at hy
      subst hy
      refine ⟨[], k, ks, c, rfl, ?_, ?_, ?_, hx, ?_⟩
      · simpa only [withoutNamed_nil] using hs
      · simpa only [withoutNamed_nil] using hc
      · simpa only [withoutNamed_nil] using hdel
      · simpa only [withoutNamed_nil] using hdep
    | none =>
      obtain ⟨hs, hdep⟩ := e1 he
      have hwf1 : Store.WF (tryDeleteStore (specDao ruleOk) s k).1 :=
        wf_sublist (tryDeleteStore_sublist ruleOk s k) hwf
      obtain ⟨i1, i2⟩ := ih hwf1
      simp only [hs, withoutNamed_cons] at i1 i2 ⊢
      refine ⟨fun h => ⟨(i1 h).1, fun pre n post c hn hc => ?_⟩, fun x hx => ?_⟩
      · cases pre with
        | nil =>
          simp only [List.nil_append, List.cons.injEq] at hn
          obtain ⟨rfl, _⟩ := hn
          rw [withoutNamed_nil] at hc ⊢
          exact hdep c hc
        | cons p pre1 =>
          simp only [List.cons_append, List.cons.injEq] at hn
          obtain ⟨rfl, hks⟩ := hn
          exact (i1 h).2 pre1 n post c hks hc
      · obtain ⟨pre, n, post, c, hn, h1, h2, h3, h4, h5⟩ := i2 x hx
        exact ⟨k :: pre, n, post, c, by rw [hn]; rfl, h1, h2, h3, h4, h5⟩

/-- The store `deleteCollections` leaves is the store it started from after the
operations of its trace, whatever the store is. -/
theorem deleteCollections_replay (d : Dao σ) (s : σ) (names : List String) (w : World σ)
    (h0 : w.store = replay d s w.trace) :
    Holds (deleteCollections d names) w
      (fun _ w1 => w1.store = replay d s w1.trace) (fun _ _ => False) := by
  refine holds_deleteCollections d (fun w1 => w1.store = replay d s w1.trace)
    (fun _ w1 => w1.store = replay d s w1.trace) _ _ names ?_ (fun _ h => h)
    (fun _ _ h => h) w h0
  intro w1 k _ hw
  have hfind : (w1.push w1.store (findEvent d w1 k)).store
      = replay d s (w1.push w1.store (findEvent d w1 k)).trace := by
    simp only [World.push, replay_append, ← hw, findEvent, applyEvent]
  refine ⟨fun _ _ => hfind, fun _ _ => hfind, fun _ c _ => ?_⟩
  have hdel : ((w1.push w1.store (findEvent d w1 k)).push (d.DeleteCollection w1.store c).1
        (deleteEvent d w1 c)).store
      = replay d s ((w1.push w1.store (findEvent d w1 k)).push
        (d.DeleteCollection w1.store c).1 (deleteEvent d w1 c)).trace := by
    simp only [World.push, replay_append, ← hw, findEvent, deleteEvent, applyEvent]
  exact ⟨fun _ => hdel, fun _ _ => hdel⟩

/-- C2: `deleteCollections`, over the store of the specification, for every
well-formed store state and every list of names. It never exits the process.
The store it leaves is a part of the store it started from in which every
collection that none of the names designates is still there, unchanged, and it
is the result of the store operations of the trace. It returns no error exactly
when the store's deletion does not fail, that is when each collection a name
designates has no dependents at its turn; then the store is left exactly
without the collections the names designate, so every named collection that
was present is deleted and none of the names designates a collection
afterwards; a name that `findCollection` does not find is nothing to delete and
no error. It returns an error only as the answer of the store's deletion of a
collection that a name designates: the names before it were handled, the store
is left as it was at that deletion, and the error is has-dependents. If no
named collection of the initial store has dependents, there is no error. On the
empty store it returns no error. -/
theorem deleteCollections_deletes_named (ruleOk : String → Bool) (s : Store)
    (names : List String) (hwf : s.WF) :
    (∃ err s1 evs, deleteCollections (specDao ruleOk) names { store := s, trace := [] }
        = Res.ok err { store := s1, trace := evs } ∧
      s1.Sublist s ∧
      s1 = replay (specDao ruleOk) s evs ∧
      (∀ t ∈ s, (∀ n ∈ names, t.answers n = false) → t ∈ s1) ∧
      (err = none ↔ ∀ pre n post c, names = pre ++ n :: post →
        findCollection (withoutNamed s pre) n = some c →
          (deleteCollection (withoutNamed s pre) c).2 = none) ∧
      (err = none →
        s1 = withoutNamed s names ∧ ∀ n ∈ names, findCollection s1 n = none) ∧
      (∀ x, err = some x →
        x = Error.hasDependents ∧ (∃ c, Event.deleteCollection c (some x) ∈ evs) ∧
        ∃ pre n post c, names = pre ++ n :: post ∧ s1 = withoutNamed s pre ∧
          findCollection s1 n = some c ∧ deleteCollection s1 c = (s1, some x) ∧
          dependents s1 c.Id ≠ []) ∧
      ((∀ n ∈ names, ∀ c, findCollection s n = some c → dependents s c.Id = []) →
        err = none)) ∧
    (∃ evs, deleteCollections (specDao ruleOk) names { store := [], trace := [] }
        = Res.ok none { store := [], trace := evs }) := by
  obtain ⟨evs, hev⟩ := deleteCollections_eq (specDao ruleOk) names { store := s, trace := [] }
  obtain ⟨h1, h2, h3⟩ := teardown_wf ruleOk names hwf
  obtain ⟨x1, x2⟩ := teardown_exact ruleOk names hwf
  have herr := deleteCollections_error_of_delete ruleOk names { store := s, trace := [] }
  have hrep := deleteCollections_replay (specDao ruleOk) s names { store := s, trace := [] } rfl
  unfold Holds at herr hrep
  rw [hev] at herr hrep
  simp only [List.nil_append] at hev herr hrep
  have hiff : (teardown (specDao ruleOk) s names).2 = none ↔
      ∀ pre n post c, names = pre ++ n :: post →
        findCollection (withoutNamed s pre) n = some c →
          (deleteCollection (withoutNamed s pre) c).2 = none := by
    constructor
    · intro hn pre n post c hnames hc
      have := (x1 hn).2 pre n post c hnames hc
      simp [deleteCollection, this]
    · intro hall
      cases hx : (teardown (specDao ruleOk) s names).2 with
      | none => rfl
      | some x =>
        obtain ⟨pre, n, post, c, hnames, _, hc, hdel, _, _⟩ := x2 x hx
        have := hall pre n post c hnames hc
        rw [hdel] at this
        cases this
  refine ⟨⟨_, _, evs, hev, teardown_sublist ruleOk s names, hrep, h1, hiff,
    fun hn => ⟨(x1 hn).1, h2 hn⟩, fun x hx => ⟨h3 x hx, herr x hx, ?_⟩, fun hall => ?_⟩, ?_⟩
  · obtain ⟨pre, n, post, c, hnames, hs1, hc, hdel, _, hdep⟩ := x2 x hx
    rw [hs1]
    exact ⟨pre, n, post, c, hnames, rfl, hc, hdel, hdep⟩
  · rw [hiff]
    intro pre n post c hnames hc
    have hmem : n ∈ names := by rw [hnames]; simp
    have hsub := withoutNamed_sublist s pre
    have hd := hall n hmem c (findCollection_of_sublist hwf hsub hc)
    have hd1 : dependents (withoutNamed s pre) c.Id = [] := by
      have : (dependents (withoutNamed s pre) c.Id).Sublist (dependents s c.Id) :=
        List.Sublist.filter _ hsub
      rw [hd] at this
      exact List.sublist_nil.1 this
    simp [deleteCollection, hd1]
  · obtain ⟨evs0, hev0⟩ := deleteCollections_eq (specDao ruleOk) names
      { store := ([] : Store), trace := [] }
    simp only [teardown_empty, List.nil_append] at hev0
    exact ⟨evs0, hev0⟩

theorem memberStore_wf : Store.WF memberStore := by
  simp [Store.WF, memberStore, usersExample, memberOfExample, postsExample]

theorem blockedStore_wf : Store.WF blockedStore := by
  simp [Store.WF, blockedStore, usersExample, commentsExample]

/-- C2, on two example stores. On a well-formed store that holds `users`,
`memberOf` and `posts`, the teardown of `posts`, `memberOf`, `projects` returns
no error and leaves exactly the `users` collection with its record. On a
well-formed store in which `comments` has a relation field targeting `posts`,
it returns the has-dependents error and leaves the store as it was. -/
theorem deleteCollections_deletes_named_witness :
    (Store.WF memberStore ∧
      ∃ evs, deleteCollections (specDao (fun _ => true)) teardownNames
            { store := memberStore, trace := [] }
          = Res.ok none
              { store := [{ collection := usersExample, records := [userRecord 1] }],
                trace := evs }) ∧
    (Store.WF blockedStore ∧
      ∃ evs, deleteCollections (specDao (fun _ => true)) teardownNames
            { store := blockedStore, trace := [] }
          = Res.ok (some Error.hasDependents) { store := blockedStore, trace := evs }) := by
  refine ⟨⟨memberStore_wf, ?_⟩, ⟨blockedStore_wf, ?_⟩⟩
  · obtain ⟨⟨err, s1, evs, heq, _, _, _, _, hnone, _, hsuff⟩, _⟩ :=
      deleteCollections_deletes_named (fun _ => true) memberStore teardownNames memberStore_wf
    have herr : err = none := by
      apply hsuff
      intro n hn c hc
      simp only [teardownNames, List.mem_cons, List.mem_singleton, List.not_mem_nil,
        or_false] at hn
      rcases hn with rfl | rfl | rfl
      · have : findCollection memberStore "posts" = some postsExample := by decide!
        rw [this] at hc
        cases hc
        decide!
      · have : findCollection memberStore "memberOf" = some memberOfExample := by decide!
        rw [this] at hc
        cases hc
        decide!
      · have : findCollection memberStore "projects" = none := by decide!
        rw [this] at hc
        cases hc
    subst herr
    obtain ⟨hs1, _⟩ := hnone rfl
    refine ⟨evs, ?_⟩
    rw [heq, hs1]
    have : withoutNamed memberStore teardownNames
        = [{ collection := usersExample, records := [userRecord 1] }] := by decide!
    rw [this]
  · obtain ⟨⟨err, s1, evs, heq, _, _, _, hiff, _, hsome, _⟩, _⟩ :=
      deleteCollections_deletes_named (fun _ => true) blockedStore teardownNames
        blockedStore_wf
    cases err with
    | none =>
      have := hiff.1 rfl [] "posts" ["memberOf", "projects"]
        { Id := "pp", Name := "posts", Typ := CollectionType.base } rfl (by decide!)
      have hno : (deleteCollection (withoutNamed blockedStore [])
          { Id := "pp", Name := "posts", Typ := CollectionType.base }).2
          = some Error.hasDependents := by decide!
      rw [hno] at this
      cases this
    | some x =>
      obtain ⟨hx, _, pre, n, post, c, hnames, hs1, hc, _⟩ := hsome x rfl
      subst hx
      refine ⟨evs, ?_⟩
      rw [heq]
      have hpre : pre = [] := by
        rcases pre with _ | ⟨p1, _ | ⟨p2, _ | ⟨p3, pre⟩⟩⟩
        · rfl
        · simp only [teardownNames, List.cons_append, List.nil_append, List.cons.injEq] at hnames
          obtain ⟨rfl, rfl, _⟩ := hnames
          rw [hs1] at hc
          revert hc
          have : findCollection (withoutNamed blockedStore ["posts"]) "memberOf" = none := by
            decide!
          rw [this]
          intro hc
          cases hc
        · simp only [teardownNames, List.cons_append, List.nil_append, List.cons.injEq] at hnames
          obtain ⟨rfl, rfl, rfl, _⟩ := hnames
          rw [hs1] at hc
          revert hc
          have : findCollection (withoutNamed blockedStore ["posts", "memberOf"]) "projects"
              = none := by decide!
          rw [this]
          intro hc
          cases hc
        · simp [teardownNames] at hnames
      rw [hs1, hpre, withoutNamed_nil]

/-- When the lookup of a name answers an error, `tryDeleteCollection` returns
that error and deletes nothing: a store that reports a missing collection as
an error makes `deleteCollections` fail on it. -/
theorem tryDeleteCollection_find_error (d : Dao σ) (name : String) (w : World σ) (x : Error)
    (h : (d.FindCollectionByNameOrId w.store name).2 = some x) :
    tryDeleteCollection d name w
      = Res.ok (false, some x) (w.push w.store (findEvent d w name)) := by
  simp [tryDeleteCollection, bind, Prog.bind, findCollectionByNameOrId, h, pure, World.push,
    findEvent]

/-- C7: the first before-create request hook is an authorization check keyed on
the collection name. For every create request it returns the forbidden error if
and only if the record's collection is named "posts" and the request context
holds no admin (no non-nil `*models.Admin` under the admin key); in every other
case, so for every other collection name and for every request with an admin,
it returns no error. -/
theorem beforeCreateHook_forbidden_iff (adminKey authKey : String) (e : RecordCreateEvent) :
    ((beforeCreateHook adminKey authKey e).2
        = some (ApiError.forbidden
            "The authorized record model is not allowed to perform this action.") ↔
      (e.Record.collection.Name = "posts" ∧ (e.HttpContext adminKey).asAdmin = none)) ∧
    (¬ (e.Record.collection.Name = "posts" ∧ (e.HttpContext adminKey).asAdmin = none) →
      (beforeCreateHook adminKey authKey e).2 = none) := by
  unfold beforeCreateHook
  by_cases hn : e.Record.collection.Name = "posts"
  · cases ha : (e.HttpContext adminKey).asAdmin with
    | none => simp [hn, ha]
    | some a => simp [hn, ha]
  · simp [hn]

/-- The decision of the hook on a `posts` record without admin does not depend
on the authenticated record nor on the record's field values: it is the
forbidden error. -/
theorem beforeCreateHook_ignores_membership (adminKey authKey : String)
    (e : RecordCreateEvent) (hn : e.Record.collection.Name = "posts")
    (ha : (e.HttpContext adminKey).asAdmin = none) :
    (beforeCreateHook adminKey authKey e).2
      = some (ApiError.forbidden
          "The authorized record model is not allowed to perform this action.") := by
  simp [beforeCreateHook, hn, ha]

/-- C8, at the failing input: user `usr1` is a member of project `p1` in the
store, and the hook rejects the create request of `usr1` for a post of project
`p1` as forbidden, as it rejects the same request from `usr2`, who is not a
member. -/
theorem beforeCreateHook_rejects_member :
    isMember memberStore "usr1" "p1" = true ∧
    isMember memberStore "usr2" "p1" = false ∧
    (memberPostRequest.HttpContext "authRecord").asRecord = some (userRecord 1) ∧
    memberPostRequest.Record.Get "projects" = some "p1" ∧
    (beforeCreateHook "admin" "authRecord" memberPostRequest).2
      = some (ApiError.forbidden
          "The authorized record model is not allowed to perform this action.") ∧
    (beforeCreateHook "admin" "authRecord" strangerPostRequest).2
      = (beforeCreateHook "admin" "authRecord" memberPostRequest).2 := by
  decide!

/-- C9, counterexample: with the temp directory `/tmp`, the executable
`/tmpfoo/pocketbase` does not lie inside the temp directory, yet the result is
`./pb_public`, because `/tmp` is a string prefix of the path; and for the path
`bin/`, which `/tmp` is no prefix of, the result `pb_public` is not
`filepath.Join(filepath.Dir(path), "pb_public")`, which is `bin/pb_public`. -/
theorem defaultPublicDir_counterexample :
    (liesInside "/tmpfoo/pocketbase" "/tmp" = false ∧
      defaultPublicDir "/tmpfoo/pocketbase" "/tmp" = "./pb_public") ∧
    (HasPrefix "bin/" "/tmp" = false ∧ defaultPublicDir "bin/" "/tmp" = "pb_public" ∧
      Join (Dir "bin/") "pb_public" = "bin/pb_public") := by
  decide!


/-! ### Paths: splitting at slashes -/

theorem splitSlash_ne_nil (cs : List Char) : splitSlash cs ≠ [] := by
  cases cs with
  | nil => simp [splitSlash]
  | cons c cs =>
    simp only [splitSlash]
    split
    · simp
    · cases splitSlash cs <;> simp [consHead]

theorem consHead_append (c : Char) {X : List (List Char)} (Y : List (List Char)) (h : X ≠ []) :
    consHead c (X ++ Y) = consHead c X ++ Y := by
  cases X with
  | nil => exact absurd rfl h
  | cons e es => rfl

theorem splitSlash_append_slash (a b : List Char) :
    splitSlash (a ++ '/' :: b) = splitSlash a ++ splitSlash b := by
  induction a with
  | nil => simp [splitSlash]
  | cons c a ih =>
    simp only [List.cons_append, splitSlash, List.append_eq]
    split
    · rw [ih]; rfl
    · rw [ih, consHead_append c _ (splitSlash_ne_nil a)]

theorem splitSlash_of_noSlash {e : List Char} (h : '/' ∉ e) : splitSlash e = [e] := by
  induction e with
  | nil => rfl
  | cons c e ih =>
    simp only [List.mem_cons, not_or] at h
    simp only [splitSlash]
    rw [if_neg (fun hc => h.1 hc.symm), ih h.2]
    rfl

theorem noSlash_of_mem_splitSlash (cs : List Char) : ∀ e ∈ splitSlash cs, '/' ∉ e := by
  induction cs with
  | nil =>
    intro e he
    simp only [splitSlash, List.mem_singleton] at he
    rw [he]; exact List.not_mem_nil _
  | cons c cs ih =>
    intro e he
    simp only [splitSlash] at he
    split at he
    · rcases List.mem_cons.1 he with h | h
      · rw [h]; exact List.not_mem_nil _
      · exact ih e h
    · rename_i hc
      cases hs : splitSlash cs with
      | nil => exact absurd hs (splitSlash_ne_nil cs)
      | cons x xs =>
        rw [hs] at he ih
        simp only [consHead, List.mem_cons] at he
        rcases he with h | h
        · rw [h]
          simp only [List.mem_cons, not_or]
          exact ⟨fun h1 => hc h1.symm, ih x (List.mem_cons_self _ _)⟩
        · exact ih e (List.mem_cons_of_mem _ h)

theorem splitSlash_joinSlash {E : List (List Char)} (hne : E ≠ [])
    (h : ∀ e ∈ E, '/' ∉ e) : splitSlash (joinSlash E) = E := by
  induction E with
  | nil => exact absurd rfl hne
  | cons e es ih =>
    cases es with
    | nil => exact splitSlash_of_noSlash (h e (List.mem_cons_self _ _))
    | cons e2 es2 =>
      simp only [joinSlash]
      rw [splitSlash_append_slash, splitSlash_of_noSlash (h e (List.mem_cons_self _ _)),
        ih (by simp) (fun x hx => h x (List.mem_cons_of_mem _ hx))]
      rfl

theorem joinSlash_append_singleton {E : List (List Char)} (hne : E ≠ []) (e : List Char) :
    joinSlash (E ++ [e]) = joinSlash E ++ '/' :: e := by
  induction E with
  | nil => exact absurd rfl hne
  | cons x xs ih =>
    cases xs with
    | nil => rfl
    | cons y ys =>
      simp only [List.cons_append, joinSlash, List.append_eq] at ih ⊢
      rw [ih (by simp)]
      simp

/-! ### Paths: the elements `filepath.Clean` keeps -/

theorem normalStack_nil (rooted : Bool) : NormalStack rooted [] :=
  ⟨fun e he => absurd he (List.not_mem_nil e), [], 0, rfl,
    fun e he => absurd he (List.not_mem_nil e), fun _ => rfl⟩

theorem normalStack_step {rooted : Bool} {S : List (List Char)} (h : NormalStack rooted S)
    {e : List Char} (he : '/' ∉ e) : NormalStack rooted (cleanStep rooted S e) := by
  obtain ⟨hk, names, n, hS, hnames, hr⟩ := h
  unfold cleanStep
  split
  · exact ⟨hk, names, n, hS, hnames, hr⟩
  · rename_i h1
    simp only [not_or] at h1
    split
    · rename_i h2
      subst hS
      cases names with
      | cons p ps =>
        simp only [List.cons_append]
        have hp : ¬ p = ['.', '.'] := hnames p (List.mem_cons_self _ _)
        rw [if_neg hp]
        exact ⟨fun x hx => hk x (List.mem_cons_of_mem _ hx), ps, n, rfl,
          fun x hx => hnames x (List.mem_cons_of_mem _ hx), hr⟩
      | nil =>
        cases n with
        | zero =>
          simp only [List.replicate_zero, List.append_nil]
          cases rooted with
          | true => exact normalStack_nil true
          | false =>
            simp only [Bool.false_eq_true, if_false]
            refine ⟨?_, [], 1, by rw [h2]; rfl, fun x hx => absurd hx (List.not_mem_nil x),
              fun h => by cases h⟩
            intro x hx
            rw [List.mem_singleton.1 hx]
            exact ⟨h1.1, h1.2, he⟩
        | succ k =>
          simp only [List.nil_append, List.replicate_succ]
          have hd : dotdot = ['.', '.'] := rfl
          rw [if_pos hd]
          refine ⟨?_, [], k + 2, by rw [h2]; rfl, fun x hx => absurd hx (List.not_mem_nil x),
            fun h => by have := hr h; omega⟩
          intro x hx
          rcases List.mem_cons.1 hx with hx1 | hx1
          · rw [hx1]; exact ⟨h1.1, h1.2, he⟩
          · exact hk x (by simpa [List.replicate_succ] using hx1)
    · rename_i h2
      refine ⟨?_, e :: names, n, by rw [hS]; rfl, ?_, hr⟩
      · intro x hx
        rcases List.mem_cons.1 hx with hx1 | hx1
        · rw [hx1]; exact ⟨h1.1, h1.2, he⟩
        · exact hk x hx1
      · intro x hx
        rcases List.mem_cons.1 hx with hx1 | hx1
        · rw [hx1]; exact h2
        · exact hnames x hx1

theorem normalStack_foldl {rooted : Bool} (elems : List (List Char))
    (he : ∀ e ∈ elems, '/' ∉ e) {S : List (List Char)} (h : NormalStack rooted S) :
    NormalStack rooted (elems.foldl (cleanStep rooted) S) := by
  induction elems generalizing S with
  | nil => exact h
  | cons e es ih =>
    exact ih (fun x hx => he x (List.mem_cons_of_mem _ hx))
      (normalStack_step h (he e (List.mem_cons_self _ _)))

theorem normalStack_cleanStack (rooted : Bool) (cs : List Char) :
    NormalStack rooted (cleanStack rooted (splitSlash cs)) :=
  normalStack_foldl _ (noSlash_of_mem_splitSlash cs) (normalStack_nil rooted)

theorem foldl_cleanStep_dotdots (m n : Nat) :
    (List.replicate n dotdot).foldl (cleanStep false) (List.replicate m dotdot)
      = List.replicate (m + n) dotdot := by
  induction n generalizing m with
  | zero => rfl
  | succ k ih =>
    rw [List.replicate_succ, List.foldl_cons]
    have : cleanStep false (List.replicate m dotdot) dotdot = List.replicate (m + 1) dotdot := by
      cases m with
      | zero => rfl
      | succ j => simp [cleanStep, dotdot, List.replicate_succ]
    rw [this, ih]
    congr 1
    omega

theorem foldl_cleanStep_names (rooted : Bool) (xs acc : List (List Char))
    (h : ∀ e ∈ xs, e ≠ [] ∧ e ≠ ['.'] ∧ e ≠ dotdot) :
    xs.foldl (cleanStep rooted) acc = xs.reverse ++ acc := by
  induction xs generalizing acc with
  | nil => rfl
  | cons x xs ih =>
    obtain ⟨h1, h2, h3⟩ := h x (List.mem_cons_self _ _)
    have : cleanStep rooted acc x = x :: acc := by
      unfold cleanStep
      rw [if_neg (by simp [h1, h2]), if_neg (by simpa [dotdot] using h3)]
    rw [List.foldl_cons, this, ih _ (fun e he => h e (List.mem_cons_of_mem _ he))]
    simp

/-- Cleaning the kept elements again keeps them all. -/
theorem cleanStack_reverse {rooted : Bool} {S : List (List Char)} (h : NormalStack rooted S) :
    cleanStack rooted S.reverse = S := by
  obtain ⟨hk, names, n, hS, hnames, hr⟩ := h
  subst hS
  have hdots : (List.replicate n dotdot).foldl (cleanStep rooted) []
      = List.replicate n dotdot := by
    cases rooted with
    | true => rw [hr rfl]; rfl
    | false =>
      have := foldl_cleanStep_dotdots 0 n
      simpa using this
  unfold cleanStack
  rw [List.reverse_append, List.reverse_replicate, List.foldl_append, hdots,
    foldl_cleanStep_names]
  · simp
  · intro e he
    have hm : e ∈ names := List.mem_reverse.1 he
    have := hk e (List.mem_append_left _ hm)
    exact ⟨this.1, this.2.1, hnames e hm⟩

theorem cleanStack_cons_nil (rooted : Bool) (X : List (List Char)) :
    cleanStack rooted ([] :: X) = cleanStack rooted X := by
  simp [cleanStack, cleanStep]

theorem joinSlash_eq_nil {E : List (List Char)} (h : KeptElems E) :
    joinSlash E = [] ↔ E = [] := by
  cases E with
  | nil => simp [joinSlash]
  | cons e es =>
    have he := (h e (List.mem_cons_self _ _)).1
    cases es with
    | nil => simp [joinSlash, he]
    | cons e2 es2 => simp [joinSlash, he]

theorem keptElems_reverse {S : List (List Char)} (h : KeptElems S) : KeptElems S.reverse :=
  fun e he => h e (List.mem_reverse.1 he)

/-- Cleaning twice: `filepath.Clean` is idempotent on the elements: splitting and cleaning the
path it wrote gives the elements it kept. -/
theorem cleanStack_renderPath {rooted : Bool} {S : List (List Char)}
    (h : NormalStack rooted S) :
    cleanStack rooted (splitSlash (renderPath rooted S.reverse)) = S := by
  have hk := keptElems_reverse h.1
  have hns : ∀ e ∈ S.reverse, '/' ∉ e := fun e he => (hk e he).2.2
  by_cases hS : S = []
  · subst hS
    cases rooted <;> rfl
  · have hrev : S.reverse ≠ [] := by simpa using hS
    have hj : joinSlash S.reverse ≠ [] := fun hj => hrev ((joinSlash_eq_nil hk).1 hj)
    cases rooted with
    | true =>
      simp only [renderPath, if_true, splitSlash]
      rw [cleanStack_cons_nil, splitSlash_joinSlash hrev hns]
      exact cleanStack_reverse h
    | false =>
      simp only [renderPath, Bool.false_eq_true, if_false, hj]
      rw [splitSlash_joinSlash hrev hns]
      exact cleanStack_reverse h

theorem isRooted_renderPath {rooted : Bool} {E : List (List Char)} (h : KeptElems E) :
    isRooted (renderPath rooted E) = rooted := by
  cases rooted with
  | true => rfl
  | false =>
    simp only [renderPath, Bool.false_eq_true, if_false]
    split
    · rfl
    · rename_i hj
      cases E with
      | nil => exact absurd rfl hj
      | cons e es =>
        obtain ⟨h1, _, h3⟩ := h e (List.mem_cons_self _ _)
        cases e with
        | nil => exact absurd rfl h1
        | cons c cs =>
          have hc : c ≠ '/' := fun hc => h3 (by rw [hc]; exact List.mem_cons_self _ _)
          cases es with
          | nil => simp [joinSlash, isRooted, hc]
          | cons e2 es2 => simp [joinSlash, isRooted, hc]

/-! ### Paths: `defaultPublicDir` -/

theorem path_decomp (cs : List Char) :
    cs = dirPart cs ++ lastElem cs ∧ '/' ∉ lastElem cs ∧
    (dirPart cs = [] ∨ ∃ d1, dirPart cs = d1 ++ ['/']) := by
  refine ⟨?_, ?_, ?_⟩
  · have := List.takeWhile_append_dropWhile (fun c => c != '/') cs.reverse
    have h2 := congrArg List.reverse this
    simp only [List.reverse_append, List.reverse_reverse] at h2
    exact h2.symm
  · intro h
    have h1 : '/' ∈ cs.reverse.takeWhile (fun c => c != '/') := List.mem_reverse.1 h
    have := List.mem_takeWhile_imp h1
    simp at this
  · unfold dirPart
    cases hd : cs.reverse.dropWhile (fun c => c != '/') with
    | nil => exact Or.inl rfl
    | cons c rest =>
      right
      have h1 := List.head?_dropWhile_not (fun c => c != '/') cs.reverse
      rw [hd] at h1
      simp only [List.head?_cons, Option.all_some, Bool.not_eq_true', bne_eq_false_iff_eq] at h1
      exact ⟨rest.reverse, by rw [List.reverse_cons, h1]⟩

theorem isRooted_append {a : List Char} (b : List Char) (h : a ≠ []) :
    isRooted (a ++ b) = isRooted a := by
  cases a with
  | nil => exact absurd rfl h
  | cons c cs => rfl

theorem isRooted_of_noSlash {e : List Char} (h : '/' ∉ e) : isRooted e = false := by
  cases e with
  | nil => rfl
  | cons c cs =>
    have hc : c ≠ '/' := fun hc => h (by rw [hc]; exact List.mem_cons_self _ _)
    simp [isRooted, hc]

theorem renderPath_ne_nil (rooted : Bool) (E : List (List Char)) : renderPath rooted E ≠ [] := by
  unfold renderPath
  split
  · simp
  · split
    · simp
    · assumption

/-- The characters of `pb_public`. -/
theorem pbPublic_data : "pb_public".data = ['p', 'b', '_', 'p', 'u', 'b', 'l', 'i', 'c'] := rfl

theorem cleanStack_append (rooted : Bool) (X Y : List (List Char)) :
    cleanStack rooted (X ++ Y) = Y.foldl (cleanStep rooted) (cleanStack rooted X) := by
  simp [cleanStack, List.foldl_append]

theorem cleanStep_name (rooted : Bool) (S : List (List Char)) {e : List Char}
    (h : e ≠ [] ∧ e ≠ ['.'] ∧ e ≠ dotdot) : cleanStep rooted S e = e :: S := by
  unfold cleanStep
  rw [if_neg (by simp [h.1, h.2.1]), if_neg (by simpa [dotdot] using h.2.2)]

theorem cleanStep_dotdot_name (rooted : Bool) (S : List (List Char)) {e : List Char}
    (h : e ≠ dotdot) : cleanStep rooted (e :: S) dotdot = S := by
  have h1 : ¬ e = ['.', '.'] := h
  simp [cleanStep, dotdot, h1]

/-- The elements `filepath.Clean` keeps of `dir/name/../pb_public`, the last
element `name` being a file name, and of `filepath.Dir` of `dir/name` followed
by `pb_public`, are the same. -/
theorem cleanChars_parent (cs : List Char)
    (hname : lastElem cs ≠ [] ∧ lastElem cs ≠ ['.'] ∧ lastElem cs ≠ dotdot) :
    cleanChars (cs ++ '/' :: '.' :: '.' :: '/' :: "pb_public".data)
      = cleanChars (cleanChars (dirPart cs) ++ '/' :: "pb_public".data) := by
  obtain ⟨hcs, hns, hd⟩ := path_decomp cs
  have hpb : "pb_public".data ≠ [] ∧ "pb_public".data ≠ ['.'] ∧ "pb_public".data ≠ dotdot := by
    rw [pbPublic_data]; decide
  have hpbns : '/' ∉ "pb_public".data := by rw [pbPublic_data]; decide
  have hcsne : cs ≠ [] := by
    intro h
    rw [h] at hname
    exact hname.1 rfl
  -- the stack after the directory part, and the rootedness
  have key : ∃ S, NormalStack (isRooted cs) S ∧
      cleanStack (isRooted cs) (splitSlash cs) = lastElem cs :: S ∧
      cleanChars (dirPart cs) = renderPath (isRooted cs) S.reverse := by
    rcases hd with hd | ⟨d1, hd⟩
    · refine ⟨[], normalStack_nil _, ?_, ?_⟩
      · rw [hd, List.nil_append] at hcs
        rw [← hcs, splitSlash_of_noSlash (hcs ▸ hns)]
        simp only [cleanStack, List.foldl_cons, List.foldl_nil]
        exact cleanStep_name _ _ (hcs ▸ hname)
      · rw [hd, List.nil_append] at hcs
        have hr0 : isRooted cs = false :=
          (congrArg isRooted hcs).trans (isRooted_of_noSlash hns)
        rw [hd, hr0]
        rfl
    · have hr : isRooted (dirPart cs) = isRooted cs :=
        ((congrArg isRooted hcs).trans (isRooted_append _ (by rw [hd]; simp))).symm
      refine ⟨cleanStack (isRooted cs) (splitSlash d1), normalStack_cleanStack _ _, ?_, ?_⟩
      · have h1 : cs = d1 ++ '/' :: lastElem cs := by
          rw [hd] at hcs
          simpa using hcs
        have h2 : splitSlash cs = splitSlash d1 ++ [lastElem cs] := by
          conv_lhs => rw [h1]
          rw [splitSlash_append_slash, splitSlash_of_noSlash hns]
        rw [h2, cleanStack_append]
        simp only [List.foldl_cons, List.foldl_nil]
        exact cleanStep_name _ _ hname
      · have h3 : splitSlash (dirPart cs) = splitSlash d1 ++ [[]] := by
          rw [hd]
          have := splitSlash_append_slash d1 []
          simpa [splitSlash] using this
        unfold cleanChars
        rw [hr, h3, cleanStack_append]
        simp [cleanStep]
  obtain ⟨S, hS, hstack, hdir⟩ := key
  have hkept := keptElems_reverse hS.1
  -- left-hand side
  have hl : cleanChars (cs ++ '/' :: '.' :: '.' :: '/' :: "pb_public".data)
      = renderPath (isRooted cs) ("pb_public".data :: S).reverse := by
    unfold cleanChars
    rw [isRooted_append _ hcsne, splitSlash_append_slash]
    have h4 : splitSlash ('.' :: '.' :: '/' :: "pb_public".data) = [dotdot, "pb_public".data] := by
      have := splitSlash_append_slash ['.', '.'] "pb_public".data
      simp only [List.cons_append, List.nil_append] at this
      rw [this, splitSlash_of_noSlash hpbns]
      rfl
    rw [h4, cleanStack_append, hstack]
    simp only [List.foldl_cons, List.foldl_nil]
    rw [cleanStep_dotdot_name _ _ hname.2.2, cleanStep_name _ _ hpb]
  -- right-hand side
  have hrr : cleanChars (cleanChars (dirPart cs) ++ '/' :: "pb_public".data)
      = renderPath (isRooted cs) ("pb_public".data :: S).reverse := by
    rw [hdir]
    unfold cleanChars
    rw [isRooted_append _ (renderPath_ne_nil _ _), isRooted_renderPath hkept,
      splitSlash_append_slash, splitSlash_of_noSlash hpbns, cleanStack_append,
      cleanStack_renderPath hS]
    simp only [List.foldl_cons, List.foldl_nil]
    rw [cleanStep_name _ _ hpb]
  rw [hl, hrr]

theorem renderPath_ne_dotSlash {rooted : Bool} {E : List (List Char)} (h : KeptElems E)
    (rest : List Char) : renderPath rooted E ≠ '.' :: '/' :: rest := by
  cases rooted with
  | true => simp [renderPath]
  | false =>
    simp only [renderPath, Bool.false_eq_true, if_false]
    split
    · simp
    · cases E with
      | nil => simp [joinSlash]
      | cons e es =>
        obtain ⟨h1, h2, h3⟩ := h e (List.mem_cons_self _ _)
        intro heq
        have hhead : ∃ tl, joinSlash (e :: es) = e ++ tl := by
          cases es with
          | nil => exact ⟨[], by simp [joinSlash]⟩
          | cons e2 es2 => exact ⟨'/' :: joinSlash (e2 :: es2), rfl⟩
        obtain ⟨tl, htl⟩ := hhead
        rw [htl] at heq
        cases e with
        | nil => exact h1 rfl
        | cons c cs =>
          cases cs with
          | nil =>
            simp only [List.cons_append, List.nil_append, List.cons.injEq] at heq
            exact h2 (by rw [heq.1])
          | cons c2 cs2 =>
            simp only [List.cons_append, List.cons.injEq] at heq
            exact h3 (by rw [heq.2.1]; simp)

theorem cleanChars_ne_dotSlash (cs rest : List Char) : cleanChars cs ≠ '.' :: '/' :: rest :=
  renderPath_ne_dotSlash (keptElems_reverse (normalStack_cleanStack _ cs).1) rest

theorem string_ne_empty_iff (s : String) : s ≠ "" ↔ s.data ≠ [] := by
  rw [Ne, String.ext_iff]

theorem join_of_ne_empty {a : String} (b : String) (h : a.data ≠ []) :
    Join a b = String.mk (cleanChars (a.data ++ '/' :: b.data)) := by
  have ha : a ≠ "" := (string_ne_empty_iff a).2 h
  simp only [Join, ha, ne_eq, not_false_eq_true, if_true, Clean, String.data_append]
  rw [List.append_assoc]
  rfl

theorem join_parent_ne_dotSlash (a : String) : Join a "../pb_public" ≠ "./pb_public" := by
  by_cases h : a.data = []
  · have ha : a = "" := by
      rw [String.ext_iff]; exact h
    subst ha
    decide
  · rw [join_of_ne_empty _ h]
    intro heq
    have := congrArg String.data heq
    exact cleanChars_ne_dotSlash _ _ this

/-- C9, amended: `defaultPublicDir` returns `./pb_public` exactly when
`os.Args[0]` has the temp directory as a string prefix; otherwise, when the
last element of `os.Args[0]` is a file name (not empty, `.` or `..`), the
result is the `pb_public` entry of the directory that contains the executable,
`filepath.Join(filepath.Dir(os.Args[0]), "pb_public")`. -/
theorem defaultPublicDir_relative_to_executable (args0 tempDir : String) :
    (defaultPublicDir args0 tempDir = "./pb_public" ↔ HasPrefix args0 tempDir = true) ∧
    (HasPrefix args0 tempDir = false → lastElem args0.data ≠ [] →
      lastElem args0.data ≠ ['.'] → lastElem args0.data ≠ ['.', '.'] →
      defaultPublicDir args0 tempDir = Join (Dir args0) "pb_public") := by
  constructor
  · unfold defaultPublicDir
    cases h : HasPrefix args0 tempDir with
    | true => simp
    | false =>
      simp only [Bool.false_eq_true, if_false, iff_false]
      exact join_parent_ne_dotSlash args0
  · intro h h1 h2 h3
    have hne : args0.data ≠ [] := by
      intro h0
      rw [h0] at h1
      exact h1 rfl
    have hdir : (Dir args0).data ≠ [] := renderPath_ne_nil _ _
    unfold defaultPublicDir
    rw [h]
    simp only [Bool.false_eq_true, if_false]
    rw [join_of_ne_empty _ hne, join_of_ne_empty _ hdir]
    have := cleanChars_parent args0.data ⟨h1, h2, h3⟩
    exact congrArg String.mk this

/-- C9, amended, at `/usr/local/bin/pocketbase` with the temp directory `/tmp`. -/
theorem defaultPublicDir_relative_to_executable_witness :
    defaultPublicDir "/usr/local/bin/pocketbase" "/tmp"
        = Join (Dir "/usr/local/bin/pocketbase") "pb_public" ∧
    Join (Dir "/usr/local/bin/pocketbase") "pb_public" = "/usr/local/bin/pb_public" :=
  ⟨(defaultPublicDir_relative_to_executable "/usr/local/bin/pocketbase" "/tmp").2
    (by decide) (by decide) (by decide) (by decide), by decide!⟩

end Theorems

end Pb
